import Mathlib

/-!
# Chunked inflate driver (`executor/common_zlib.h`, `executor/zlib_decompress.h`)

A shallow embedding of the two `decompress` drivers and of the observable
events they produce.  The decompression engine (zlib), the destination stream
and the error indicators of the C library are external: they are the fields of
`World`, and every theorem quantifies over them.

The loops of the drivers need not terminate (an engine may fill the output
buffer for ever), so the embedding takes a bound `fuel` on the number of loop
bodies entered and reports `Outcome.unfinished` when the bound is reached.
A run is recorded as the list of calls it makes, with their results, and the
bytes the destination holds are read off the `fwrite` calls (`sinkBytes`).
The buffer size is a parameter `chunk` of the loops; `decompress` fixes it to
`CHUNK`.

The two properties that speak of what the engine decodes (chunk-boundary
invariance and round trip) are stated for every engine whose steps add up to
one decoding of the whole stream (`World.Refines`).  A reference engine,
`Codec.world`, is such an engine: a streaming decoder for a format with several
framings, checked against a decoding that knows nothing of steps or buffers
(`Codec.decode`).
-/

namespace Zpipe

/-- An `unsigned char`. -/
abbrev Byte := UInt8

/-! ## Constants of `zlib.h` and of the drivers

The return codes and `MAX_WBITS` have the values the zlib header gives them. -/

@[simp] def Z_OK : Int := 0
@[simp] def Z_STREAM_END : Int := 1
@[simp] def Z_NEED_DICT : Int := 2
@[simp] def Z_ERRNO : Int := -1
@[simp] def Z_STREAM_ERROR : Int := -2
@[simp] def Z_DATA_ERROR : Int := -3
@[simp] def Z_MEM_ERROR : Int := -4
@[simp] def Z_BUF_ERROR : Int := -5
@[simp] def Z_VERSION_ERROR : Int := -6
@[simp] def MAX_WBITS : Int := 15

/-- The `#define CHUNK 4096` of both files. -/
def CHUNK : Nat := 4096

/-! ## The external collaborators -/

/-- What one call `inflate(&stream, Z_NO_FLUSH)` leaves behind: the return
value, the engine's internal state, the input it did not consume
(`next_in`, with `avail_in` its length) and the bytes it stored at `next_out`
(so that `avail_out` drops by their number). -/
structure InflateResult (σ : Type) where
  ret : Int
  state : σ
  next_in : List Byte
  out : List Byte

/-- The environment of one call of `decompress`: `σ` is the state of the
engine session, `τ` the state of the destination stream. -/
structure World (σ τ : Type) where
  /-- The call `inflateInit(&stream)`: return value and fresh session. -/
  inflateInit : Int × σ
  /-- The call `inflateInit2(&stream, windowBits)`. -/
  inflateInit2 : Int → Int × σ
  /-- The call `inflate(&stream, Z_NO_FLUSH)` on a session, the pending input
  and the room `avail_out` in the output buffer. -/
  inflate : σ → List Byte → Nat → InflateResult σ
  /-- The call `fwrite(out, 1, have, dest)`: number of items written and the
  destination afterwards. -/
  fwrite : τ → List Byte → Nat × τ
  /-- The call `ferror(dest)`. -/
  ferror_dest : τ → Bool
  /-- The call `ferror(source)` after the `k`-th `fread` (counted from 0). -/
  ferror_source : Nat → Bool
  /-- The value of `errno` at `if (errno)` after `fmemopen` (common_zlib.h only). -/
  errno_fmemopen : Int
  /-- The value of `errno` at `if (errno)` after `fdopen` (common_zlib.h only). -/
  errno_fdopen : Int
  /-- Whether `NDEBUG` is defined, that is, whether `assert` is compiled out. -/
  ndebug : Bool
  /-- The destination stream as the call finds it. -/
  dest : τ

/-! ## Observable behaviour -/

/-- The calls a run makes to its collaborators, with their results. -/
inductive Event where
  | inflateInit (ret : Int)
  | inflateInit2 (windowBits : Int) (ret : Int)
  | fmemopen (input : List Byte)
  | fdopen
  | errno (value : Int)
  | fread (data : List Byte) (ferror : Bool)
  | inflate (next_in : List Byte) (ret : Int) (out : List Byte)
  | fwrite (data : List Byte) (written : Nat) (ferror : Bool)
  | inflateEnd
  | fcloseSource
  | fcloseDest
  deriving DecidableEq

/-- How a run ends: `decompress` returns a value, `assert` aborts the
process, or the bound on the number of loop bodies was reached first. -/
inductive Outcome where
  | returned (ret : Int)
  | aborted
  | unfinished
  deriving DecidableEq

/-- A run: how it ends and the calls it made, in order. -/
structure Run where
  outcome : Outcome
  trace : List Event
  deriving DecidableEq

/-- The run that makes the calls `es` and then goes on as `r`. -/
def Run.after (es : List Event) (r : Run) : Run :=
  ⟨r.outcome, es ++ r.trace⟩

/-- The variables of `decompress` that live across loop iterations. -/
structure Vars (σ τ : Type) where
  /-- The variable `ret`. -/
  ret : Int
  /-- The engine session behind `stream`. -/
  stream : σ
  /-- The bytes of the memory stream `source` not read yet. -/
  source : List Byte
  /-- The number of `fread` calls made so far. -/
  reads : Nat
  /-- The destination stream. -/
  dest : τ

/-- The end of both drivers, after the loops:
`return ret == Z_STREAM_END ? Z_OK : Z_DATA_ERROR;`. -/
def finalStatus (ret : Int) : Int :=
  if ret = Z_STREAM_END then Z_OK else Z_DATA_ERROR

/-! ## `executor/common_zlib.h` -/

namespace CommonZlib

/-- The calls of `cleanup(&stream, source, dest)`. -/
def cleanup : List Event :=
  [Event.inflateEnd, Event.fcloseSource, Event.fcloseDest]

mutual
/-- The outer loop `do { ... } while (ret != Z_STREAM_END);` from the top of
its body, followed by the end of `decompress`; `chunk` is `CHUNK`. -/
def fill {σ τ : Type} (w : World σ τ) (chunk : Nat) : Nat → Vars σ τ → Run
  | 0, _ => ⟨Outcome.unfinished, []⟩
  | fuel + 1, v =>
    -- stream.avail_in = fread(in, 1, CHUNK, source);
    let data := v.source.take chunk
    let err := w.ferror_source v.reads
    let v1 : Vars σ τ := { v with source := v.source.drop chunk, reads := v.reads + 1 }
    Run.after [Event.fread data err] (
      if err = true then
        Run.after cleanup ⟨Outcome.returned Z_ERRNO, []⟩
      else if data.length = 0 then
        -- break;
        Run.after cleanup ⟨Outcome.returned (finalStatus v1.ret), []⟩
      else
        -- stream.next_in = in;
        drain w chunk fuel v1 data)
/-- The inner loop `do { ... } while (stream.avail_out == 0);` from the top
of its body, followed by the rest of the outer loop. -/
def drain {σ τ : Type} (w : World σ τ) (chunk : Nat) : Nat → Vars σ τ → List Byte → Run
  | 0, _, _ => ⟨Outcome.unfinished, []⟩
  | fuel + 1, v, next_in =>
    -- stream.avail_out = CHUNK; stream.next_out = out;
    -- ret = inflate(&stream, Z_NO_FLUSH);
    let r := w.inflate v.stream next_in chunk
    -- the buffer `out` has room for `CHUNK` bytes, of which `avail_out` stay free
    let out := r.out.take chunk
    let avail_out := chunk - out.length
    let ret := r.ret
    Run.after [Event.inflate next_in ret out] (
      -- assert(ret != Z_STREAM_ERROR);
      if w.ndebug = false ∧ ret = Z_STREAM_ERROR then
        ⟨Outcome.aborted, []⟩
      else if ret = Z_NEED_DICT then
        Run.after cleanup ⟨Outcome.returned Z_DATA_ERROR, []⟩
      else if ret = Z_DATA_ERROR ∨ ret = Z_MEM_ERROR then
        Run.after cleanup ⟨Outcome.returned ret, []⟩
      else
        -- have = CHUNK - stream.avail_out;
        -- if (fwrite(out, 1, have, dest) != have || ferror(dest))
        let have_ := chunk - avail_out
        let wr := w.fwrite v.dest (out.take have_)
        let err := w.ferror_dest wr.2
        let v1 : Vars σ τ := { v with ret := ret, stream := r.state, dest := wr.2 }
        Run.after [Event.fwrite (out.take have_) wr.1 err] (
          if wr.1 ≠ have_ ∨ err = true then
            Run.after cleanup ⟨Outcome.returned Z_ERRNO, []⟩
          else if avail_out = 0 then
            drain w chunk fuel v1 r.next_in
          else if ret ≠ Z_STREAM_END then
            fill w chunk fuel v1
          else
            Run.after cleanup ⟨Outcome.returned (finalStatus ret), []⟩))
end

/-- The function `decompress(input, length, dest_fd)` with the buffer size as
a parameter; `input` holds the `length` bytes of the array. -/
def decompressWith {σ τ : Type} (w : World σ τ) (chunk : Nat) (input : List Byte)
    (fuel : Nat) : Run :=
  -- int ret = inflateInit2(&stream, 16 + MAX_WBITS);
  let init := w.inflateInit2 (16 + MAX_WBITS)
  Run.after [Event.inflateInit2 (16 + MAX_WBITS) init.1] (
    if init.1 ≠ Z_OK then
      ⟨Outcome.returned init.1, []⟩
    else
      -- FILE* source = fmemopen(input, length, "rb"); if (errno)
      Run.after [Event.fmemopen input, Event.errno w.errno_fmemopen] (
        if w.errno_fmemopen ≠ 0 then
          ⟨Outcome.returned Z_ERRNO, []⟩
        else
          -- FILE* dest = fdopen(dest_fd, "wb"); if (errno)
          Run.after [Event.fdopen, Event.errno w.errno_fdopen] (
            if w.errno_fdopen ≠ 0 then
              ⟨Outcome.returned Z_ERRNO, []⟩
            else
              fill w chunk fuel ⟨init.1, init.2, input, 0, w.dest⟩)))

/-- The function `decompress` of common_zlib.h. -/
def decompress {σ τ : Type} (w : World σ τ) (input : List Byte) (fuel : Nat) : Run :=
  decompressWith w CHUNK input fuel

end CommonZlib

/-! ## `executor/zlib_decompress.h` -/

namespace ZlibDecompress

/-- The calls of `cleanup(&stream, source)`. -/
def cleanup : List Event :=
  [Event.inflateEnd, Event.fcloseSource]

mutual
/-- The outer loop `do { ... } while (ret != Z_STREAM_END);` from the top of
its body, followed by the end of `decompress`; `chunk` is `CHUNK`. -/
def fill {σ τ : Type} (w : World σ τ) (chunk : Nat) : Nat → Vars σ τ → Run
  | 0, _ => ⟨Outcome.unfinished, []⟩
  | fuel + 1, v =>
    -- stream.avail_in = fread(in, 1, CHUNK, source);
    let data := v.source.take chunk
    let err := w.ferror_source v.reads
    let v1 : Vars σ τ := { v with source := v.source.drop chunk, reads := v.reads + 1 }
    Run.after [Event.fread data err] (
      if err = true then
        Run.after cleanup ⟨Outcome.returned Z_ERRNO, []⟩
      else if data.length = 0 then
        -- break;
        Run.after cleanup ⟨Outcome.returned (finalStatus v1.ret), []⟩
      else
        -- stream.next_in = in;
        drain w chunk fuel v1 data)
/-- The inner loop `do { ... } while (stream.avail_out == 0);` from the top
of its body, followed by the rest of the outer loop. -/
def drain {σ τ : Type} (w : World σ τ) (chunk : Nat) : Nat → Vars σ τ → List Byte → Run
  | 0, _, _ => ⟨Outcome.unfinished, []⟩
  | fuel + 1, v, next_in =>
    -- stream.avail_out = CHUNK; stream.next_out = out;
    -- ret = inflate(&stream, Z_NO_FLUSH);
    let r := w.inflate v.stream next_in chunk
    -- the buffer `out` has room for `CHUNK` bytes, of which `avail_out` stay free
    let out := r.out.take chunk
    let avail_out := chunk - out.length
    let ret := r.ret
    Run.after [Event.inflate next_in ret out] (
      -- assert(ret != Z_STREAM_ERROR);
      if w.ndebug = false ∧ ret = Z_STREAM_ERROR then
        ⟨Outcome.aborted, []⟩
      else if ret = Z_NEED_DICT then
        Run.after cleanup ⟨Outcome.returned Z_DATA_ERROR, []⟩
      else if ret = Z_DATA_ERROR ∨ ret = Z_MEM_ERROR then
        Run.after cleanup ⟨Outcome.returned ret, []⟩
      else
        -- have = CHUNK - stream.avail_out;
        -- if (fwrite(out, 1, have, dest) != have || ferror(dest))
        let have_ := chunk - avail_out
        let wr := w.fwrite v.dest (out.take have_)
        let err := w.ferror_dest wr.2
        let v1 : Vars σ τ := { v with ret := ret, stream := r.state, dest := wr.2 }
        Run.after [Event.fwrite (out.take have_) wr.1 err] (
          if wr.1 ≠ have_ ∨ err = true then
            Run.after cleanup ⟨Outcome.returned Z_ERRNO, []⟩
          else if avail_out = 0 then
            drain w chunk fuel v1 r.next_in
          else if ret ≠ Z_STREAM_END then
            fill w chunk fuel v1
          else
            Run.after cleanup ⟨Outcome.returned (finalStatus ret), []⟩))
end

/-- The function `decompress(input, length, dest)` with the buffer size as a
parameter; `input` holds the `length` bytes of the array.  The file does not
check the result of `fmemopen`, which is taken to succeed. -/
def decompressWith {σ τ : Type} (w : World σ τ) (chunk : Nat) (input : List Byte)
    (fuel : Nat) : Run :=
  -- ret = inflateInit(&stream);
  let init := w.inflateInit
  Run.after [Event.inflateInit init.1] (
    if init.1 ≠ Z_OK then
      ⟨Outcome.returned init.1, []⟩
    else
      -- FILE* source = fmemopen(input, length, "r");
      Run.after [Event.fmemopen input] (
        fill w chunk fuel ⟨init.1, init.2, input, 0, w.dest⟩))

/-- The function `decompress` of zlib_decompress.h. -/
def decompress {σ τ : Type} (w : World σ τ) (input : List Byte) (fuel : Nat) : Run :=
  decompressWith w CHUNK input fuel

end ZlibDecompress

/-! ## Both drivers -/

/-- The two source files. -/
inductive Variant where
  | common_zlib
  | zlib_decompress
  deriving DecidableEq

/-- The calls of `cleanup` in either file. -/
def Variant.cleanup : Variant → List Event
  | Variant.common_zlib => CommonZlib.cleanup
  | Variant.zlib_decompress => ZlibDecompress.cleanup

/-- The function `decompress` of either file, with the buffer size as a parameter. -/
def decompressWith {σ τ : Type} (var : Variant) (w : World σ τ) (chunk : Nat)
    (input : List Byte) (fuel : Nat) : Run :=
  match var with
  | Variant.common_zlib => CommonZlib.decompressWith w chunk input fuel
  | Variant.zlib_decompress => ZlibDecompress.decompressWith w chunk input fuel

/-- The function `decompress` of either file. -/
def decompress {σ τ : Type} (var : Variant) (w : World σ τ) (input : List Byte)
    (fuel : Nat) : Run :=
  match var with
  | Variant.common_zlib => CommonZlib.decompress w input fuel
  | Variant.zlib_decompress => ZlibDecompress.decompress w input fuel

/-- The result of engine initialisation in either file. -/
def Variant.init {σ τ : Type} (var : Variant) (w : World σ τ) : Int × σ :=
  match var with
  | Variant.common_zlib => w.inflateInit2 (16 + MAX_WBITS)
  | Variant.zlib_decompress => w.inflateInit

/-! ## Observations on traces -/

/-- The bytes the destination took: for every `fwrite`, the items it reports
as written. -/
def sinkBytes : List Event → List Byte
  | [] => []
  | Event.fwrite data n _ :: es => data.take n ++ sinkBytes es
  | _ :: es => sinkBytes es

/-- The return values of the `inflate` calls, in order. -/
def stepStatuses : List Event → List Int
  | [] => []
  | Event.inflate _ ret _ :: es => ret :: stepStatuses es
  | _ :: es => stepStatuses es

/-- The bytes produced by the `inflate` calls, in order. -/
def stepOutputs : List Event → List (List Byte)
  | [] => []
  | Event.inflate _ _ out :: es => out :: stepOutputs es
  | _ :: es => stepOutputs es

/-- The data of the `fread` calls, in order. -/
def readChunks : List Event → List (List Byte)
  | [] => []
  | Event.fread data _ :: es => data :: readChunks es
  | _ :: es => readChunks es

/-- The number of `inflateEnd` calls. -/
def teardowns (t : List Event) : Nat :=
  t.count Event.inflateEnd

/-- Whether the result of a call makes the drivers take an error return. -/
def Event.failed : Event → Bool
  | Event.inflateInit ret => decide (ret ≠ Z_OK)
  | Event.inflateInit2 _ ret => decide (ret ≠ Z_OK)
  | Event.errno value => decide (value ≠ 0)
  | Event.fread _ err => err
  | Event.inflate _ ret _ =>
    decide (ret = Z_NEED_DICT ∨ ret = Z_DATA_ERROR ∨ ret = Z_MEM_ERROR)
  | Event.fwrite data n err => decide (n ≠ data.length) || err
  | _ => false

/-- A trace in which no call made the drivers take an error return. -/
def ErrorFree (t : List Event) : Prop :=
  ∀ e ∈ t, e.failed = false

instance (t : List Event) : Decidable (ErrorFree t) := by
  unfold ErrorFree; infer_instance

/-- A step status on which the drivers neither abort nor return: `assert`
lets it through and it is none of the `case` labels of the `switch`. -/
def Continues (ndebug : Bool) (ret : Int) : Prop :=
  ¬ (ndebug = false ∧ ret = Z_STREAM_ERROR) ∧ ret ≠ Z_NEED_DICT ∧
    ret ≠ Z_DATA_ERROR ∧ ret ≠ Z_MEM_ERROR

/-- The runs of the loops as a grammar: `LoopRun chunk cl ndebug (some ret) o t`
for a run from the top of the outer loop with the variable `ret`, and
`LoopRun chunk cl ndebug none o t` for a run from the top of the inner loop;
`o` is how the run ends, `t` are its calls and `cl` the calls of `cleanup`. -/
inductive LoopRun (chunk : Nat) (cl : List Event) (ndebug : Bool) :
    Option Int → Outcome → List Event → Prop where
  | fuel (at_ : Option Int) : LoopRun chunk cl ndebug at_ Outcome.unfinished []
  | read_error (ret : Int) (data : List Byte) :
      LoopRun chunk cl ndebug (some ret) (Outcome.returned Z_ERRNO)
        (Event.fread data true :: cl)
  | eof (ret : Int) :
      LoopRun chunk cl ndebug (some ret) (Outcome.returned (finalStatus ret))
        (Event.fread [] false :: cl)
  | feed (ret : Int) (data : List Byte) (o : Outcome) (t : List Event) :
      data ≠ [] → data.length ≤ chunk → LoopRun chunk cl ndebug none o t →
      LoopRun chunk cl ndebug (some ret) o (Event.fread data false :: t)
  | abort (ni out : List Byte) :
      ndebug = false → out.length ≤ chunk →
      LoopRun chunk cl ndebug none Outcome.aborted [Event.inflate ni Z_STREAM_ERROR out]
  | need_dict (ni out : List Byte) :
      out.length ≤ chunk →
      LoopRun chunk cl ndebug none (Outcome.returned Z_DATA_ERROR)
        (Event.inflate ni Z_NEED_DICT out :: cl)
  | step_error (ni : List Byte) (ret : Int) (out : List Byte) :
      ret = Z_DATA_ERROR ∨ ret = Z_MEM_ERROR → out.length ≤ chunk →
      LoopRun chunk cl ndebug none (Outcome.returned ret) (Event.inflate ni ret out :: cl)
  | write_error (ni : List Byte) (ret : Int) (out : List Byte) (n : Nat) (err : Bool) :
      Continues ndebug ret → out.length ≤ chunk → (n ≠ out.length ∨ err = true) →
      LoopRun chunk cl ndebug none (Outcome.returned Z_ERRNO)
        (Event.inflate ni ret out :: Event.fwrite out n err :: cl)
  | more (ni : List Byte) (ret : Int) (out : List Byte) (o : Outcome) (t : List Event) :
      Continues ndebug ret → out.length = chunk → LoopRun chunk cl ndebug none o t →
      LoopRun chunk cl ndebug none o
        (Event.inflate ni ret out :: Event.fwrite out out.length false :: t)
  | next (ni : List Byte) (ret : Int) (out : List Byte) (o : Outcome) (t : List Event) :
      Continues ndebug ret → out.length < chunk → ret ≠ Z_STREAM_END →
      LoopRun chunk cl ndebug (some ret) o t →
      LoopRun chunk cl ndebug none o
        (Event.inflate ni ret out :: Event.fwrite out out.length false :: t)
  | stream_end (ni out : List Byte) :
      Continues ndebug Z_STREAM_END → out.length < chunk →
      LoopRun chunk cl ndebug none (Outcome.returned Z_OK)
        (Event.inflate ni Z_STREAM_END out :: Event.fwrite out out.length false :: cl)

/-- The initialisation call of either file, as it appears in the trace. -/
def Variant.initCall {σ τ : Type} (var : Variant) (w : World σ τ) : Event :=
  match var with
  | Variant.common_zlib =>
    Event.inflateInit2 (16 + MAX_WBITS) (w.inflateInit2 (16 + MAX_WBITS)).1
  | Variant.zlib_decompress => Event.inflateInit w.inflateInit.1

/-- The calls either file makes before its loops when none of them fails. -/
def Variant.prelude {σ τ : Type} (var : Variant) (w : World σ τ) (input : List Byte) :
    List Event :=
  match var with
  | Variant.common_zlib =>
    [var.initCall w, Event.fmemopen input, Event.errno w.errno_fmemopen,
      Event.fdopen, Event.errno w.errno_fdopen]
  | Variant.zlib_decompress => [var.initCall w, Event.fmemopen input]

/-- A list of calls that are all teardown calls, as the calls of `cleanup` are. -/
def Quiet (cl : List Event) : Prop :=
  ∀ e ∈ cl, e = Event.inflateEnd ∨ e = Event.fcloseSource ∨ e = Event.fcloseDest

/-- The calls made inside the loops, teardown apart. -/
def Event.inLoop : Event → Bool
  | Event.fread _ _ => true
  | Event.inflate _ _ _ => true
  | Event.fwrite _ _ _ => true
  | _ => false

/-- The world in which every `inflate` call that would report `Z_NEED_DICT`
reports `Z_DATA_ERROR` instead, all else unchanged. -/
def World.needDictAsDataError {σ τ : Type} (w : World σ τ) : World σ τ :=
  { w with
    inflate := fun s ni n =>
      { w.inflate s ni n with
        ret := if (w.inflate s ni n).ret = Z_NEED_DICT then Z_DATA_ERROR
          else (w.inflate s ni n).ret } }

/-- The call with the status `Z_NEED_DICT` of a step replaced by `Z_DATA_ERROR`. -/
def Event.needDictAsDataError : Event → Event
  | Event.inflate ni ret out =>
    Event.inflate ni (if ret = Z_NEED_DICT then Z_DATA_ERROR else ret) out
  | e => e

/-- The run with the same end and every call relabelled in that way. -/
def Run.needDictAsDataError (r : Run) : Run :=
  ⟨r.outcome, r.trace.map Event.needDictAsDataError⟩

/-! ## Example worlds -/

/-- A world in which every call succeeds and the `k`-th call of `inflate`
(counted from 0) answers with the `k`-th entry of `steps`: its return value and
the bytes it stores; it consumes all pending input, and past the end of
`steps` it reports `Z_BUF_ERROR` and stores nothing.  The destination counts
the writes it took. -/
def scripted (steps : List (Int × List Byte)) : World Nat Nat where
  inflateInit := (Z_OK, 0)
  inflateInit2 := fun _ => (Z_OK, 0)
  inflate := fun k _ _ =>
    match steps[k]? with
    | some (ret, out) => ⟨ret, k + 1, [], out⟩
    | none => ⟨Z_BUF_ERROR, k + 1, [], []⟩
  fwrite := fun k data => (data.length, k + 1)
  ferror_dest := fun _ => false
  ferror_source := fun _ => false
  errno_fmemopen := 0
  errno_fdopen := 0
  ndebug := false
  dest := 0

/-! ## Comparing the two files -/

/-- The calls of a run of zlib_decompress.h with a call `fclose(dest)` put after
each call `fclose(source)`, as `cleanup` of common_zlib.h makes it. -/
def closingDest : List Event → List Event
  | [] => []
  | Event.fcloseSource :: es => Event.fcloseSource :: Event.fcloseDest :: closingDest es
  | e :: es => e :: closingDest es

/-- The run with the same end and `fclose(dest)` put after each `fclose(source)`. -/
def Run.closingDest (r : Run) : Run :=
  ⟨r.outcome, Zpipe.closingDest r.trace⟩

/-- The calls that both files make in the same way: every call but the
initialisation call, the opening of the destination with its `errno` checks,
and the closing of the destination. -/
def Event.shared : Event → Bool
  | Event.fmemopen _ => true
  | Event.fread _ _ => true
  | Event.inflate _ _ _ => true
  | Event.fwrite _ _ _ => true
  | Event.inflateEnd => true
  | Event.fcloseSource => true
  | _ => false

/-! ## Input chunks -/

/-- The slice `input[chunk * k .. min (chunk * (k + 1)) length)` of the input. -/
def slice (chunk : Nat) (input : List Byte) (k : Nat) : List Byte :=
  (input.drop (chunk * k)).take chunk

/-- The input chunks handed to the engine: the pending input of every `inflate`
call that comes right after a `fread`, in order. -/
def fedChunks : List Event → List (List Byte)
  | [] => []
  | Event.fread _ _ :: Event.inflate ni _ _ :: es => ni :: fedChunks es
  | _ :: es => fedChunks es

/-- What the calls of the loops of zlib_decompress.h become in either file. -/
def Variant.closing : Variant → List Event → List Event
  | Variant.common_zlib => closingDest
  | Variant.zlib_decompress => id

/-! ## Termination of the inner loop -/

/-- The result of the `inflate` call that comes after `n` earlier calls in a
row on one input chunk, the first of them made on session `s` with pending
input `ni`. -/
def World.stepAfter {σ τ : Type} (w : World σ τ) (chunk : Nat) :
    Nat → σ → List Byte → InflateResult σ
  | 0, s, ni => w.inflate s ni chunk
  | n + 1, s, ni =>
    World.stepAfter w chunk n (w.inflate s ni chunk).state (w.inflate s ni chunk).next_in

/-- Every inner loop ends: from every session and pending input, some call in
a row reports a status on which the drivers return (`Z_NEED_DICT`,
`Z_DATA_ERROR`, `Z_MEM_ERROR`) or stores fewer than `chunk` bytes. -/
def DrainEnds {σ τ : Type} (w : World σ τ) (chunk : Nat) : Prop :=
  ∀ (s : σ) (ni : List Byte), ∃ n,
    ((w.stepAfter chunk n s ni).ret = Z_NEED_DICT ∨
      (w.stepAfter chunk n s ni).ret = Z_DATA_ERROR ∨
      (w.stepAfter chunk n s ni).ret = Z_MEM_ERROR) ∨
    ((w.stepAfter chunk n s ni).out.take chunk).length < chunk

/-! ## Engines that decode a stream

The engine behind `inflate` is zlib, which is not part of the two files.  The
properties that speak of what the engine decodes are stated for every engine
whose steps add up to one decoding of the stream (`World.Refines`), and shown
to have an instance in a reference engine that reads its input byte by byte
(`Codec.world`). -/

/-- Modelled from the spec: how the decoding of a whole byte sequence ends: the
end-of-stream marker was read, the stream was found malformed, or the input ran
out before either. -/
inductive Verdict where
  | ended
  | corrupt
  | truncated
  deriving DecidableEq

/-- Modelled from the spec: the status `decompress` is to return for a stream
that is not empty: `Z_OK` for a complete stream, `Z_DATA_ERROR` for a malformed
or truncated one. -/
def Verdict.status : Verdict → Int
  | Verdict.ended => Z_OK
  | Verdict.corrupt => Z_DATA_ERROR
  | Verdict.truncated => Z_DATA_ERROR

/-- Modelled from the spec: an engine whose decoded output does not depend on
how the input is split across steps.  `dec s I` is the decoding, as a whole, of
the stream `I` by the session `s`: the bytes it yields and how it ends.  Every
step, whatever the room `avail_out > 0` and wherever the pending input `next_in`
ends in the stream, stores no more than the room and does one of three things.
It reports `Z_OK` or `Z_BUF_ERROR`, having stored the next bytes of the decoding
and left the rest of it to the session and the unread input; if it leaves room
in the buffer, it has read all pending input and found neither the end of the
stream nor a defect.  Or it reports `Z_STREAM_END`, having stored all the bytes
the decoding still yields, the decoding ends with the end-of-stream marker, and
for the session it leaves every stream has ended already.  Or it reports
`Z_DATA_ERROR`, the decoding finds the stream malformed, and the bytes stored
are among those decoded before the defect. -/
def World.Refines {σ τ : Type} (w : World σ τ)
    (dec : σ → List Byte → List Byte × Verdict) : Prop :=
  ∀ (s : σ) (next_in : List Byte) (avail_out : Nat), 0 < avail_out →
    (w.inflate s next_in avail_out).out.length ≤ avail_out ∧
    ((((w.inflate s next_in avail_out).ret = Z_OK ∨
          (w.inflate s next_in avail_out).ret = Z_BUF_ERROR) ∧
        (∀ X, dec s (next_in ++ X) =
          ((w.inflate s next_in avail_out).out ++
              (dec (w.inflate s next_in avail_out).state
                ((w.inflate s next_in avail_out).next_in ++ X)).1,
            (dec (w.inflate s next_in avail_out).state
              ((w.inflate s next_in avail_out).next_in ++ X)).2)) ∧
        ((w.inflate s next_in avail_out).out.length < avail_out →
          (w.inflate s next_in avail_out).next_in = [] ∧
          dec (w.inflate s next_in avail_out).state [] = ([], Verdict.truncated))) ∨
      ((w.inflate s next_in avail_out).ret = Z_STREAM_END ∧
        (∀ X, dec s (next_in ++ X) =
          ((w.inflate s next_in avail_out).out, Verdict.ended)) ∧
        (∀ I, dec (w.inflate s next_in avail_out).state I = ([], Verdict.ended))) ∨
      ((w.inflate s next_in avail_out).ret = Z_DATA_ERROR ∧
        ∀ X, (dec s (next_in ++ X)).2 = Verdict.corrupt ∧
          (w.inflate s next_in avail_out).out <+: (dec s (next_in ++ X)).1))

/-- A world in which no stream call fails: every `fwrite` takes all its items
and leaves no error on the destination, no `fread` leaves an error on the
source, and `errno` is 0 at both checks of common_zlib.h. -/
def World.Reliable {σ τ : Type} (w : World σ τ) : Prop :=
  (∀ (d : τ) (data : List Byte),
    (w.fwrite d data).1 = data.length ∧ w.ferror_dest (w.fwrite d data).2 = false) ∧
  (∀ k, w.ferror_source k = false) ∧ w.errno_fmemopen = 0 ∧ w.errno_fdopen = 0

/-- A run ends as the decoding `D` does: it returns the status of the verdict,
the sink holds bytes from the front of the decoded ones, and all of them unless
the stream is malformed. -/
def Run.Yields (r : Run) (D : List Byte × Verdict) : Prop :=
  r.outcome = Outcome.returned D.2.status ∧
  (D.2 ≠ Verdict.corrupt → sinkBytes r.trace = D.1) ∧
  sinkBytes r.trace <+: D.1

/-! ## A reference engine -/

/-- Modelled from the spec: the framing of a compressed stream, which the mode
given to the initialisation call selects. -/
inductive Framing where
  | raw
  | zlib
  | gzip
  | auto
  deriving DecidableEq

/-- Modelled from the spec: the framing that `inflateInit2(&stream, windowBits)`
selects, as zlib does it: a negative value from -15 to -8 is a raw stream; a
value below 48 whose low four bits are 0 or from 8 to 15 is a zlib stream when
below 16, a gzip stream when below 32, and either of the two, found out from the
header, from 32 on; every other value is refused. -/
def framingOf (windowBits : Int) : Option Framing :=
  if windowBits < 0 then
    if -15 ≤ windowBits ∧ windowBits ≤ -8 then some Framing.raw else none
  else if windowBits < 48 ∧ (windowBits % 16 = 0 ∨ 8 ≤ windowBits % 16) then
    if windowBits < 16 then some Framing.zlib
    else if windowBits < 32 then some Framing.gzip
    else some Framing.auto
  else none

/-- The framing that the initialisation call of either file selects:
`inflateInit2(&stream, 16 + MAX_WBITS)` in common_zlib.h expects a gzip stream,
`inflateInit(&stream)` in zlib_decompress.h a zlib stream. -/
def Variant.framing : Variant → Framing
  | Variant.common_zlib => Framing.gzip
  | Variant.zlib_decompress => Framing.zlib

/-- Modelled from the spec: a compressed format, given by a decoder that takes
the stream one byte at a time.  A session for a framing starts in the state
`start`; from a state `s` the byte `b` leads to the state `(step s b).1` and
decodes the bytes `(step s b).2`; `finished` holds in the states in which the
end-of-stream marker has been read, `corrupt` in the states in which the stream
has been found malformed. -/
structure Codec (S : Type) where
  start : Framing → S
  step : S → Byte → S × List Byte
  finished : S → Bool
  corrupt : S → Bool

/-- Modelled from the spec: the decoding of a whole byte sequence from a state,
with no reference to steps or buffers: the decoded bytes up to the point where
decoding stops, and how it ends.  Bytes after the end-of-stream marker are not
looked at. -/
def Codec.decode {S : Type} (c : Codec S) : S → List Byte → List Byte × Verdict
  | s, [] =>
    if c.corrupt s = true then ([], Verdict.corrupt)
    else if c.finished s = true then ([], Verdict.ended)
    else ([], Verdict.truncated)
  | s, b :: rest =>
    if c.corrupt s = true then ([], Verdict.corrupt)
    else if c.finished s = true then ([], Verdict.ended)
    else ((c.step s b).2 ++ (Codec.decode c (c.step s b).1 rest).1,
      (Codec.decode c (c.step s b).1 rest).2)

/-- Modelled from the spec: one step of the engine on the decoder state `s`,
the decoded bytes `pend` not yet handed out, the pending input and the room in
the output buffer.  When the room cannot take the bytes not yet handed out, it
hands out what fits and reports `Z_OK`.  Otherwise it hands them out and
reports `Z_DATA_ERROR` in a corrupt state and `Z_STREAM_END` in a finished one,
also when the buffer is then exactly full, leaving the rest of the input
unread; in any other state it reads the next input byte, and when the input is
used up it reports `Z_OK`.  The bytes handed out before a `Z_DATA_ERROR` in the
same step are in the buffer, as with zlib. -/
def Codec.pump {S : Type} (c : Codec S) :
    S → List Byte → List Byte → Nat → InflateResult (S × List Byte)
  | s, pend, [], room =>
    if room < pend.length then ⟨Z_OK, (s, pend.drop room), [], pend.take room⟩
    else if c.corrupt s = true then ⟨Z_DATA_ERROR, (s, []), [], pend⟩
    else if c.finished s = true then ⟨Z_STREAM_END, (s, []), [], pend⟩
    else ⟨Z_OK, (s, []), [], pend⟩
  | s, pend, b :: rest, room =>
    if room < pend.length then ⟨Z_OK, (s, pend.drop room), b :: rest, pend.take room⟩
    else if c.corrupt s = true then ⟨Z_DATA_ERROR, (s, []), b :: rest, pend⟩
    else if c.finished s = true then ⟨Z_STREAM_END, (s, []), b :: rest, pend⟩
    else
      { Codec.pump c (c.step s b).1 (c.step s b).2 rest (room - pend.length) with
        out := pend ++ (Codec.pump c (c.step s b).1 (c.step s b).2 rest
          (room - pend.length)).out }

/-- Modelled from the spec: the call `inflate(&stream, Z_NO_FLUSH)` of the
reference engine: a step of `Codec.pump`, reported as `Z_BUF_ERROR` instead of
`Z_OK` when it neither read input nor stored output.  A call on a session that
has reported `Z_STREAM_END` reports it again. -/
def Codec.inflate {S : Type} (c : Codec S) (st : S × List Byte) (next_in : List Byte)
    (avail_out : Nat) : InflateResult (S × List Byte) :=
  if (c.pump st.1 st.2 next_in avail_out).ret = Z_OK ∧
      (c.pump st.1 st.2 next_in avail_out).next_in.length = next_in.length ∧
      (c.pump st.1 st.2 next_in avail_out).out.length = 0 then
    { c.pump st.1 st.2 next_in avail_out with ret := Z_BUF_ERROR }
  else c.pump st.1 st.2 next_in avail_out

/-- Modelled from the spec: the call `inflateInit2(&stream, windowBits)` of the
reference engine: a session for the framing that `windowBits` selects, or
`Z_STREAM_ERROR` when the value is refused. -/
def Codec.init {S : Type} (c : Codec S) (windowBits : Int) : Int × (S × List Byte) :=
  match framingOf windowBits with
  | some f => (Z_OK, (c.start f, []))
  | none => (Z_STREAM_ERROR, (c.start Framing.zlib, []))

/-- Modelled from the spec: the world in which the engine is the reference
engine for the format `c`, no stream call fails, and the destination is the
list of the bytes written to it.  As in zlib, `inflateInit(&stream)` is
`inflateInit2(&stream, MAX_WBITS)`. -/
def Codec.world {S : Type} (c : Codec S) : World (S × List Byte) (List Byte) where
  inflateInit := c.init MAX_WBITS
  inflateInit2 := c.init
  inflate := c.inflate
  fwrite := fun d data => (data.length, d ++ data)
  ferror_dest := fun _ => false
  ferror_source := fun _ => false
  errno_fmemopen := 0
  errno_fdopen := 0
  ndebug := false
  dest := []

/-- Modelled from the spec: the decoding of the stream `I` by a session of the
reference engine: the bytes not yet handed out, then those the decoder yields
from its state. -/
def Codec.rest {S : Type} (c : Codec S) (st : S × List Byte) (I : List Byte) :
    List Byte × Verdict :=
  (st.2 ++ (c.decode st.1 I).1, (c.decode st.1 I).2)

/-- The states of the decoder of the example format `tagged`. -/
inductive Tagged where
  | zlibHead
  | gzipHead
  | autoHead
  | tag
  | literal
  | run
  | done
  | bad
  deriving DecidableEq

/-- An example format.  A zlib stream starts with the byte 120, a gzip stream
with the byte 31, a raw stream with neither.  Then come items: the byte 1
followed by one literal byte, or the byte 2 followed by a byte that is decoded
to four copies of itself.  The byte 0 in the place of a tag closes the stream;
any other byte there, or a wrong first byte, makes the stream malformed. -/
def tagged : Codec Tagged where
  start := fun f =>
    match f with
    | Framing.raw => Tagged.tag
    | Framing.zlib => Tagged.zlibHead
    | Framing.gzip => Tagged.gzipHead
    | Framing.auto => Tagged.autoHead
  step := fun s b =>
    match s with
    | Tagged.zlibHead => if b.toNat = 120 then (Tagged.tag, []) else (Tagged.bad, [])
    | Tagged.gzipHead => if b.toNat = 31 then (Tagged.tag, []) else (Tagged.bad, [])
    | Tagged.autoHead =>
      if b.toNat = 120 ∨ b.toNat = 31 then (Tagged.tag, []) else (Tagged.bad, [])
    | Tagged.tag =>
      if b.toNat = 1 then (Tagged.literal, [])
      else if b.toNat = 2 then (Tagged.run, [])
      else if b.toNat = 0 then (Tagged.done, [])
      else (Tagged.bad, [])
    | Tagged.literal => (Tagged.tag, [b])
    | Tagged.run => (Tagged.tag, [b, b, b, b])
    | Tagged.done => (Tagged.done, [])
    | Tagged.bad => (Tagged.bad, [])
  finished := fun s => decide (s = Tagged.done)
  corrupt := fun s => decide (s = Tagged.bad)

/-- The items and the closing byte that encode a byte sequence in the example
format `tagged`: four equal bytes in a row become one item with the tag 2, any
other byte an item with the tag 1. -/
def taggedItems : List Byte → List Byte
  | a :: b :: c :: d :: more =>
    if a = b ∧ b = c ∧ c = d then 2 :: a :: taggedItems more
    else 1 :: a :: taggedItems (b :: c :: d :: more)
  | a :: rest => 1 :: a :: taggedItems rest
  | [] => [0]

/-- The encoders paired with the example format `tagged`, one for each framing. -/
def taggedEncode : Framing → List Byte → List Byte
  | Framing.raw, B => taggedItems B
  | Framing.zlib, B => 120 :: taggedItems B
  | Framing.gzip, B => 31 :: taggedItems B
  | Framing.auto, B => 31 :: taggedItems B

/-! ## The drivers follow the grammar -/

theorem have_eq (chunk : Nat) (l : List Byte) :
    chunk - (chunk - (l.take chunk).length) = (l.take chunk).length := by
  have h : (l.take chunk).length ≤ chunk := by simp
  omega

theorem CommonZlib.fill_drain_conform {σ τ : Type} (w : World σ τ) (chunk : Nat) (fuel : Nat) :
    (∀ v, LoopRun chunk CommonZlib.cleanup w.ndebug (some v.ret)
        (CommonZlib.fill w chunk fuel v).outcome (CommonZlib.fill w chunk fuel v).trace) ∧
    (∀ v ni, LoopRun chunk CommonZlib.cleanup w.ndebug none
        (CommonZlib.drain w chunk fuel v ni).outcome
        (CommonZlib.drain w chunk fuel v ni).trace) := by
  induction fuel with
  | zero =>
    constructor
    · intro v; simp only [CommonZlib.fill]; exact LoopRun.fuel _
    · intro v ni; simp only [CommonZlib.drain]; exact LoopRun.fuel _
  | succ n ih =>
    obtain ⟨ihf, ihd⟩ := ih
    constructor
    · intro v
      simp only [CommonZlib.fill]
      split_ifs with h1 h2
      · rw [h1]; exact LoopRun.read_error _ _
      · simp only [Bool.not_eq_true] at h1
        rw [h1]
        have h3 : List.take chunk v.source = [] := List.length_eq_zero.mp h2
        rw [h3]
        exact LoopRun.eof _
      · simp only [Bool.not_eq_true] at h1
        rw [h1]
        refine LoopRun.feed _ _ _ _ ?_ (by simp) (ihd _ _)
        intro h3; rw [h3] at h2; simp at h2
    · intro v ni
      simp only [CommonZlib.drain, have_eq, List.take_length]
      have hle : (List.take chunk (w.inflate v.stream ni chunk).out).length ≤ chunk := by simp
      split_ifs with h1 h2 h3 h4 h5 h6
      · rw [h1.2]; exact LoopRun.abort _ _ h1.1 hle
      · rw [h2]; exact LoopRun.need_dict _ _ hle
      · exact LoopRun.step_error _ _ _ h3 hle
      · have hc : Continues w.ndebug (w.inflate v.stream ni chunk).ret := by
          simp only [not_or] at h3; exact ⟨h1, h2, h3.1, h3.2⟩
        exact LoopRun.write_error _ _ _ _ _ hc hle h4
      · have hc : Continues w.ndebug (w.inflate v.stream ni chunk).ret := by
          simp only [not_or] at h3; exact ⟨h1, h2, h3.1, h3.2⟩
        simp only [not_or, ne_eq, not_not, Bool.not_eq_true] at h4
        have hlen : (List.take chunk (w.inflate v.stream ni chunk).out).length = chunk := by
          omega
        simp only [Run.after, List.singleton_append, h4.1, h4.2]
        exact LoopRun.more _ _ _ _ _ hc hlen (ihd _ _)
      · have hc : Continues w.ndebug (w.inflate v.stream ni chunk).ret := by
          simp only [not_or] at h3; exact ⟨h1, h2, h3.1, h3.2⟩
        simp only [not_or, ne_eq, not_not, Bool.not_eq_true] at h4
        have hlen : (List.take chunk (w.inflate v.stream ni chunk).out).length < chunk := by
          omega
        simp only [Run.after, List.singleton_append, h4.1, h4.2]
        exact LoopRun.next _ _ _ _ _ hc hlen h6
          (ihf ⟨(w.inflate v.stream ni chunk).ret, (w.inflate v.stream ni chunk).state,
            v.source, v.reads,
            (w.fwrite v.dest (List.take chunk (w.inflate v.stream ni chunk).out)).2⟩)
      · have hc : Continues w.ndebug (w.inflate v.stream ni chunk).ret := by
          simp only [not_or] at h3; exact ⟨h1, h2, h3.1, h3.2⟩
        simp only [not_or, ne_eq, not_not, Bool.not_eq_true] at h4
        simp only [ne_eq, not_not] at h6
        have hlen : (List.take chunk (w.inflate v.stream ni chunk).out).length < chunk := by
          omega
        simp only [Run.after, List.singleton_append, List.append_nil, h4.1, h4.2]
        rw [h6] at hc ⊢
        exact LoopRun.stream_end _ _ hc hlen

theorem ZlibDecompress.loops_conform {σ τ : Type} (w : World σ τ) (chunk : Nat) (fuel : Nat) :
    (∀ v, LoopRun chunk ZlibDecompress.cleanup w.ndebug (some v.ret)
        (ZlibDecompress.fill w chunk fuel v).outcome (ZlibDecompress.fill w chunk fuel v).trace) ∧
    (∀ v ni, LoopRun chunk ZlibDecompress.cleanup w.ndebug none
        (ZlibDecompress.drain w chunk fuel v ni).outcome
        (ZlibDecompress.drain w chunk fuel v ni).trace) := by
  induction fuel with
  | zero =>
    constructor
    · intro v; simp only [ZlibDecompress.fill]; exact LoopRun.fuel _
    · intro v ni; simp only [ZlibDecompress.drain]; exact LoopRun.fuel _
  | succ n ih =>
    obtain ⟨ihf, ihd⟩ := ih
    constructor
    · intro v
      simp only [ZlibDecompress.fill]
      split_ifs with h1 h2
      · rw [h1]; exact LoopRun.read_error _ _
      · simp only [Bool.not_eq_true] at h1
        rw [h1]
        have h3 : List.take chunk v.source = [] := List.length_eq_zero.mp h2
        rw [h3]
        exact LoopRun.eof _
      · simp only [Bool.not_eq_true] at h1
        rw [h1]
        refine LoopRun.feed _ _ _ _ ?_ (by simp) (ihd _ _)
        intro h3; rw [h3] at h2; simp at h2
    · intro v ni
      simp only [ZlibDecompress.drain, have_eq, List.take_length]
      have hle : (List.take chunk (w.inflate v.stream ni chunk).out).length ≤ chunk := by simp
      split_ifs with h1 h2 h3 h4 h5 h6
      · rw [h1.2]; exact LoopRun.abort _ _ h1.1 hle
      · rw [h2]; exact LoopRun.need_dict _ _ hle
      · exact LoopRun.step_error _ _ _ h3 hle
      · have hc : Continues w.ndebug (w.inflate v.stream ni chunk).ret := by
          simp only [not_or] at h3; exact ⟨h1, h2, h3.1, h3.2⟩
        exact LoopRun.write_error _ _ _ _ _ hc hle h4
      · have hc : Continues w.ndebug (w.inflate v.stream ni chunk).ret := by
          simp only [not_or] at h3; exact ⟨h1, h2, h3.1, h3.2⟩
        simp only [not_or, ne_eq, not_not, Bool.not_eq_true] at h4
        have hlen : (List.take chunk (w.inflate v.stream ni chunk).out).length = chunk := by
          omega
        simp only [Run.after, List.singleton_append, h4.1, h4.2]
        exact LoopRun.more _ _ _ _ _ hc hlen (ihd _ _)
      · have hc : Continues w.ndebug (w.inflate v.stream ni chunk).ret := by
          simp only [not_or] at h3; exact ⟨h1, h2, h3.1, h3.2⟩
        simp only [not_or, ne_eq, not_not, Bool.not_eq_true] at h4
        have hlen : (List.take chunk (w.inflate v.stream ni chunk).out).length < chunk := by
          omega
        simp only [Run.after, List.singleton_append, h4.1, h4.2]
        exact LoopRun.next _ _ _ _ _ hc hlen h6
          (ihf ⟨(w.inflate v.stream ni chunk).ret, (w.inflate v.stream ni chunk).state,
            v.source, v.reads,
            (w.fwrite v.dest (List.take chunk (w.inflate v.stream ni chunk).out)).2⟩)
      · have hc : Continues w.ndebug (w.inflate v.stream ni chunk).ret := by
          simp only [not_or] at h3; exact ⟨h1, h2, h3.1, h3.2⟩
        simp only [not_or, ne_eq, not_not, Bool.not_eq_true] at h4
        simp only [ne_eq, not_not] at h6
        have hlen : (List.take chunk (w.inflate v.stream ni chunk).out).length < chunk := by
          omega
        simp only [Run.after, List.singleton_append, List.append_nil, h4.1, h4.2]
        rw [h6] at hc ⊢
        exact LoopRun.stream_end _ _ hc hlen

/-- The function `decompress` is `decompressWith` at the buffer size `CHUNK`. -/
theorem decompress_eq {σ τ : Type} (var : Variant) (w : World σ τ) (input : List Byte)
    (fuel : Nat) : decompress var w input fuel = decompressWith var w CHUNK input fuel := by
  cases var <;> rfl

/-- The four ways a call of `decompress` can go: initialisation fails, one of
the two `errno` checks of common_zlib.h fails, or the loops are entered with
`ret = Z_OK`. -/
theorem decompress_shape {σ τ : Type} (var : Variant) (w : World σ τ) (chunk : Nat)
    (input : List Byte) (fuel : Nat) :
    ((var.init w).1 ≠ Z_OK ∧
      decompressWith var w chunk input fuel =
        ⟨Outcome.returned (var.init w).1, [var.initCall w]⟩) ∨
    (var = Variant.common_zlib ∧ (var.init w).1 = Z_OK ∧ w.errno_fmemopen ≠ 0 ∧
      decompressWith var w chunk input fuel =
        ⟨Outcome.returned Z_ERRNO,
          [var.initCall w, Event.fmemopen input, Event.errno w.errno_fmemopen]⟩) ∨
    (var = Variant.common_zlib ∧ (var.init w).1 = Z_OK ∧ w.errno_fmemopen = 0 ∧
      w.errno_fdopen ≠ 0 ∧
      decompressWith var w chunk input fuel =
        ⟨Outcome.returned Z_ERRNO, var.prelude w input⟩) ∨
    ((var.init w).1 = Z_OK ∧
      (var = Variant.common_zlib → w.errno_fmemopen = 0 ∧ w.errno_fdopen = 0) ∧
      ∃ o t, LoopRun chunk var.cleanup w.ndebug (some Z_OK) o t ∧
        decompressWith var w chunk input fuel = ⟨o, var.prelude w input ++ t⟩) := by
  cases var with
  | common_zlib =>
    by_cases h0 : (w.inflateInit2 (16 + MAX_WBITS)).1 = Z_OK
    · have h0' : (w.inflateInit2 31).1 = 0 := by simpa using h0
      by_cases h1 : w.errno_fmemopen = 0
      · by_cases h2 : w.errno_fdopen = 0
        · right; right; right
          refine ⟨h0, fun _ => ⟨h1, h2⟩, _, _,
            (CommonZlib.fill_drain_conform w chunk fuel).1
              ⟨Z_OK, (w.inflateInit2 (16 + MAX_WBITS)).2, input, 0, w.dest⟩, ?_⟩
          simp [decompressWith, CommonZlib.decompressWith, Run.after, Variant.prelude,
            Variant.initCall, h0', h1, h2]
        · right; right; left
          refine ⟨rfl, h0, h1, h2, ?_⟩
          simp [decompressWith, CommonZlib.decompressWith, Run.after, Variant.prelude,
            Variant.initCall, h0', h1, h2]
      · right; left
        refine ⟨rfl, h0, h1, ?_⟩
        simp [decompressWith, CommonZlib.decompressWith, Run.after, Variant.initCall, h0', h1]
    · left
      have h0' : ¬ (w.inflateInit2 31).1 = 0 := by simpa using h0
      refine ⟨h0, ?_⟩
      simp [decompressWith, CommonZlib.decompressWith, Run.after, Variant.initCall,
        Variant.init, h0']
  | zlib_decompress =>
    by_cases h0 : w.inflateInit.1 = Z_OK
    · have h0' : w.inflateInit.1 = 0 := by simpa using h0
      right; right; right
      refine ⟨h0, (fun h => Variant.noConfusion h), _, _,
        (ZlibDecompress.loops_conform w chunk fuel).1
          ⟨Z_OK, w.inflateInit.2, input, 0, w.dest⟩, ?_⟩
      simp [decompressWith, ZlibDecompress.decompressWith, Run.after, Variant.prelude,
        Variant.initCall, h0']
    · left
      have h0' : ¬ w.inflateInit.1 = 0 := by simpa using h0
      refine ⟨h0, ?_⟩
      simp [decompressWith, ZlibDecompress.decompressWith, Run.after, Variant.initCall,
        Variant.init, h0']

/-! ## Properties of the grammar -/

theorem Variant.cleanup_quiet (var : Variant) : Quiet var.cleanup := by
  intro e he
  cases var <;>
    simp [Variant.cleanup, CommonZlib.cleanup, ZlibDecompress.cleanup] at he <;> tauto

theorem Quiet.no_inflate {cl : List Event} (hq : Quiet cl) {pre post : List Event}
    {ni out : List Byte} {ret : Int} (h : cl = pre ++ Event.inflate ni ret out :: post) :
    False := by
  have hm : Event.inflate ni ret out ∈ cl := by rw [h]; simp
  rcases hq _ hm with h1 | h1 | h1 <;> cases h1

theorem Quiet.no_fread {cl : List Event} (hq : Quiet cl) {pre post : List Event}
    {data : List Byte} {err : Bool} (h : cl = pre ++ Event.fread data err :: post) :
    False := by
  have hm : Event.fread data err ∈ cl := by rw [h]; simp
  rcases hq _ hm with h1 | h1 | h1 <;> cases h1

theorem Quiet.no_fwrite {cl : List Event} (hq : Quiet cl) {pre post : List Event}
    {data : List Byte} {n : Nat} {err : Bool}
    (h : cl = pre ++ Event.fwrite data n err :: post) : False := by
  have hm : Event.fwrite data n err ∈ cl := by rw [h]; simp
  rcases hq _ hm with h1 | h1 | h1 <;> cases h1

/-- What follows a step in a run of the loops is a run from the top of the
inner loop. -/
theorem LoopRun.from_inflate {chunk : Nat} {cl : List Event} {nd : Bool} (hq : Quiet cl)
    {at_ : Option Int} {o : Outcome} {t : List Event} (h : LoopRun chunk cl nd at_ o t) :
    ∀ (pre : List Event) (ni : List Byte) (ret : Int) (out : List Byte) (post : List Event),
      t = pre ++ Event.inflate ni ret out :: post →
      LoopRun chunk cl nd none o (Event.inflate ni ret out :: post) := by
  induction h with
  | fuel at_ => intro pre ni ret out post heq; simp at heq
  | read_error ret0 data =>
    intro pre ni ret out post heq
    rcases pre with _ | ⟨p, pre⟩
    · simp at heq
    · simp only [List.cons_append, List.cons.injEq] at heq
      exact (hq.no_inflate heq.2).elim
  | eof ret0 =>
    intro pre ni ret out post heq
    rcases pre with _ | ⟨p, pre⟩
    · simp at heq
    · simp only [List.cons_append, List.cons.injEq] at heq
      exact (hq.no_inflate heq.2).elim
  | feed ret0 data o t hne hle h ih =>
    intro pre ni ret out post heq
    rcases pre with _ | ⟨p, pre⟩
    · simp at heq
    · simp only [List.cons_append, List.cons.injEq] at heq
      exact ih _ _ _ _ _ heq.2
  | abort ni0 out0 hnd hle =>
    intro pre ni ret out post heq
    rcases pre with _ | ⟨p, pre⟩
    · simp only [List.nil_append, List.cons.injEq] at heq
      rw [← heq.1, ← heq.2]
      exact LoopRun.abort _ _ hnd hle
    · simp at heq
  | need_dict ni0 out0 hle =>
    intro pre ni ret out post heq
    rcases pre with _ | ⟨p, pre⟩
    · simp only [List.nil_append, List.cons.injEq] at heq
      rw [← heq.1, ← heq.2]
      exact LoopRun.need_dict _ _ hle
    · simp only [List.cons_append, List.cons.injEq] at heq
      exact (hq.no_inflate heq.2).elim
  | step_error ni0 ret0 out0 hret hle =>
    intro pre ni ret out post heq
    rcases pre with _ | ⟨p, pre⟩
    · simp only [List.nil_append, List.cons.injEq] at heq
      rw [← heq.1, ← heq.2]
      exact LoopRun.step_error _ _ _ hret hle
    · simp only [List.cons_append, List.cons.injEq] at heq
      exact (hq.no_inflate heq.2).elim
  | write_error ni0 ret0 out0 n err hc hle hw =>
    intro pre ni ret out post heq
    rcases pre with _ | ⟨p, _ | ⟨q, pre⟩⟩
    · simp only [List.nil_append, List.cons.injEq] at heq
      rw [← heq.1, ← heq.2]
      exact LoopRun.write_error _ _ _ _ _ hc hle hw
    · simp at heq
    · simp only [List.cons_append, List.cons.injEq] at heq
      exact (hq.no_inflate heq.2.2).elim
  | more ni0 ret0 out0 o t hc hlen h ih =>
    intro pre ni ret out post heq
    rcases pre with _ | ⟨p, _ | ⟨q, pre⟩⟩
    · simp only [List.nil_append, List.cons.injEq] at heq
      rw [← heq.1, ← heq.2]
      exact LoopRun.more _ _ _ _ _ hc hlen h
    · simp at heq
    · simp only [List.cons_append, List.cons.injEq] at heq
      exact ih _ _ _ _ _ heq.2.2
  | next ni0 ret0 out0 o t hc hlen hne h ih =>
    intro pre ni ret out post heq
    rcases pre with _ | ⟨p, _ | ⟨q, pre⟩⟩
    · simp only [List.nil_append, List.cons.injEq] at heq
      rw [← heq.1, ← heq.2]
      exact LoopRun.next _ _ _ _ _ hc hlen hne h
    · simp at heq
    · simp only [List.cons_append, List.cons.injEq] at heq
      exact ih _ _ _ _ _ heq.2.2
  | stream_end ni0 out0 hc hlen =>
    intro pre ni ret out post heq
    rcases pre with _ | ⟨p, _ | ⟨q, pre⟩⟩
    · simp only [List.nil_append, List.cons.injEq] at heq
      rw [← heq.1, ← heq.2]
      exact LoopRun.stream_end _ _ hc hlen
    · simp at heq
    · simp only [List.cons_append, List.cons.injEq] at heq
      exact (hq.no_inflate heq.2.2).elim

/-- A write in a run of the loops comes right after the step whose output it
writes, and the run from that step on is a run from the top of the inner loop. -/
theorem LoopRun.from_fwrite {chunk : Nat} {cl : List Event} {nd : Bool} (hq : Quiet cl)
    {at_ : Option Int} {o : Outcome} {t : List Event} (h : LoopRun chunk cl nd at_ o t) :
    ∀ (pre : List Event) (data : List Byte) (n : Nat) (err : Bool) (post : List Event),
      t = pre ++ Event.fwrite data n err :: post →
      ∃ pre1 ni ret, pre = pre1 ++ [Event.inflate ni ret data] ∧
        LoopRun chunk cl nd none o
          (Event.inflate ni ret data :: Event.fwrite data n err :: post) := by
  induction h with
  | fuel at_ => intro pre data n err post heq; simp at heq
  | read_error ret0 data0 =>
    intro pre data n err post heq
    rcases pre with _ | ⟨p, pre⟩
    · simp at heq
    · simp only [List.cons_append, List.cons.injEq] at heq
      exact (hq.no_fwrite heq.2).elim
  | eof ret0 =>
    intro pre data n err post heq
    rcases pre with _ | ⟨p, pre⟩
    · simp at heq
    · simp only [List.cons_append, List.cons.injEq] at heq
      exact (hq.no_fwrite heq.2).elim
  | feed ret0 data0 o t hne hle h ih =>
    intro pre data n err post heq
    rcases pre with _ | ⟨p, pre⟩
    · simp at heq
    · simp only [List.cons_append, List.cons.injEq] at heq
      obtain ⟨pre1, ni, ret, hp, hr⟩ := ih _ _ _ _ _ heq.2
      exact ⟨p :: pre1, ni, ret, by rw [hp]; rfl, hr⟩
  | abort ni0 out0 hnd hle =>
    intro pre data n err post heq
    rcases pre with _ | ⟨p, pre⟩ <;> simp at heq
  | need_dict ni0 out0 hle =>
    intro pre data n err post heq
    rcases pre with _ | ⟨p, pre⟩
    · simp at heq
    · simp only [List.cons_append, List.cons.injEq] at heq
      exact (hq.no_fwrite heq.2).elim
  | step_error ni0 ret0 out0 hret hle =>
    intro pre data n err post heq
    rcases pre with _ | ⟨p, pre⟩
    · simp at heq
    · simp only [List.cons_append, List.cons.injEq] at heq
      exact (hq.no_fwrite heq.2).elim
  | write_error ni0 ret0 out0 n0 err0 hc hle hw =>
    intro pre data n err post heq
    rcases pre with _ | ⟨p, _ | ⟨q, pre⟩⟩
    · simp at heq
    · simp only [List.cons_append, List.nil_append, List.cons.injEq, Event.fwrite.injEq] at heq
      obtain ⟨rfl, ⟨rfl, rfl, rfl⟩, rfl⟩ := heq
      exact ⟨[], ni0, ret0, rfl, LoopRun.write_error _ _ _ _ _ hc hle hw⟩
    · simp only [List.cons_append, List.cons.injEq] at heq
      exact (hq.no_fwrite heq.2.2).elim
  | more ni0 ret0 out0 o t hc hlen h ih =>
    intro pre data n err post heq
    rcases pre with _ | ⟨p, _ | ⟨q, pre⟩⟩
    · simp at heq
    · simp only [List.cons_append, List.nil_append, List.cons.injEq, Event.fwrite.injEq] at heq
      obtain ⟨rfl, ⟨rfl, rfl, rfl⟩, rfl⟩ := heq
      exact ⟨[], ni0, ret0, rfl, LoopRun.more _ _ _ _ _ hc hlen h⟩
    · simp only [List.cons_append, List.cons.injEq] at heq
      obtain ⟨pre1, ni, ret, hp, hr⟩ := ih _ _ _ _ _ heq.2.2
      exact ⟨p :: q :: pre1, ni, ret, by rw [hp]; rfl, hr⟩
  | next ni0 ret0 out0 o t hc hlen hne h ih =>
    intro pre data n err post heq
    rcases pre with _ | ⟨p, _ | ⟨q, pre⟩⟩
    · simp at heq
    · simp only [List.cons_append, List.nil_append, List.cons.injEq, Event.fwrite.injEq] at heq
      obtain ⟨rfl, ⟨rfl, rfl, rfl⟩, rfl⟩ := heq
      exact ⟨[], ni0, ret0, rfl, LoopRun.next _ _ _ _ _ hc hlen hne h⟩
    · simp only [List.cons_append, List.cons.injEq] at heq
      obtain ⟨pre1, ni, ret, hp, hr⟩ := ih _ _ _ _ _ heq.2.2
      exact ⟨p :: q :: pre1, ni, ret, by rw [hp]; rfl, hr⟩
  | stream_end ni0 out0 hc hlen =>
    intro pre data n err post heq
    rcases pre with _ | ⟨p, _ | ⟨q, pre⟩⟩
    · simp at heq
    · simp only [List.cons_append, List.nil_append, List.cons.injEq, Event.fwrite.injEq] at heq
      obtain ⟨rfl, ⟨rfl, rfl, rfl⟩, rfl⟩ := heq
      exact ⟨[], ni0, _, rfl, LoopRun.stream_end _ _ hc hlen⟩
    · simp only [List.cons_append, List.cons.injEq] at heq
      exact (hq.no_fwrite heq.2.2).elim

/-- A read in a run of the loops is the first call of the run from the top of
the outer loop, or it comes right after the successful write of a step that
left room in the output buffer and did not report the end of the stream. -/
theorem LoopRun.before_fread {chunk : Nat} {cl : List Event} {nd : Bool} (hq : Quiet cl)
    {at_ : Option Int} {o : Outcome} {t : List Event} (h : LoopRun chunk cl nd at_ o t) :
    ∀ (pre : List Event) (data : List Byte) (err : Bool) (post : List Event),
      t = pre ++ Event.fread data err :: post →
      (pre = [] ∧ at_ ≠ none) ∨
      ∃ pre1 ni ret out, pre = pre1 ++
          [Event.inflate ni ret out, Event.fwrite out out.length false] ∧
        out.length < chunk ∧ ret ≠ Z_STREAM_END ∧ Continues nd ret := by
  induction h with
  | fuel at_ => intro pre data err post heq; simp at heq
  | read_error ret0 data0 =>
    intro pre data err post heq
    rcases pre with _ | ⟨p, pre⟩
    · exact Or.inl ⟨rfl, by simp⟩
    · simp only [List.cons_append, List.cons.injEq] at heq
      exact (hq.no_fread heq.2).elim
  | eof ret0 =>
    intro pre data err post heq
    rcases pre with _ | ⟨p, pre⟩
    · exact Or.inl ⟨rfl, by simp⟩
    · simp only [List.cons_append, List.cons.injEq] at heq
      exact (hq.no_fread heq.2).elim
  | feed ret0 data0 o t hne hle h ih =>
    intro pre data err post heq
    rcases pre with _ | ⟨p, pre⟩
    · exact Or.inl ⟨rfl, by simp⟩
    · simp only [List.cons_append, List.cons.injEq] at heq
      rcases ih _ _ _ _ heq.2 with ⟨-, h2⟩ | ⟨pre1, ni, ret, out, hp, hr⟩
      · exact (h2 rfl).elim
      · exact Or.inr ⟨p :: pre1, ni, ret, out, by rw [hp]; rfl, hr⟩
  | abort ni0 out0 hnd hle =>
    intro pre data err post heq
    rcases pre with _ | ⟨p, pre⟩ <;> simp at heq
  | need_dict ni0 out0 hle =>
    intro pre data err post heq
    rcases pre with _ | ⟨p, pre⟩
    · simp at heq
    · simp only [List.cons_append, List.cons.injEq] at heq
      exact (hq.no_fread heq.2).elim
  | step_error ni0 ret0 out0 hret hle =>
    intro pre data err post heq
    rcases pre with _ | ⟨p, pre⟩
    · simp at heq
    · simp only [List.cons_append, List.cons.injEq] at heq
      exact (hq.no_fread heq.2).elim
  | write_error ni0 ret0 out0 n0 err0 hc hle hw =>
    intro pre data err post heq
    rcases pre with _ | ⟨p, _ | ⟨q, pre⟩⟩
    · simp at heq
    · simp at heq
    · simp only [List.cons_append, List.cons.injEq] at heq
      exact (hq.no_fread heq.2.2).elim
  | more ni0 ret0 out0 o t hc hlen h ih =>
    intro pre data err post heq
    rcases pre with _ | ⟨p, _ | ⟨q, pre⟩⟩
    · simp at heq
    · simp at heq
    · simp only [List.cons_append, List.cons.injEq] at heq
      rcases ih _ _ _ _ heq.2.2 with ⟨-, h2⟩ | ⟨pre1, ni, ret, out, hp, hr⟩
      · exact (h2 rfl).elim
      · exact Or.inr ⟨p :: q :: pre1, ni, ret, out, by rw [hp]; rfl, hr⟩
  | next ni0 ret0 out0 o t hc hlen hne h ih =>
    intro pre data err post heq
    rcases pre with _ | ⟨p, _ | ⟨q, pre⟩⟩
    · simp at heq
    · simp at heq
    · simp only [List.cons_append, List.cons.injEq] at heq
      obtain ⟨rfl, rfl, heq⟩ := heq
      rcases ih _ _ _ _ heq with ⟨h1, -⟩ | ⟨pre1, ni, ret, out, hp, hr⟩
      · exact Or.inr ⟨[], ni0, ret0, out0, by rw [h1]; rfl, hlen, hne, hc⟩
      · exact Or.inr ⟨_ :: _ :: pre1, ni, ret, out, by rw [hp]; rfl, hr⟩
  | stream_end ni0 out0 hc hlen =>
    intro pre data err post heq
    rcases pre with _ | ⟨p, _ | ⟨q, pre⟩⟩
    · simp at heq
    · simp at heq
    · simp only [List.cons_append, List.cons.injEq] at heq
      exact (hq.no_fread heq.2.2).elim

/-! ## Observations and concatenation -/

theorem sinkBytes_append (a b : List Event) :
    sinkBytes (a ++ b) = sinkBytes a ++ sinkBytes b := by
  induction a with
  | nil => rfl
  | cons e a ih => cases e <;> simp [sinkBytes, ih]

theorem stepStatuses_append (a b : List Event) :
    stepStatuses (a ++ b) = stepStatuses a ++ stepStatuses b := by
  induction a with
  | nil => rfl
  | cons e a ih => cases e <;> simp [stepStatuses, ih]

theorem stepOutputs_append (a b : List Event) :
    stepOutputs (a ++ b) = stepOutputs a ++ stepOutputs b := by
  induction a with
  | nil => rfl
  | cons e a ih => cases e <;> simp [stepOutputs, ih]

theorem Quiet.of_cons {e : Event} {cl : List Event} (hq : Quiet (e :: cl)) : Quiet cl :=
  fun x hx => hq x (List.mem_cons_of_mem _ hx)

theorem Quiet.sink_nil {cl : List Event} (hq : Quiet cl) : sinkBytes cl = [] := by
  induction cl with
  | nil => rfl
  | cons e cl ih =>
    rcases hq e (List.mem_cons_self _ _) with h | h | h <;> subst h <;>
      simpa [Zpipe.sinkBytes] using ih hq.of_cons

theorem Quiet.statuses_nil {cl : List Event} (hq : Quiet cl) : stepStatuses cl = [] := by
  induction cl with
  | nil => rfl
  | cons e cl ih =>
    rcases hq e (List.mem_cons_self _ _) with h | h | h <;> subst h <;>
      simpa [Zpipe.stepStatuses] using ih hq.of_cons

theorem Quiet.outputs_nil {cl : List Event} (hq : Quiet cl) : stepOutputs cl = [] := by
  induction cl with
  | nil => rfl
  | cons e cl ih =>
    rcases hq e (List.mem_cons_self _ _) with h | h | h <;> subst h <;>
      simpa [Zpipe.stepOutputs] using ih hq.of_cons

/-! ## What a run of the loops returns -/

theorem ErrorFree.rest {e : Event} {t : List Event} (h : ErrorFree (e :: t)) : ErrorFree t :=
  fun x hx => h x (List.mem_cons_of_mem _ hx)

theorem ErrorFree.first {e : Event} {t : List Event} (h : ErrorFree (e :: t)) :
    e.failed = false :=
  h e (List.mem_cons_self _ _)

/-- The value returned by a run of the loops against the status of its last step
(`d` stands for the variable `ret` when the run makes no step). -/
theorem LoopRun.last_status {chunk : Nat} {cl : List Event} {nd : Bool} (hq : Quiet cl)
    {at_ : Option Int} {o : Outcome} {t : List Event} (h : LoopRun chunk cl nd at_ o t) :
    ∀ (d x : Int), (∀ r0, at_ = some r0 → d = r0) → o = Outcome.returned x →
      (x = Z_OK → (stepStatuses t).getLastD d = Z_STREAM_END) ∧
      (ErrorFree t → (stepStatuses t).getLastD d ≠ Z_STREAM_END → x = Z_DATA_ERROR) := by
  induction h with
  | fuel at_ => intro d x _ ho; cases ho
  | read_error ret0 data =>
    intro d x _ ho
    cases ho
    refine ⟨by simp, fun he _ => ?_⟩
    have := he.first
    simp [Event.failed] at this
  | eof ret0 =>
    intro d x hd ho
    cases ho
    have hd0 := hd ret0 rfl
    subst hd0
    simp only [stepStatuses, hq.statuses_nil, List.getLastD_nil, finalStatus]
    constructor
    · intro hx
      split_ifs at hx with hs
      · exact hs
      · simp at hx
    · intro _ hne; rw [if_neg hne]
  | feed ret0 data o t hne hle h ih =>
    intro d x _ ho
    obtain ⟨h1, h2⟩ := ih d x (by simp) ho
    simp only [stepStatuses]
    exact ⟨h1, fun he => h2 he.rest⟩
  | abort ni0 out0 hnd hle => intro d x _ ho; cases ho
  | need_dict ni0 out0 hle =>
    intro d x _ ho
    cases ho
    exact ⟨by simp, fun _ _ => rfl⟩
  | step_error ni0 ret0 out0 hret hle =>
    intro d x _ ho
    cases ho
    refine ⟨?_, fun he _ => ?_⟩
    · rcases hret with h | h <;> simp [h]
    · have := he.first
      rcases hret with h | h <;> simp [Event.failed, h] at this
  | write_error ni0 ret0 out0 n err hc hle hw =>
    intro d x _ ho
    cases ho
    refine ⟨by simp, fun he _ => ?_⟩
    have := he.rest.first
    rcases hw with h | h <;> simp [Event.failed, h] at this
  | more ni0 ret0 out0 o t hc hlen h ih =>
    intro d x _ ho
    obtain ⟨h1, h2⟩ := ih ret0 x (by simp) ho
    simp only [stepStatuses, List.getLastD_cons]
    exact ⟨h1, fun he => h2 he.rest.rest⟩
  | next ni0 ret0 out0 o t hc hlen hne h ih =>
    intro d x _ ho
    obtain ⟨h1, h2⟩ := ih ret0 x (by simp) ho
    simp only [stepStatuses, List.getLastD_cons]
    exact ⟨h1, fun he => h2 he.rest.rest⟩
  | stream_end ni0 out0 hc hlen =>
    intro d x _ ho
    cases ho
    simp [stepStatuses, hq.statuses_nil]

/-- A run of the loops returns one of four codes. -/
theorem LoopRun.returned_code {chunk : Nat} {cl : List Event} {nd : Bool}
    {at_ : Option Int} {o : Outcome} {t : List Event} (h : LoopRun chunk cl nd at_ o t) :
    ∀ x : Int, o = Outcome.returned x →
      x = Z_OK ∨ x = Z_DATA_ERROR ∨ x = Z_MEM_ERROR ∨ x = Z_ERRNO := by
  induction h with
  | fuel at_ => intro x ho; cases ho
  | read_error ret0 data => intro x ho; cases ho; simp
  | eof ret0 =>
    intro x ho; cases ho
    unfold finalStatus
    split_ifs <;> simp
  | feed ret0 data o t hne hle h ih => exact ih
  | abort ni0 out0 hnd hle => intro x ho; cases ho
  | need_dict ni0 out0 hle => intro x ho; cases ho; simp
  | step_error ni0 ret0 out0 hret hle =>
    intro x ho; cases ho
    rcases hret with h | h <;> simp [h]
  | write_error ni0 ret0 out0 n err hc hle hw => intro x ho; cases ho; simp
  | more ni0 ret0 out0 o t hc hlen h ih => exact ih
  | next ni0 ret0 out0 o t hc hlen hne h ih => exact ih
  | stream_end ni0 out0 hc hlen => intro x ho; cases ho; simp

/-- A run of the loops that returns calls `inflateEnd` as often as `cleanup` does,
and a run that does not return never calls it. -/
theorem LoopRun.teardowns_eq {chunk : Nat} {cl : List Event} {nd : Bool}
    {at_ : Option Int} {o : Outcome} {t : List Event} (h : LoopRun chunk cl nd at_ o t) :
    (∀ x : Int, o = Outcome.returned x → teardowns t = teardowns cl) ∧
    ((∀ x : Int, o ≠ Outcome.returned x) → teardowns t = 0) := by
  induction h with
  | fuel at_ => exact ⟨fun x ho => Outcome.noConfusion ho, fun _ => rfl⟩
  | read_error ret0 data => exact ⟨fun x _ => by simp [teardowns], fun hn => (hn _ rfl).elim⟩
  | eof ret0 => exact ⟨fun x _ => by simp [teardowns], fun hn => (hn _ rfl).elim⟩
  | feed ret0 data o t hne hle h ih =>
    exact ⟨fun x ho => by simpa [teardowns] using ih.1 x ho,
      fun hn => by simpa [teardowns] using ih.2 hn⟩
  | abort ni0 out0 hnd hle => exact ⟨fun x ho => Outcome.noConfusion ho, fun _ => by simp [teardowns]⟩
  | need_dict ni0 out0 hle =>
    exact ⟨fun x _ => by simp [teardowns], fun hn => (hn _ rfl).elim⟩
  | step_error ni0 ret0 out0 hret hle =>
    exact ⟨fun x _ => by simp [teardowns], fun hn => (hn _ rfl).elim⟩
  | write_error ni0 ret0 out0 n err hc hle hw =>
    exact ⟨fun x _ => by simp [teardowns], fun hn => (hn _ rfl).elim⟩
  | more ni0 ret0 out0 o t hc hlen h ih =>
    exact ⟨fun x ho => by simpa [teardowns] using ih.1 x ho,
      fun hn => by simpa [teardowns] using ih.2 hn⟩
  | next ni0 ret0 out0 o t hc hlen hne h ih =>
    exact ⟨fun x ho => by simpa [teardowns] using ih.1 x ho,
      fun hn => by simpa [teardowns] using ih.2 hn⟩
  | stream_end ni0 out0 hc hlen =>
    exact ⟨fun x _ => by simp [teardowns], fun hn => (hn _ rfl).elim⟩

/-- In a run of the loops that does not abort and in which no call fails, the
destination takes the outputs of the steps, in order. -/
theorem LoopRun.sink_eq {chunk : Nat} {cl : List Event} {nd : Bool} (hq : Quiet cl)
    {at_ : Option Int} {o : Outcome} {t : List Event} (h : LoopRun chunk cl nd at_ o t) :
    o ≠ Outcome.aborted → ErrorFree t → sinkBytes t = (stepOutputs t).flatten := by
  induction h with
  | fuel at_ => intro _ _; rfl
  | read_error ret0 data => intro _ _; simp [sinkBytes, stepOutputs, hq.sink_nil, hq.outputs_nil]
  | eof ret0 => intro _ _; simp [sinkBytes, stepOutputs, hq.sink_nil, hq.outputs_nil]
  | feed ret0 data o t hne hle h ih =>
    intro ho he
    simpa [sinkBytes, stepOutputs] using ih ho he.rest
  | abort ni0 out0 hnd hle => intro ho; exact (ho rfl).elim
  | need_dict ni0 out0 hle =>
    intro _ he
    have := he.first
    simp [Event.failed] at this
  | step_error ni0 ret0 out0 hret hle =>
    intro _ he
    have := he.first
    rcases hret with h | h <;> simp [Event.failed, h] at this
  | write_error ni0 ret0 out0 n err hc hle hw =>
    intro _ he
    have := he.rest.first
    rcases hw with h | h <;> simp [Event.failed, h] at this
  | more ni0 ret0 out0 o t hc hlen h ih =>
    intro ho he
    simp [sinkBytes, stepOutputs, ih ho he.rest.rest]
  | next ni0 ret0 out0 o t hc hlen hne h ih =>
    intro ho he
    simp [sinkBytes, stepOutputs, ih ho he.rest.rest]
  | stream_end ni0 out0 hc hlen =>
    intro _ _
    simp [sinkBytes, stepOutputs, hq.sink_nil, hq.outputs_nil]

/-! ## Whole runs -/

theorem Variant.prelude_inLoop {σ τ : Type} (var : Variant) (w : World σ τ)
    (input : List Byte) : ∀ e ∈ var.prelude w input, e.inLoop = false := by
  intro e he
  cases var
  · simp only [Variant.prelude, Variant.initCall, List.mem_cons, List.mem_singleton,
      List.not_mem_nil, or_false] at he
    rcases he with h | h | h | h | h <;> subst h <;> rfl
  · simp only [Variant.prelude, Variant.initCall, List.mem_cons, List.mem_singleton,
      List.not_mem_nil, or_false] at he
    rcases he with h | h <;> subst h <;> rfl

theorem Variant.prelude_statuses {σ τ : Type} (var : Variant) (w : World σ τ)
    (input : List Byte) : stepStatuses (var.prelude w input) = [] := by
  cases var <;> simp [Variant.prelude, Variant.initCall, stepStatuses]

theorem Variant.prelude_outputs {σ τ : Type} (var : Variant) (w : World σ τ)
    (input : List Byte) : stepOutputs (var.prelude w input) = [] := by
  cases var <;> simp [Variant.prelude, Variant.initCall, stepOutputs]

theorem Variant.prelude_sink {σ τ : Type} (var : Variant) (w : World σ τ)
    (input : List Byte) : sinkBytes (var.prelude w input) = [] := by
  cases var <;> simp [Variant.prelude, Variant.initCall, sinkBytes]

/-- A call of the loops found in a trace that starts with calls from outside
the loops lies behind those calls. -/
theorem split_behind {l t pre post : List Event} {e : Event}
    (hl : ∀ x ∈ l, x.inLoop = false) (he : e.inLoop = true)
    (h : l ++ t = pre ++ e :: post) :
    ∃ pre1, pre = l ++ pre1 ∧ t = pre1 ++ e :: post := by
  rcases List.append_eq_append_iff.mp h with ⟨a, ha, hb⟩ | ⟨c, hc, hd⟩
  · exact ⟨a, ha, hb⟩
  · rcases c with _ | ⟨x, c⟩
    · refine ⟨[], ?_, ?_⟩
      · simpa using hc.symm
      · simpa using hd.symm
    · simp only [List.cons_append, List.cons.injEq] at hd
      have hx : e ∈ l := by rw [hc, hd.1]; simp
      rw [hl e hx] at he
      cases he

theorem ErrorFree.of_append_right {a b : List Event} (h : ErrorFree (a ++ b)) : ErrorFree b :=
  fun x hx => h x (List.mem_append_right _ hx)

theorem getLastD_ok (l : List Int) :
    l.getLastD Z_OK = Z_STREAM_END ↔ l.getLast? = some Z_STREAM_END := by
  rw [List.getLastD_eq_getLast?]
  cases l.getLast? <;> simp

/-- What a run from the top of the inner loop does after its first step. -/
theorem LoopRun.step_cases {chunk : Nat} {cl : List Event} {nd : Bool} {o : Outcome}
    {ni out : List Byte} {ret : Int} {post : List Event}
    (h : LoopRun chunk cl nd none o (Event.inflate ni ret out :: post)) :
    out.length ≤ chunk ∧
    ((nd = false ∧ ret = Z_STREAM_ERROR ∧ o = Outcome.aborted ∧ post = []) ∨
     (ret = Z_NEED_DICT ∧ o = Outcome.returned Z_DATA_ERROR ∧ post = cl) ∨
     ((ret = Z_DATA_ERROR ∨ ret = Z_MEM_ERROR) ∧ o = Outcome.returned ret ∧ post = cl) ∨
     (Continues nd ret ∧ ∃ n err rest, post = Event.fwrite out n err :: rest ∧
       (((n ≠ out.length ∨ err = true) ∧ o = Outcome.returned Z_ERRNO ∧ rest = cl) ∨
        (n = out.length ∧ err = false ∧ out.length = chunk ∧
          LoopRun chunk cl nd none o rest) ∨
        (n = out.length ∧ err = false ∧ out.length < chunk ∧ ret ≠ Z_STREAM_END ∧
          LoopRun chunk cl nd (some ret) o rest) ∨
        (n = out.length ∧ err = false ∧ out.length < chunk ∧ ret = Z_STREAM_END ∧
          o = Outcome.returned Z_OK ∧ rest = cl)))) := by
  cases h with
  | abort _ _ hnd hle => exact ⟨hle, Or.inl ⟨hnd, rfl, rfl, rfl⟩⟩
  | need_dict _ _ hle => exact ⟨hle, Or.inr (Or.inl ⟨rfl, rfl, rfl⟩)⟩
  | step_error _ _ _ hret hle => exact ⟨hle, Or.inr (Or.inr (Or.inl ⟨hret, rfl, rfl⟩))⟩
  | write_error _ _ _ n err hc hle hw =>
    exact ⟨hle, Or.inr (Or.inr (Or.inr ⟨hc, n, err, _, rfl, Or.inl ⟨hw, rfl, rfl⟩⟩))⟩
  | more _ _ _ _ t hc hlen h =>
    exact ⟨hlen.le, Or.inr (Or.inr (Or.inr
      ⟨hc, _, _, _, rfl, Or.inr (Or.inl ⟨rfl, rfl, hlen, h⟩)⟩))⟩
  | next _ _ _ _ t hc hlen hne h =>
    exact ⟨hlen.le, Or.inr (Or.inr (Or.inr
      ⟨hc, _, _, _, rfl, Or.inr (Or.inr (Or.inl ⟨rfl, rfl, hlen, hne, h⟩))⟩))⟩
  | stream_end _ _ hc hlen =>
    exact ⟨hlen.le, Or.inr (Or.inr (Or.inr
      ⟨hc, _, _, _, rfl, Or.inr (Or.inr (Or.inr ⟨rfl, rfl, hlen, rfl, rfl, rfl⟩))⟩))⟩

/-- A decomposition of the trace of a whole run at a call made inside the
loops: the call lies in the run of the loops, which the run entered after a
successful initialisation. -/
theorem decompress_split {σ τ : Type} (var : Variant) (w : World σ τ) (chunk : Nat)
    (input : List Byte) (fuel : Nat) {pre post : List Event} {e : Event}
    (he : e.inLoop = true)
    (h : (decompressWith var w chunk input fuel).trace = pre ++ e :: post) :
    ∃ t pre1, LoopRun chunk var.cleanup w.ndebug (some Z_OK)
        (decompressWith var w chunk input fuel).outcome t ∧
      (decompressWith var w chunk input fuel).trace = var.prelude w input ++ t ∧
      pre = var.prelude w input ++ pre1 ∧ t = pre1 ++ e :: post := by
  have hmem : e ∈ (decompressWith var w chunk input fuel).trace := by rw [h]; simp
  rcases decompress_shape var w chunk input fuel with
    ⟨h0, hr⟩ | ⟨hv, h0, h1, hr⟩ | ⟨hv, h0, h1, h2, hr⟩ | ⟨h0, -, o, t, hl, hr⟩
  · rw [hr] at hmem
    simp only [List.mem_singleton] at hmem
    subst hmem
    cases var <;> simp [Variant.initCall, Event.inLoop] at he
  · rw [hr] at hmem
    simp only [List.mem_cons, List.mem_singleton, List.not_mem_nil, or_false] at hmem
    rcases hmem with hm | hm | hm <;> subst hm <;>
      cases var <;> simp [Variant.initCall, Event.inLoop] at he
  · rw [hr] at hmem
    rw [var.prelude_inLoop w input e hmem] at he
    cases he
  · rw [hr] at h ⊢
    obtain ⟨pre1, hp, ht⟩ := split_behind (var.prelude_inLoop w input) he h
    exact ⟨t, pre1, hl, rfl, hp, ht⟩

/-- Up to any step of a run of the loops, the destination took the outputs
of the steps made before it. -/
theorem LoopRun.sink_before_step {chunk : Nat} {cl : List Event} {nd : Bool}
    (hq : Quiet cl) {at_ : Option Int} {o : Outcome} {t : List Event}
    (h : LoopRun chunk cl nd at_ o t) :
    ∀ (pre : List Event) (ni : List Byte) (ret : Int) (out : List Byte) (post : List Event),
      t = pre ++ Event.inflate ni ret out :: post →
      sinkBytes pre = (stepOutputs pre).flatten := by
  induction h with
  | fuel at_ => intro pre ni ret out post heq; simp at heq
  | read_error ret0 data =>
    intro pre ni ret out post heq
    rcases pre with _ | ⟨p, pre⟩
    · rfl
    · simp only [List.cons_append, List.cons.injEq] at heq
      exact (hq.no_inflate heq.2).elim
  | eof ret0 =>
    intro pre ni ret out post heq
    rcases pre with _ | ⟨p, pre⟩
    · rfl
    · simp only [List.cons_append, List.cons.injEq] at heq
      exact (hq.no_inflate heq.2).elim
  | feed ret0 data o t hne hle h ih =>
    intro pre ni ret out post heq
    rcases pre with _ | ⟨p, pre⟩
    · rfl
    · simp only [List.cons_append, List.cons.injEq] at heq
      obtain ⟨rfl, heq⟩ := heq
      simpa [sinkBytes, stepOutputs] using ih _ _ _ _ _ heq
  | abort ni0 out0 hnd hle =>
    intro pre ni ret out post heq
    rcases pre with _ | ⟨p, pre⟩
    · rfl
    · simp at heq
  | need_dict ni0 out0 hle =>
    intro pre ni ret out post heq
    rcases pre with _ | ⟨p, pre⟩
    · rfl
    · simp only [List.cons_append, List.cons.injEq] at heq
      exact (hq.no_inflate heq.2).elim
  | step_error ni0 ret0 out0 hret hle =>
    intro pre ni ret out post heq
    rcases pre with _ | ⟨p, pre⟩
    · rfl
    · simp only [List.cons_append, List.cons.injEq] at heq
      exact (hq.no_inflate heq.2).elim
  | write_error ni0 ret0 out0 n err hc hle hw =>
    intro pre ni ret out post heq
    rcases pre with _ | ⟨p, _ | ⟨q, pre⟩⟩
    · rfl
    · simp at heq
    · simp only [List.cons_append, List.cons.injEq] at heq
      exact (hq.no_inflate heq.2.2).elim
  | more ni0 ret0 out0 o t hc hlen h ih =>
    intro pre ni ret out post heq
    rcases pre with _ | ⟨p, _ | ⟨q, pre⟩⟩
    · rfl
    · simp at heq
    · simp only [List.cons_append, List.cons.injEq] at heq
      obtain ⟨rfl, rfl, heq⟩ := heq
      simp [sinkBytes, stepOutputs, ih _ _ _ _ _ heq]
  | next ni0 ret0 out0 o t hc hlen hne h ih =>
    intro pre ni ret out post heq
    rcases pre with _ | ⟨p, _ | ⟨q, pre⟩⟩
    · rfl
    · simp at heq
    · simp only [List.cons_append, List.cons.injEq] at heq
      obtain ⟨rfl, rfl, heq⟩ := heq
      simp [sinkBytes, stepOutputs, ih _ _ _ _ _ heq]
  | stream_end ni0 out0 hc hlen =>
    intro pre ni ret out post heq
    rcases pre with _ | ⟨p, _ | ⟨q, pre⟩⟩
    · rfl
    · simp at heq
    · simp only [List.cons_append, List.cons.injEq] at heq
      exact (hq.no_inflate heq.2.2).elim

theorem continues_not_error {nd : Bool} {ret : Int} (hc : Continues nd ret) :
    ¬ (ret = Z_NEED_DICT ∨ ret = Z_DATA_ERROR ∨ ret = Z_MEM_ERROR) := by
  rintro (h | h | h)
  · exact hc.2.1 h
  · exact hc.2.2.1 h
  · exact hc.2.2.2 h

/-- In a whole run, a step that reports `Z_NEED_DICT`, `Z_DATA_ERROR` or
`Z_MEM_ERROR` is followed by the calls of `cleanup` and nothing else, the run
returns `Z_DATA_ERROR` for the first two and `Z_MEM_ERROR` for the third, and
the destination holds the outputs of the earlier steps. -/
theorem failing_step {σ τ : Type} (var : Variant) (w : World σ τ) (chunk : Nat)
    (input : List Byte) (fuel : Nat) (pre : List Event) (ni : List Byte) (ret : Int)
    (out : List Byte) (post : List Event)
    (hs : ret = Z_NEED_DICT ∨ ret = Z_DATA_ERROR ∨ ret = Z_MEM_ERROR)
    (h : (decompressWith var w chunk input fuel).trace =
      pre ++ Event.inflate ni ret out :: post) :
    (decompressWith var w chunk input fuel).outcome =
      Outcome.returned (if ret = Z_NEED_DICT then Z_DATA_ERROR else ret) ∧
    post = var.cleanup ∧
    sinkBytes (decompressWith var w chunk input fuel).trace = (stepOutputs pre).flatten := by
  obtain ⟨t, pre1, hl, ht, hp, hsplit⟩ :=
    decompress_split var w chunk input fuel (e := Event.inflate ni ret out) rfl h
  have hq := var.cleanup_quiet
  have hsink := hl.sink_before_step hq _ _ _ _ _ hsplit
  have hcases := (hl.from_inflate hq _ _ _ _ _ hsplit).step_cases
  have hpost : post = var.cleanup ∧ (decompressWith var w chunk input fuel).outcome =
      Outcome.returned (if ret = Z_NEED_DICT then Z_DATA_ERROR else ret) := by
    rcases hcases with ⟨-, ⟨-, h1, -, -⟩ | ⟨h1, h2, h3⟩ | ⟨h1, h2, h3⟩ | ⟨hc, -⟩⟩
    · rcases hs with h | h | h <;> rw [h] at h1 <;> simp at h1
    · exact ⟨h3, by rw [h2, if_pos h1]⟩
    · refine ⟨h3, ?_⟩
      rw [h2, if_neg]
      rcases h1 with h | h <;> rw [h] <;> simp
    · exact (continues_not_error hc hs).elim
  refine ⟨hpost.2, hpost.1, ?_⟩
  rw [h, hpost.1, sinkBytes_append, hp, sinkBytes_append, var.prelude_sink,
    stepOutputs_append, var.prelude_outputs]
  simp [sinkBytes, hq.sink_nil, hsink]

/-- A run from the top of the inner loop starts with a step, unless the bound
on loop bodies is reached. -/
theorem LoopRun.drain_head {chunk : Nat} {cl : List Event} {nd : Bool} {o : Outcome}
    {t : List Event} (h : LoopRun chunk cl nd none o t) :
    (t = [] ∧ o = Outcome.unfinished) ∨
      ∃ ni ret out rest, t = Event.inflate ni ret out :: rest := by
  cases h with
  | fuel => exact Or.inl ⟨rfl, rfl⟩
  | abort ni out => exact Or.inr ⟨ni, _, out, _, rfl⟩
  | need_dict ni out => exact Or.inr ⟨ni, _, out, _, rfl⟩
  | step_error ni ret out => exact Or.inr ⟨ni, ret, out, _, rfl⟩
  | write_error ni ret out => exact Or.inr ⟨ni, ret, out, _, rfl⟩
  | more ni ret out => exact Or.inr ⟨ni, ret, out, _, rfl⟩
  | next ni ret out => exact Or.inr ⟨ni, ret, out, _, rfl⟩
  | stream_end ni out => exact Or.inr ⟨ni, _, out, _, rfl⟩

/-- One pass through the top of the outer loop of common_zlib.h when the read
succeeds and yields data. -/
theorem CommonZlib.fill_feed {σ τ : Type} (w : World σ τ) (chunk fuel : Nat) (v : Vars σ τ)
    (herr : w.ferror_source v.reads = false) (hne : (v.source.take chunk).length ≠ 0) :
    CommonZlib.fill w chunk (fuel + 1) v =
      Run.after [Event.fread (v.source.take chunk) false]
        (CommonZlib.drain w chunk fuel
          ⟨v.ret, v.stream, v.source.drop chunk, v.reads + 1, v.dest⟩
          (v.source.take chunk)) := by
  simp only [CommonZlib.fill, herr, hne]
  simp

/-- One pass through the inner loop of common_zlib.h when the step neither
aborts nor returns, its output is written in full, and it leaves room in the
output buffer. -/
theorem CommonZlib.drain_short {σ τ : Type} (w : World σ τ) (chunk fuel : Nat)
    (v : Vars σ τ) (ni : List Byte)
    (hc : Continues w.ndebug (w.inflate v.stream ni chunk).ret)
    (hlen : ((w.inflate v.stream ni chunk).out.take chunk).length < chunk)
    (hw : (w.fwrite v.dest ((w.inflate v.stream ni chunk).out.take chunk)).1 =
      ((w.inflate v.stream ni chunk).out.take chunk).length)
    (he : w.ferror_dest
      (w.fwrite v.dest ((w.inflate v.stream ni chunk).out.take chunk)).2 = false) :
    CommonZlib.drain w chunk (fuel + 1) v ni =
      Run.after
        [Event.inflate ni (w.inflate v.stream ni chunk).ret
            ((w.inflate v.stream ni chunk).out.take chunk),
          Event.fwrite ((w.inflate v.stream ni chunk).out.take chunk)
            ((w.inflate v.stream ni chunk).out.take chunk).length false]
        (if (w.inflate v.stream ni chunk).ret ≠ Z_STREAM_END then
          CommonZlib.fill w chunk fuel
            ⟨(w.inflate v.stream ni chunk).ret, (w.inflate v.stream ni chunk).state,
              v.source, v.reads,
              (w.fwrite v.dest ((w.inflate v.stream ni chunk).out.take chunk)).2⟩
        else ⟨Outcome.returned Z_OK, CommonZlib.cleanup⟩) := by
  obtain ⟨h1, h2, h3, h4⟩ := hc
  have h5 : ¬ ((w.inflate v.stream ni chunk).ret = Z_DATA_ERROR ∨
      (w.inflate v.stream ni chunk).ret = Z_MEM_ERROR) := by tauto
  have h6 : ¬ (chunk - ((w.inflate v.stream ni chunk).out.take chunk).length = 0) := by omega
  simp only [CommonZlib.drain, have_eq, List.take_length, if_neg h1, if_neg h2, if_neg h5,
    hw, he, if_neg h6]
  split_ifs with h7 <;> simp [Run.after, finalStatus] <;> simp_all

/-- On an input of more than one buffer, with assertions compiled out, a first
step that reports `Z_STREAM_ERROR` and a second one that reports
`Z_STREAM_END`, each leaving room in the output buffer, give this run of
common_zlib.h, which returns `Z_OK`. -/
theorem stream_error_then_end (input : List Byte)
    (h1 : (input.take CHUNK).length ≠ 0)
    (h2 : ((input.drop CHUNK).take CHUNK).length ≠ 0) :
    decompress Variant.common_zlib
        { scripted [(Z_STREAM_ERROR, [7]), (Z_STREAM_END, [8])] with ndebug := true }
        input 4 =
      ⟨Outcome.returned Z_OK,
        [Event.inflateInit2 31 Z_OK, Event.fmemopen input, Event.errno 0, Event.fdopen,
          Event.errno 0, Event.fread (input.take CHUNK) false,
          Event.inflate (input.take CHUNK) Z_STREAM_ERROR [7],
          Event.fwrite [7] 1 false,
          Event.fread ((input.drop CHUNK).take CHUNK) false,
          Event.inflate ((input.drop CHUNK).take CHUNK) Z_STREAM_END [8],
          Event.fwrite [8] 1 false, Event.inflateEnd, Event.fcloseSource,
          Event.fcloseDest]⟩ := by
  unfold decompress CommonZlib.decompress CommonZlib.decompressWith
  simp only [scripted, Z_OK, ne_eq, not_true_eq_false, if_false]
  rw [CommonZlib.fill_feed _ _ _ _ rfl h1]
  rw [CommonZlib.drain_short _ _ _ _ _ (by simp [Continues]) (by simp [CHUNK])
    (by simp [CHUNK]) rfl]
  simp only
  rw [if_pos (by simp)]
  rw [CommonZlib.fill_feed _ _ _ _ rfl h2]
  rw [CommonZlib.drain_short _ _ _ _ _ (by simp [Continues]) (by simp [CHUNK])
    (by simp [CHUNK]) rfl]
  simp [Run.after, CommonZlib.cleanup, CHUNK]

/-- In common_zlib.h, reporting `Z_DATA_ERROR` in place of `Z_NEED_DICT` changes
nothing in a run of the loops but the recorded status. -/
theorem CommonZlib.relabel_loops {σ τ : Type} (w : World σ τ) (chunk fuel : Nat) :
    (∀ v, CommonZlib.fill w.needDictAsDataError chunk fuel v =
      (CommonZlib.fill w chunk fuel v).needDictAsDataError) ∧
    (∀ v ni, CommonZlib.drain w.needDictAsDataError chunk fuel v ni =
      (CommonZlib.drain w chunk fuel v ni).needDictAsDataError) := by
  induction fuel with
  | zero =>
    exact ⟨fun v => rfl, fun v ni => rfl⟩
  | succ n ih =>
    obtain ⟨ihf, ihd⟩ := ih
    constructor
    · intro v
      simp only [CommonZlib.fill, ihd]
      have hs : w.needDictAsDataError.ferror_source = w.ferror_source := rfl
      rw [hs]
      split_ifs <;>
        simp [Run.needDictAsDataError, Run.after, Event.needDictAsDataError, CommonZlib.cleanup]
    · intro v ni
      simp only [CommonZlib.drain, ihd, ihf]
      have h1 : w.needDictAsDataError.ndebug = w.ndebug := rfl
      have h2 : w.needDictAsDataError.fwrite = w.fwrite := rfl
      have h3 : w.needDictAsDataError.ferror_dest = w.ferror_dest := rfl
      have h4 : ∀ s ni n, (w.needDictAsDataError.inflate s ni n).out =
          (w.inflate s ni n).out := fun _ _ _ => rfl
      have h5 : ∀ s ni n, (w.needDictAsDataError.inflate s ni n).state =
          (w.inflate s ni n).state := fun _ _ _ => rfl
      have h6 : ∀ s ni n, (w.needDictAsDataError.inflate s ni n).next_in =
          (w.inflate s ni n).next_in := fun _ _ _ => rfl
      have h7 : ∀ s ni n, (w.needDictAsDataError.inflate s ni n).ret =
          if (w.inflate s ni n).ret = Z_NEED_DICT then Z_DATA_ERROR
          else (w.inflate s ni n).ret := fun _ _ _ => rfl
      rw [h1, h2, h3, h4, h5, h6, h7]
      by_cases hnd : (w.inflate v.stream ni chunk).ret = Z_NEED_DICT
      · simp [hnd, Run.needDictAsDataError, Run.after, Event.needDictAsDataError,
          CommonZlib.cleanup]
      · rw [if_neg hnd]
        split_ifs <;>
          simp_all [Run.needDictAsDataError, Run.after, Event.needDictAsDataError,
            CommonZlib.cleanup]

/-- In zlib_decompress.h, reporting `Z_DATA_ERROR` in place of `Z_NEED_DICT` changes
nothing in a run of the loops but the recorded status. -/
theorem ZlibDecompress.relabel_fill_drain {σ τ : Type} (w : World σ τ) (chunk fuel : Nat) :
    (∀ v, ZlibDecompress.fill w.needDictAsDataError chunk fuel v =
      (ZlibDecompress.fill w chunk fuel v).needDictAsDataError) ∧
    (∀ v ni, ZlibDecompress.drain w.needDictAsDataError chunk fuel v ni =
      (ZlibDecompress.drain w chunk fuel v ni).needDictAsDataError) := by
  induction fuel with
  | zero =>
    exact ⟨fun v => rfl, fun v ni => rfl⟩
  | succ n ih =>
    obtain ⟨ihf, ihd⟩ := ih
    constructor
    · intro v
      simp only [ZlibDecompress.fill, ihd]
      have hs : w.needDictAsDataError.ferror_source = w.ferror_source := rfl
      rw [hs]
      split_ifs <;>
        simp [Run.needDictAsDataError, Run.after, Event.needDictAsDataError, ZlibDecompress.cleanup]
    · intro v ni
      simp only [ZlibDecompress.drain, ihd, ihf]
      have h1 : w.needDictAsDataError.ndebug = w.ndebug := rfl
      have h2 : w.needDictAsDataError.fwrite = w.fwrite := rfl
      have h3 : w.needDictAsDataError.ferror_dest = w.ferror_dest := rfl
      have h4 : ∀ s ni n, (w.needDictAsDataError.inflate s ni n).out =
          (w.inflate s ni n).out := fun _ _ _ => rfl
      have h5 : ∀ s ni n, (w.needDictAsDataError.inflate s ni n).state =
          (w.inflate s ni n).state := fun _ _ _ => rfl
      have h6 : ∀ s ni n, (w.needDictAsDataError.inflate s ni n).next_in =
          (w.inflate s ni n).next_in := fun _ _ _ => rfl
      have h7 : ∀ s ni n, (w.needDictAsDataError.inflate s ni n).ret =
          if (w.inflate s ni n).ret = Z_NEED_DICT then Z_DATA_ERROR
          else (w.inflate s ni n).ret := fun _ _ _ => rfl
      rw [h1, h2, h3, h4, h5, h6, h7]
      by_cases hnd : (w.inflate v.stream ni chunk).ret = Z_NEED_DICT
      · simp [hnd, Run.needDictAsDataError, Run.after, Event.needDictAsDataError,
          ZlibDecompress.cleanup]
      · rw [if_neg hnd]
        split_ifs <;>
          simp_all [Run.needDictAsDataError, Run.after, Event.needDictAsDataError,
            ZlibDecompress.cleanup]

/-- Reporting `Z_DATA_ERROR` in place of `Z_NEED_DICT` changes nothing in a
whole run but the recorded status. -/
theorem decompress_relabel {σ τ : Type} (var : Variant) (w : World σ τ) (chunk : Nat)
    (input : List Byte) (fuel : Nat) :
    decompressWith var w.needDictAsDataError chunk input fuel =
      (decompressWith var w chunk input fuel).needDictAsDataError := by
  cases var with
  | common_zlib =>
    have h1 : w.needDictAsDataError.inflateInit2 = w.inflateInit2 := rfl
    have h2 : w.needDictAsDataError.errno_fmemopen = w.errno_fmemopen := rfl
    have h3 : w.needDictAsDataError.errno_fdopen = w.errno_fdopen := rfl
    have h4 : w.needDictAsDataError.dest = w.dest := rfl
    simp only [decompressWith, CommonZlib.decompressWith, h1, h2, h3, h4,
      (CommonZlib.relabel_loops w chunk fuel).1]
    split_ifs <;>
      simp [Run.needDictAsDataError, Run.after, Event.needDictAsDataError]
  | zlib_decompress =>
    have h1 : w.needDictAsDataError.inflateInit = w.inflateInit := rfl
    have h4 : w.needDictAsDataError.dest = w.dest := rfl
    simp only [decompressWith, ZlibDecompress.decompressWith, h1, h4,
      (ZlibDecompress.relabel_fill_drain w chunk fuel).1]
    split_ifs <;>
      simp [Run.needDictAsDataError, Run.after, Event.needDictAsDataError]

/-! ## Claims -/

/-- C1. For every input, engine and destination: when `decompress` returns
`Z_OK`, the last `inflate` call it made reported `Z_STREAM_END`; and when it
returns without any call having failed and without the last `inflate` call
having reported `Z_STREAM_END`, it returns `Z_DATA_ERROR`. -/
theorem ok_only_after_stream_end {σ τ : Type} (var : Variant) (w : World σ τ)
    (chunk : Nat) (input : List Byte) (fuel : Nat) (x : Int)
    (hret : (decompressWith var w chunk input fuel).outcome = Outcome.returned x) :
    (x = Z_OK →
      (stepStatuses (decompressWith var w chunk input fuel).trace).getLast? =
        some Z_STREAM_END) ∧
    (ErrorFree (decompressWith var w chunk input fuel).trace →
      (stepStatuses (decompressWith var w chunk input fuel).trace).getLast? ≠
        some Z_STREAM_END →
      x = Z_DATA_ERROR) := by
  rcases decompress_shape var w chunk input fuel with
    ⟨h0, hr⟩ | ⟨hv, h0, h1, hr⟩ | ⟨hv, h0, h1, h2, hr⟩ | ⟨h0, -, o, t, hl, hr⟩
  · rw [hr] at hret ⊢
    cases hret
    refine ⟨fun hx => (h0 hx).elim, fun he _ => ?_⟩
    have := he.first
    cases var <;> simp [Variant.initCall, Event.failed, Variant.init] at this h0 <;>
      exact (h0 this).elim
  · rw [hr] at hret ⊢
    cases hret
    refine ⟨by simp, fun he _ => ?_⟩
    have := he.rest.rest.first
    simp [Event.failed] at this
    exact (h1 this).elim
  · rw [hr] at hret ⊢
    cases hret
    subst hv
    refine ⟨by simp, fun he _ => ?_⟩
    have := he.rest.rest.rest.rest.first
    simp [Event.failed] at this
    exact (h2 this).elim
  · rw [hr] at hret ⊢
    simp only at hret ⊢
    obtain ⟨h1, h2⟩ := hl.last_status var.cleanup_quiet Z_OK x (by simp) hret
    rw [stepStatuses_append, var.prelude_statuses, List.nil_append]
    refine ⟨fun hx => (getLastD_ok _).mp (h1 hx), fun he hne => h2 he.of_append_right ?_⟩
    exact fun h => hne ((getLastD_ok _).mp h)

theorem ok_only_after_stream_end_witness :
    (decompressWith Variant.common_zlib (scripted [(Z_OK, [7])]) CHUNK [1, 2, 3] 3).outcome
        = Outcome.returned Z_DATA_ERROR ∧
    ErrorFree
      (decompressWith Variant.common_zlib (scripted [(Z_OK, [7])]) CHUNK [1, 2, 3] 3).trace ∧
    stepStatuses
      (decompressWith Variant.common_zlib (scripted [(Z_OK, [7])]) CHUNK [1, 2, 3] 3).trace
        = [Z_OK] ∧
    ((Z_DATA_ERROR = Z_OK →
      (stepStatuses
        (decompressWith Variant.common_zlib (scripted [(Z_OK, [7])]) CHUNK
          [1, 2, 3] 3).trace).getLast? = some Z_STREAM_END) ∧
    (ErrorFree
        (decompressWith Variant.common_zlib (scripted [(Z_OK, [7])]) CHUNK [1, 2, 3] 3).trace →
      (stepStatuses
        (decompressWith Variant.common_zlib (scripted [(Z_OK, [7])]) CHUNK
          [1, 2, 3] 3).trace).getLast? ≠ some Z_STREAM_END →
      Z_DATA_ERROR = Z_DATA_ERROR)) :=
  ⟨by decide, by decide, by decide,
    ok_only_after_stream_end Variant.common_zlib (scripted [(Z_OK, [7])]) CHUNK [1, 2, 3] 3
      Z_DATA_ERROR (by decide)⟩

/-- C2, as the code has it. For a zero-length input, when initialisation
succeeds, the `errno` checks of common_zlib.h pass and the read reports no
error, `decompress` ends after one read, without any `inflate` or `fwrite`
call, tears the session down and returns `Z_DATA_ERROR` (not `Z_OK`); the
destination takes no byte. -/
theorem empty_input_data_error {σ τ : Type} (var : Variant) (w : World σ τ)
    (chunk : Nat) (fuel : Nat) (hinit : (var.init w).1 = Z_OK)
    (herrno : var = Variant.common_zlib → w.errno_fmemopen = 0 ∧ w.errno_fdopen = 0)
    (hread : w.ferror_source 0 = false) :
    decompressWith var w chunk [] (fuel + 1) =
      ⟨Outcome.returned Z_DATA_ERROR,
        var.prelude w [] ++ Event.fread [] false :: var.cleanup⟩ ∧
    sinkBytes (decompressWith var w chunk [] (fuel + 1)).trace = [] := by
  cases var with
  | common_zlib =>
    obtain ⟨h1, h2⟩ := herrno rfl
    have h0 : (w.inflateInit2 31).1 = 0 := by simpa [Variant.init] using hinit
    simp [decompressWith, CommonZlib.decompressWith, CommonZlib.fill, Run.after,
      Variant.prelude, Variant.initCall, Variant.cleanup, CommonZlib.cleanup, finalStatus,
      sinkBytes, h0, h1, h2, hread]
  | zlib_decompress =>
    have h0 : w.inflateInit.1 = 0 := by simpa [Variant.init] using hinit
    simp [decompressWith, ZlibDecompress.decompressWith, ZlibDecompress.fill, Run.after,
      Variant.prelude, Variant.initCall, Variant.cleanup, ZlibDecompress.cleanup,
      finalStatus, sinkBytes, h0, hread]

theorem empty_input_data_error_witness :
    (Variant.common_zlib.init (scripted [])).1 = Z_OK ∧
    (Variant.common_zlib = Variant.common_zlib →
      (scripted []).errno_fmemopen = 0 ∧ (scripted []).errno_fdopen = 0) ∧
    (scripted []).ferror_source 0 = false ∧
    (decompressWith Variant.common_zlib (scripted []) CHUNK [] (0 + 1) =
      ⟨Outcome.returned Z_DATA_ERROR,
        Variant.common_zlib.prelude (scripted []) [] ++
          Event.fread [] false :: Variant.common_zlib.cleanup⟩ ∧
    sinkBytes (decompressWith Variant.common_zlib (scripted []) CHUNK [] (0 + 1)).trace = []) :=
  ⟨by decide, by decide, by decide,
    empty_input_data_error Variant.common_zlib (scripted []) CHUNK 0 (by decide) (by decide)
      (by decide)⟩

/-- C2, counterexample. On the empty input, with an engine that initialises
with `Z_OK` and a destination that never fails, `decompress` of
zlib_decompress.h returns `Z_DATA_ERROR`, and no bound on the number of loop
bodies makes it return `Z_OK`. -/
theorem empty_input_not_ok :
    (Variant.zlib_decompress.init (scripted [])).1 = Z_OK ∧
    decompress Variant.zlib_decompress (scripted []) [] 1 =
      ⟨Outcome.returned Z_DATA_ERROR,
        [Event.inflateInit Z_OK, Event.fmemopen [], Event.fread [] false,
          Event.inflateEnd, Event.fcloseSource]⟩ ∧
    ¬ ∃ fuel, (decompress Variant.zlib_decompress (scripted []) [] fuel).outcome =
        Outcome.returned Z_OK := by
  refine ⟨by decide, by decide, ?_⟩
  rintro ⟨fuel, h⟩
  cases fuel with
  | zero => exact absurd h (by decide)
  | succ n =>
    simp [decompress, ZlibDecompress.decompress, ZlibDecompress.decompressWith,
      ZlibDecompress.fill, Run.after, scripted, finalStatus] at h

/-- C3, failing inputs. In common_zlib.h, when `inflateInit2` succeeds and
`errno` is not zero at the check after `fdopen` (an invalid `dest_fd` gives
`EBADF`, 9) or at the check after `fmemopen`, `decompress` returns `Z_ERRNO`
without having called `inflateEnd`: the session is not torn down. -/
theorem errno_return_leaks_session :
    (Variant.common_zlib.init { scripted [] with errno_fdopen := 9 }).1 = Z_OK ∧
    decompress Variant.common_zlib { scripted [] with errno_fdopen := 9 } [1, 2, 3] 5 =
      ⟨Outcome.returned Z_ERRNO,
        [Event.inflateInit2 31 Z_OK, Event.fmemopen [1, 2, 3], Event.errno 0,
          Event.fdopen, Event.errno 9]⟩ ∧
    teardowns
      (decompress Variant.common_zlib { scripted [] with errno_fdopen := 9 }
        [1, 2, 3] 5).trace = 0 ∧
    decompress Variant.common_zlib { scripted [] with errno_fmemopen := 22 } [1, 2, 3] 5 =
      ⟨Outcome.returned Z_ERRNO,
        [Event.inflateInit2 31 Z_OK, Event.fmemopen [1, 2, 3], Event.errno 22]⟩ ∧
    teardowns
      (decompress Variant.common_zlib { scripted [] with errno_fmemopen := 22 }
        [1, 2, 3] 5).trace = 0 := by
  decide

/-- The teardown count on every path: a run that returns calls `inflateEnd`
exactly once, unless initialisation failed (no session to tear down) or, in
common_zlib.h, one of the two `errno` checks made it return (the session is
left open). -/
theorem teardowns_of_returned {σ τ : Type} (var : Variant) (w : World σ τ)
    (chunk : Nat) (input : List Byte) (fuel : Nat) (x : Int)
    (hret : (decompressWith var w chunk input fuel).outcome = Outcome.returned x) :
    teardowns (decompressWith var w chunk input fuel).trace =
      if (var.init w).1 = Z_OK ∧
        (var = Variant.common_zlib → w.errno_fmemopen = 0 ∧ w.errno_fdopen = 0)
      then 1 else 0 := by
  rcases decompress_shape var w chunk input fuel with
    ⟨h0, hr⟩ | ⟨hv, h0, h1, hr⟩ | ⟨hv, h0, h1, h2, hr⟩ | ⟨h0, he, o, t, hl, hr⟩
  · rw [hr, if_neg (fun h => h0 h.1)]
    cases var <;> simp [teardowns, Variant.initCall]
  · rw [hr, if_neg (fun h => h1 (h.2 hv).1)]
    cases var <;> simp [teardowns, Variant.initCall]
  · rw [hr, if_neg (fun h => h2 (h.2 hv).2)]
    cases var <;> simp [teardowns, Variant.initCall, Variant.prelude]
  · rw [hr] at hret ⊢
    rw [if_pos ⟨h0, he⟩]
    have h3 := hl.teardowns_eq.1 x hret
    simp only [teardowns, List.count_append] at h3 ⊢
    rw [h3]
    cases var <;>
      simp [Variant.initCall, Variant.prelude, Variant.cleanup, CommonZlib.cleanup,
        ZlibDecompress.cleanup]

/-- C7. When engine initialisation returns a status other than `Z_OK`,
`decompress` returns that status and the initialisation call is the only call
it makes: no read, no `inflate` step, nothing on the destination. -/
theorem init_failure_returns_at_once {σ τ : Type} (var : Variant) (w : World σ τ)
    (chunk : Nat) (input : List Byte) (fuel : Nat) (hinit : (var.init w).1 ≠ Z_OK) :
    decompressWith var w chunk input fuel =
      ⟨Outcome.returned (var.init w).1, [var.initCall w]⟩ := by
  rcases decompress_shape var w chunk input fuel with
    ⟨h0, hr⟩ | ⟨hv, h0, h1, hr⟩ | ⟨hv, h0, h1, h2, hr⟩ | ⟨h0, he, o, t, hl, hr⟩
  · exact hr
  · exact (hinit h0).elim
  · exact (hinit h0).elim
  · exact (hinit h0).elim

theorem init_failure_returns_at_once_witness :
    (Variant.zlib_decompress.init
      { scripted [(Z_STREAM_END, [7])] with inflateInit := (Z_VERSION_ERROR, 0) }).1 ≠ Z_OK ∧
    decompressWith Variant.zlib_decompress
        { scripted [(Z_STREAM_END, [7])] with inflateInit := (Z_VERSION_ERROR, 0) }
        CHUNK [1, 2, 3] 5 =
      ⟨Outcome.returned
          (Variant.zlib_decompress.init
            { scripted [(Z_STREAM_END, [7])] with inflateInit := (Z_VERSION_ERROR, 0) }).1,
        [Variant.zlib_decompress.initCall
          { scripted [(Z_STREAM_END, [7])] with inflateInit := (Z_VERSION_ERROR, 0) }]⟩ :=
  ⟨by decide, init_failure_returns_at_once _ _ _ _ _ (by decide)⟩

/-- C4. A step that reports `Z_NEED_DICT` is treated as one that reports
`Z_DATA_ERROR`. With an engine that reports `Z_DATA_ERROR` wherever the given
one reports `Z_NEED_DICT`, the run is the same call for call, the status
recorded for those steps apart. And for either status, wherever the step
stands in the run, `decompress` returns `Z_DATA_ERROR`, the calls after the
step are those of `cleanup` and nothing else (no write of the step's output,
no further step), and the destination holds what it held before the step. -/
theorem need_dict_as_data_error {σ τ : Type} (var : Variant) (w : World σ τ) (chunk : Nat)
    (input : List Byte) (fuel : Nat) (pre : List Event) (ni : List Byte) (ret : Int)
    (out : List Byte) (post : List Event)
    (hs : ret = Z_NEED_DICT ∨ ret = Z_DATA_ERROR)
    (h : (decompressWith var w chunk input fuel).trace =
      pre ++ Event.inflate ni ret out :: post) :
    decompressWith var w.needDictAsDataError chunk input fuel =
      (decompressWith var w chunk input fuel).needDictAsDataError ∧
    (decompressWith var w chunk input fuel).outcome = Outcome.returned Z_DATA_ERROR ∧
    post = var.cleanup ∧
    sinkBytes (decompressWith var w chunk input fuel).trace = sinkBytes pre := by
  obtain ⟨h1, h2, -⟩ := failing_step var w chunk input fuel pre ni ret out post
    (by rcases hs with h | h <;> simp [h]) h
  refine ⟨decompress_relabel var w chunk input fuel, ?_, h2, ?_⟩
  · rw [h1]
    rcases hs with h | h <;> simp [h]
  · rw [h, h2, sinkBytes_append]
    simp [sinkBytes, var.cleanup_quiet.sink_nil]

theorem need_dict_as_data_error_witness :
    (Z_NEED_DICT = Z_NEED_DICT ∨ Z_NEED_DICT = Z_DATA_ERROR) ∧
    (decompressWith Variant.zlib_decompress (scripted [(Z_NEED_DICT, [7])]) CHUNK
        [1, 2, 3] 5).trace =
      [Event.inflateInit Z_OK, Event.fmemopen [1, 2, 3], Event.fread [1, 2, 3] false] ++
        Event.inflate [1, 2, 3] Z_NEED_DICT [7] :: [Event.inflateEnd, Event.fcloseSource] ∧
    (decompressWith Variant.zlib_decompress (scripted [(Z_NEED_DICT, [7])]).needDictAsDataError
        CHUNK [1, 2, 3] 5 =
      (decompressWith Variant.zlib_decompress (scripted [(Z_NEED_DICT, [7])]) CHUNK
        [1, 2, 3] 5).needDictAsDataError ∧
    (decompressWith Variant.zlib_decompress (scripted [(Z_NEED_DICT, [7])]) CHUNK
        [1, 2, 3] 5).outcome = Outcome.returned Z_DATA_ERROR ∧
    [Event.inflateEnd, Event.fcloseSource] = Variant.zlib_decompress.cleanup ∧
    sinkBytes (decompressWith Variant.zlib_decompress (scripted [(Z_NEED_DICT, [7])]) CHUNK
        [1, 2, 3] 5).trace =
      sinkBytes
        [Event.inflateInit Z_OK, Event.fmemopen [1, 2, 3], Event.fread [1, 2, 3] false]) :=
  ⟨by decide, by decide,
    need_dict_as_data_error Variant.zlib_decompress (scripted [(Z_NEED_DICT, [7])]) CHUNK
      [1, 2, 3] 5
      [Event.inflateInit Z_OK, Event.fmemopen [1, 2, 3], Event.fread [1, 2, 3] false]
      [1, 2, 3] Z_NEED_DICT [7] [Event.inflateEnd, Event.fcloseSource]
      (by decide) (by decide)⟩

/-- C5. A step that reports `Z_DATA_ERROR` or `Z_MEM_ERROR` makes `decompress`
return that code: the calls after the step are those of `cleanup` and nothing
else (no read, no step, no write), and the destination holds the outputs of
the steps made before it, the output of the failing step left out. -/
theorem step_error_returns_at_once {σ τ : Type} (var : Variant) (w : World σ τ)
    (chunk : Nat) (input : List Byte) (fuel : Nat) (pre : List Event) (ni : List Byte)
    (ret : Int) (out : List Byte) (post : List Event)
    (hs : ret = Z_DATA_ERROR ∨ ret = Z_MEM_ERROR)
    (h : (decompressWith var w chunk input fuel).trace =
      pre ++ Event.inflate ni ret out :: post) :
    (decompressWith var w chunk input fuel).outcome = Outcome.returned ret ∧
    post = var.cleanup ∧
    sinkBytes (decompressWith var w chunk input fuel).trace = (stepOutputs pre).flatten := by
  obtain ⟨h1, h2, h3⟩ := failing_step var w chunk input fuel pre ni ret out post
    (by rcases hs with h | h <;> simp [h]) h
  refine ⟨?_, h2, h3⟩
  rw [h1]
  rcases hs with h | h <;> simp [h]

theorem step_error_returns_at_once_witness :
    (Z_MEM_ERROR = Z_DATA_ERROR ∨ Z_MEM_ERROR = Z_MEM_ERROR) ∧
    (decompressWith Variant.common_zlib (scripted [(Z_OK, [7, 8]), (Z_MEM_ERROR, [9])]) 2
        [1, 2, 3] 5).trace =
      [Event.inflateInit2 31 Z_OK, Event.fmemopen [1, 2, 3], Event.errno 0, Event.fdopen,
        Event.errno 0, Event.fread [1, 2] false, Event.inflate [1, 2] Z_OK [7, 8],
        Event.fwrite [7, 8] 2 false] ++
        Event.inflate [] Z_MEM_ERROR [9] ::
          [Event.inflateEnd, Event.fcloseSource, Event.fcloseDest] ∧
    ((decompressWith Variant.common_zlib (scripted [(Z_OK, [7, 8]), (Z_MEM_ERROR, [9])]) 2
        [1, 2, 3] 5).outcome = Outcome.returned Z_MEM_ERROR ∧
    [Event.inflateEnd, Event.fcloseSource, Event.fcloseDest] = Variant.common_zlib.cleanup ∧
    sinkBytes (decompressWith Variant.common_zlib
        (scripted [(Z_OK, [7, 8]), (Z_MEM_ERROR, [9])]) 2 [1, 2, 3] 5).trace =
      (stepOutputs
        [Event.inflateInit2 31 Z_OK, Event.fmemopen [1, 2, 3], Event.errno 0, Event.fdopen,
          Event.errno 0, Event.fread [1, 2] false, Event.inflate [1, 2] Z_OK [7, 8],
          Event.fwrite [7, 8] 2 false]).flatten) :=
  ⟨by decide, by decide,
    step_error_returns_at_once Variant.common_zlib
      (scripted [(Z_OK, [7, 8]), (Z_MEM_ERROR, [9])]) 2 [1, 2, 3] 5
      [Event.inflateInit2 31 Z_OK, Event.fmemopen [1, 2, 3], Event.errno 0, Event.fdopen,
        Event.errno 0, Event.fread [1, 2] false, Event.inflate [1, 2] Z_OK [7, 8],
        Event.fwrite [7, 8] 2 false]
      [] Z_MEM_ERROR [9] [Event.inflateEnd, Event.fcloseSource, Event.fcloseDest]
      (by decide) (by decide)⟩

/-- C6. A write that reports fewer (or other) items than the step produced, or
after which the destination reports an error, makes `decompress` return
`Z_ERRNO`: the write comes right after the step whose output it was handed,
the calls after it are those of `cleanup` and nothing else (no step, no
write), and the destination holds what it held before, then the items this
write reports as written. -/
theorem write_failure_returns_errno {σ τ : Type} (var : Variant) (w : World σ τ)
    (chunk : Nat) (input : List Byte) (fuel : Nat) (pre : List Event) (data : List Byte)
    (n : Nat) (err : Bool) (post : List Event)
    (hw : n ≠ data.length ∨ err = true)
    (h : (decompressWith var w chunk input fuel).trace =
      pre ++ Event.fwrite data n err :: post) :
    (decompressWith var w chunk input fuel).outcome = Outcome.returned Z_ERRNO ∧
    post = var.cleanup ∧
    (∃ pre1 ni ret, pre = pre1 ++ [Event.inflate ni ret data]) ∧
    sinkBytes (decompressWith var w chunk input fuel).trace =
      sinkBytes pre ++ data.take n := by
  obtain ⟨t, pre1, hl, ht, hp, hsplit⟩ :=
    decompress_split var w chunk input fuel (e := Event.fwrite data n err) rfl h
  have hq := var.cleanup_quiet
  obtain ⟨pre2, ni, ret, hpre, hrun⟩ := hl.from_fwrite hq _ _ _ _ _ hsplit
  have hpost : (decompressWith var w chunk input fuel).outcome = Outcome.returned Z_ERRNO ∧
      post = var.cleanup := by
    rcases hrun.step_cases with ⟨-, ⟨-, -, -, h1⟩ | ⟨-, -, h1⟩ | ⟨-, -, h1⟩ |
      ⟨hc, n1, err1, rest, h1, h2⟩⟩
    · cases h1
    · exact (@Quiet.no_fwrite _ hq [] _ _ _ _ h1.symm).elim
    · exact (@Quiet.no_fwrite _ hq [] _ _ _ _ h1.symm).elim
    · simp only [List.cons.injEq, Event.fwrite.injEq, true_and] at h1
      obtain ⟨⟨rfl, rfl⟩, rfl⟩ := h1
      rcases h2 with ⟨-, h3, h4⟩ | ⟨h3, h4, -⟩ | ⟨h3, h4, -⟩ | ⟨h3, h4, -⟩
      · exact ⟨h3, h4⟩
      · rcases hw with hw | hw
        · exact (hw h3).elim
        · rw [h4] at hw; cases hw
      · rcases hw with hw | hw
        · exact (hw h3).elim
        · rw [h4] at hw; cases hw
      · rcases hw with hw | hw
        · exact (hw h3).elim
        · rw [h4] at hw; cases hw
  refine ⟨hpost.1, hpost.2, ⟨var.prelude w input ++ pre2, ni, ret, ?_⟩, ?_⟩
  · rw [hp, hpre, List.append_assoc]
  · rw [h, hpost.2, sinkBytes_append]
    simp [sinkBytes, hq.sink_nil]

theorem write_failure_returns_errno_witness :
    (1 ≠ [7, 8].length ∨ false = true) ∧
    (decompressWith Variant.zlib_decompress
        { scripted [(Z_OK, [7, 8])] with fwrite := fun k _ => (1, k + 1) } CHUNK
        [1, 2, 3] 5).trace =
      [Event.inflateInit Z_OK, Event.fmemopen [1, 2, 3], Event.fread [1, 2, 3] false,
        Event.inflate [1, 2, 3] Z_OK [7, 8]] ++
        Event.fwrite [7, 8] 1 false :: [Event.inflateEnd, Event.fcloseSource] ∧
    ((decompressWith Variant.zlib_decompress
        { scripted [(Z_OK, [7, 8])] with fwrite := fun k _ => (1, k + 1) } CHUNK
        [1, 2, 3] 5).outcome = Outcome.returned Z_ERRNO ∧
    [Event.inflateEnd, Event.fcloseSource] = Variant.zlib_decompress.cleanup ∧
    (∃ pre1 ni ret,
      [Event.inflateInit Z_OK, Event.fmemopen [1, 2, 3], Event.fread [1, 2, 3] false,
        Event.inflate [1, 2, 3] Z_OK [7, 8]] = pre1 ++ [Event.inflate ni ret [7, 8]]) ∧
    sinkBytes (decompressWith Variant.zlib_decompress
        { scripted [(Z_OK, [7, 8])] with fwrite := fun k _ => (1, k + 1) } CHUNK
        [1, 2, 3] 5).trace =
      sinkBytes
        [Event.inflateInit Z_OK, Event.fmemopen [1, 2, 3], Event.fread [1, 2, 3] false,
          Event.inflate [1, 2, 3] Z_OK [7, 8]] ++ [7, 8].take 1) :=
  ⟨by decide, by decide,
    write_failure_returns_errno Variant.zlib_decompress
      { scripted [(Z_OK, [7, 8])] with fwrite := fun k _ => (1, k + 1) } CHUNK
      [1, 2, 3] 5
      [Event.inflateInit Z_OK, Event.fmemopen [1, 2, 3], Event.fread [1, 2, 3] false,
        Event.inflate [1, 2, 3] Z_OK [7, 8]]
      [7, 8] 1 false [Event.inflateEnd, Event.fcloseSource] (by decide) (by decide)⟩

/-- C9. When engine initialisation returns `Z_OK`, `Z_MEM_ERROR` or
`Z_VERSION_ERROR`, the value `decompress` returns is one of `Z_OK`,
`Z_DATA_ERROR`, `Z_MEM_ERROR`, `Z_VERSION_ERROR` and `Z_ERRNO`; when
initialisation returns `Z_OK` it is one of `Z_OK`, `Z_DATA_ERROR`,
`Z_MEM_ERROR` and `Z_ERRNO`; it is never one of the step statuses
`Z_STREAM_END`, `Z_NEED_DICT`, `Z_BUF_ERROR` and `Z_STREAM_ERROR`. -/
theorem returned_codes_closed {σ τ : Type} (var : Variant) (w : World σ τ) (chunk : Nat)
    (input : List Byte) (fuel : Nat) (x : Int)
    (hinit : (var.init w).1 = Z_OK ∨ (var.init w).1 = Z_MEM_ERROR ∨
      (var.init w).1 = Z_VERSION_ERROR)
    (hret : (decompressWith var w chunk input fuel).outcome = Outcome.returned x) :
    (x = Z_OK ∨ x = Z_DATA_ERROR ∨ x = Z_MEM_ERROR ∨ x = Z_VERSION_ERROR ∨ x = Z_ERRNO) ∧
    ((var.init w).1 = Z_OK →
      x = Z_OK ∨ x = Z_DATA_ERROR ∨ x = Z_MEM_ERROR ∨ x = Z_ERRNO) ∧
    x ≠ Z_STREAM_END ∧ x ≠ Z_NEED_DICT ∧ x ≠ Z_BUF_ERROR ∧ x ≠ Z_STREAM_ERROR := by
  have key : (x = (var.init w).1 ∧ (var.init w).1 ≠ Z_OK) ∨
      x = Z_OK ∨ x = Z_DATA_ERROR ∨ x = Z_MEM_ERROR ∨ x = Z_ERRNO := by
    rcases decompress_shape var w chunk input fuel with
      ⟨h0, hr⟩ | ⟨hv, h0, h1, hr⟩ | ⟨hv, h0, h1, h2, hr⟩ | ⟨h0, -, o, t, hl, hr⟩
    · rw [hr] at hret; cases hret; exact Or.inl ⟨rfl, h0⟩
    · rw [hr] at hret; cases hret; simp
    · rw [hr] at hret; cases hret; simp
    · rw [hr] at hret
      exact Or.inr (hl.returned_code x hret)
  rcases key with ⟨h1, h2⟩ | h | h | h | h
  · rcases hinit with h | h | h
    · exact (h2 h).elim
    · rw [h1, h]
      exact ⟨by simp, fun h3 => absurd h3 (by decide), by decide, by decide, by decide,
        by decide⟩
    · rw [h1, h]
      exact ⟨by simp, fun h3 => absurd h3 (by decide), by decide, by decide, by decide,
        by decide⟩
  all_goals subst h; simp

theorem returned_codes_closed_witness :
    ((Variant.common_zlib.init (scripted [(Z_STREAM_END, [7])])).1 = Z_OK ∨
      (Variant.common_zlib.init (scripted [(Z_STREAM_END, [7])])).1 = Z_MEM_ERROR ∨
      (Variant.common_zlib.init (scripted [(Z_STREAM_END, [7])])).1 = Z_VERSION_ERROR) ∧
    (decompressWith Variant.common_zlib (scripted [(Z_STREAM_END, [7])]) CHUNK
      [1, 2, 3] 5).outcome = Outcome.returned Z_OK ∧
    ((Z_OK = Z_OK ∨ Z_OK = Z_DATA_ERROR ∨ Z_OK = Z_MEM_ERROR ∨ Z_OK = Z_VERSION_ERROR ∨
      Z_OK = Z_ERRNO) ∧
    ((Variant.common_zlib.init (scripted [(Z_STREAM_END, [7])])).1 = Z_OK →
      Z_OK = Z_OK ∨ Z_OK = Z_DATA_ERROR ∨ Z_OK = Z_MEM_ERROR ∨ Z_OK = Z_ERRNO) ∧
    Z_OK ≠ Z_STREAM_END ∧ Z_OK ≠ Z_NEED_DICT ∧ Z_OK ≠ Z_BUF_ERROR ∧
      Z_OK ≠ Z_STREAM_ERROR) :=
  ⟨by decide, by decide,
    returned_codes_closed Variant.common_zlib (scripted [(Z_STREAM_END, [7])]) CHUNK
      [1, 2, 3] 5 Z_OK (by decide) (by decide)⟩

/-- C8. Full drain, for every buffer size `chunk` (4096 in the source). In every
run: a step stores at most `chunk` bytes; when the step neither aborts nor
returns, the next call is the write of exactly its output, and when that write
succeeds and the step had filled the buffer, the call after it is another
`inflate` (no read in between) unless the bound on loop bodies ends the run
there; a read that is not the first call of the loops comes right after the
successful write of a step that stored fewer than `chunk` bytes; and when the
run returns and no call failed, the destination holds the outputs of all the
steps, in order. -/
theorem full_drain {σ τ : Type} (var : Variant) (w : World σ τ) (chunk : Nat)
    (input : List Byte) (fuel : Nat) :
    (∀ pre ni ret out post,
      (decompressWith var w chunk input fuel).trace =
        pre ++ Event.inflate ni ret out :: post →
      out.length ≤ chunk ∧
      (Continues w.ndebug ret →
        ∃ n err rest, post = Event.fwrite out n err :: rest ∧
          (n = out.length → err = false → out.length = chunk →
            (rest = [] ∧
              (decompressWith var w chunk input fuel).outcome = Outcome.unfinished) ∨
            ∃ ni1 ret1 out1 rest1, rest = Event.inflate ni1 ret1 out1 :: rest1))) ∧
    (∀ pre data err post,
      (decompressWith var w chunk input fuel).trace =
        pre ++ Event.fread data err :: post →
      pre = var.prelude w input ∨
      ∃ pre1 ni ret out,
        pre = pre1 ++ [Event.inflate ni ret out, Event.fwrite out out.length false] ∧
        out.length < chunk) ∧
    (∀ x, (decompressWith var w chunk input fuel).outcome = Outcome.returned x →
      ErrorFree (decompressWith var w chunk input fuel).trace →
      sinkBytes (decompressWith var w chunk input fuel).trace =
        (stepOutputs (decompressWith var w chunk input fuel).trace).flatten) := by
  have hq := var.cleanup_quiet
  refine ⟨?_, ?_, ?_⟩
  · intro pre ni ret out post h
    obtain ⟨t, pre1, hl, ht, hp, hsplit⟩ :=
      decompress_split var w chunk input fuel (e := Event.inflate ni ret out) rfl h
    rcases (hl.from_inflate hq _ _ _ _ _ hsplit).step_cases with
      ⟨hle, ⟨h1, h2, -, -⟩ | ⟨h1, -, -⟩ | ⟨h1, -, -⟩ | ⟨-, n, err, rest, h1, h2⟩⟩
    · exact ⟨hle, fun hc => (hc.1 ⟨h1, h2⟩).elim⟩
    · exact ⟨hle, fun hc => (hc.2.1 h1).elim⟩
    · exact ⟨hle, fun hc => (continues_not_error hc (Or.inr h1)).elim⟩
    · refine ⟨hle, fun _ => ⟨n, err, rest, h1, fun hn herr hfull => ?_⟩⟩
      rcases h2 with ⟨h3, -, -⟩ | ⟨-, -, -, h3⟩ | ⟨-, -, h3, -⟩ | ⟨-, -, h3, -⟩
      · rcases h3 with h3 | h3
        · exact (h3 hn).elim
        · rw [herr] at h3; cases h3
      · rcases h3.drain_head with h4 | h4
        · exact Or.inl h4
        · exact Or.inr h4
      · omega
      · omega
  · intro pre data err post h
    obtain ⟨t, pre1, hl, ht, hp, hsplit⟩ :=
      decompress_split var w chunk input fuel (e := Event.fread data err) rfl h
    rcases hl.before_fread hq _ _ _ _ hsplit with ⟨h1, -⟩ | ⟨pre2, ni, ret, out, h1, h2, -⟩
    · left
      rw [hp, h1, List.append_nil]
    · right
      exact ⟨var.prelude w input ++ pre2, ni, ret, out,
        by rw [hp, h1, List.append_assoc], h2⟩
  · intro x hret he
    rcases decompress_shape var w chunk input fuel with
      ⟨h0, hr⟩ | ⟨hv, h0, h1, hr⟩ | ⟨hv, h0, h1, h2, hr⟩ | ⟨h0, -, o, t, hl, hr⟩
    · rw [hr]; cases var <;> simp [Variant.initCall, sinkBytes, stepOutputs]
    · rw [hr]; cases var <;> simp [Variant.initCall, sinkBytes, stepOutputs]
    · rw [hr]; cases var <;> simp [Variant.initCall, Variant.prelude, sinkBytes, stepOutputs]
    · rw [hr] at hret he ⊢
      simp only at hret he ⊢
      have ho : o ≠ Outcome.aborted := by rw [hret]; simp
      rw [sinkBytes_append, stepOutputs_append, var.prelude_sink, var.prelude_outputs]
      exact hl.sink_eq hq ho he.of_append_right

theorem full_drain_witness :
    decompressWith Variant.common_zlib
        (scripted [(Z_OK, [7, 8]), (Z_OK, [9]), (Z_STREAM_END, [10])]) 2 [1, 2, 3] 6 =
      ⟨Outcome.returned Z_OK,
        [Event.inflateInit2 31 Z_OK, Event.fmemopen [1, 2, 3], Event.errno 0, Event.fdopen,
          Event.errno 0, Event.fread [1, 2] false, Event.inflate [1, 2] Z_OK [7, 8],
          Event.fwrite [7, 8] 2 false, Event.inflate [] Z_OK [9], Event.fwrite [9] 1 false,
          Event.fread [3] false, Event.inflate [3] Z_STREAM_END [10],
          Event.fwrite [10] 1 false, Event.inflateEnd, Event.fcloseSource,
          Event.fcloseDest]⟩ ∧
    sinkBytes (decompressWith Variant.common_zlib
        (scripted [(Z_OK, [7, 8]), (Z_OK, [9]), (Z_STREAM_END, [10])]) 2 [1, 2, 3] 6).trace =
      (stepOutputs (decompressWith Variant.common_zlib
        (scripted [(Z_OK, [7, 8]), (Z_OK, [9]), (Z_STREAM_END, [10])]) 2
        [1, 2, 3] 6).trace).flatten :=
  ⟨by decide,
    (full_drain Variant.common_zlib
      (scripted [(Z_OK, [7, 8]), (Z_OK, [9]), (Z_STREAM_END, [10])]) 2 [1, 2, 3] 6).2.2
      Z_OK (by decide) (by decide)⟩

/-- C10, counterexample. With assertions compiled out, on an input of 4097
bytes, when the first step reports `Z_STREAM_ERROR` and the second one
`Z_STREAM_END`, `decompress` of common_zlib.h writes the output of both steps
and returns `Z_OK`. -/
theorem stream_error_run_returns_ok :
    (decompress Variant.common_zlib
        { scripted [(Z_STREAM_ERROR, [7]), (Z_STREAM_END, [8])] with ndebug := true }
        (List.replicate 4097 0) 4).outcome = Outcome.returned Z_OK ∧
    stepStatuses (decompress Variant.common_zlib
        { scripted [(Z_STREAM_ERROR, [7]), (Z_STREAM_END, [8])] with ndebug := true }
        (List.replicate 4097 0) 4).trace = [Z_STREAM_ERROR, Z_STREAM_END] ∧
    sinkBytes (decompress Variant.common_zlib
        { scripted [(Z_STREAM_ERROR, [7]), (Z_STREAM_END, [8])] with ndebug := true }
        (List.replicate 4097 0) 4).trace = [7, 8] := by
  have h1 : ((List.replicate 4097 (0 : Byte)).take CHUNK).length ≠ 0 := by
    simp only [CHUNK, List.take_replicate, List.length_replicate]
    decide
  have h2 : (((List.replicate 4097 (0 : Byte)).drop CHUNK).take CHUNK).length ≠ 0 := by
    simp only [CHUNK, List.take_replicate, List.drop_replicate, List.length_replicate]
    decide
  rw [stream_error_then_end _ h1 h2]
  simp [stepStatuses, sinkBytes]

/-- C10, as the code has it. With assertions compiled out, a step that reports
`Z_STREAM_ERROR` does not end the run: the next call is the write of that
step's output. A run with such a step returns `Z_OK` only when a later step,
the last one, reports `Z_STREAM_END`; and when no step follows and the run
returns without a failed call, it returns `Z_DATA_ERROR`. -/
theorem stream_error_step_continues {σ τ : Type} (var : Variant) (w : World σ τ)
    (chunk : Nat) (input : List Byte) (fuel : Nat) (pre : List Event) (ni out : List Byte)
    (post : List Event) (hnd : w.ndebug = true)
    (h : (decompressWith var w chunk input fuel).trace =
      pre ++ Event.inflate ni Z_STREAM_ERROR out :: post) :
    (∃ n err rest, post = Event.fwrite out n err :: rest) ∧
    ((decompressWith var w chunk input fuel).outcome = Outcome.returned Z_OK →
      (stepStatuses post).getLast? = some Z_STREAM_END) ∧
    (∀ x, (decompressWith var w chunk input fuel).outcome = Outcome.returned x →
      stepStatuses post = [] →
      ErrorFree (decompressWith var w chunk input fuel).trace → x = Z_DATA_ERROR) := by
  have hq := var.cleanup_quiet
  obtain ⟨t, pre1, hl, ht, hp, hsplit⟩ :=
    decompress_split var w chunk input fuel (e := Event.inflate ni Z_STREAM_ERROR out) rfl h
  have hlast : ∀ x, (decompressWith var w chunk input fuel).outcome = Outcome.returned x →
      (x = Z_OK → (stepStatuses post).getLast? = some Z_STREAM_END) ∧
      (stepStatuses post = [] →
        ErrorFree (decompressWith var w chunk input fuel).trace → x = Z_DATA_ERROR) := by
    intro x hx
    obtain ⟨h1, h2⟩ := hl.last_status hq Z_OK x (by simp) hx
    have hst : stepStatuses t =
        stepStatuses pre1 ++ Z_STREAM_ERROR :: stepStatuses post := by
      rw [hsplit, stepStatuses_append]; rfl
    constructor
    · intro hok
      have h3 := (getLastD_ok _).mp (h1 hok)
      rw [hst, List.getLast?_append_cons] at h3
      rcases hpost : stepStatuses post with _ | ⟨a, l⟩
      · rw [hpost] at h3; simp at h3
      · rw [hpost] at h3; simpa using h3
    · intro hnil he
      apply h2 (by rw [ht] at he; exact he.of_append_right)
      intro h3
      have h4 := (getLastD_ok _).mp h3
      rw [hst, hnil, List.getLast?_append_cons] at h4
      simp at h4
  refine ⟨?_, fun hx => (hlast _ hx).1 rfl, fun x hx => (hlast x hx).2⟩
  rcases (hl.from_inflate hq _ _ _ _ _ hsplit).step_cases with
    ⟨-, ⟨h1, -, -, -⟩ | ⟨h1, -, -⟩ | ⟨h1, -, -⟩ | ⟨-, n, err, rest, h1, -⟩⟩
  · rw [hnd] at h1; cases h1
  · simp at h1
  · simp at h1
  · exact ⟨n, err, rest, h1⟩

theorem stream_error_step_continues_witness :
    ({ scripted [(Z_STREAM_ERROR, [7]), (Z_STREAM_END, [8])] with
        ndebug := true } : World Nat Nat).ndebug = true ∧
    (decompressWith Variant.zlib_decompress
        { scripted [(Z_STREAM_ERROR, [7]), (Z_STREAM_END, [8])] with ndebug := true }
        2 [1, 2, 3] 4).trace =
      [Event.inflateInit Z_OK, Event.fmemopen [1, 2, 3], Event.fread [1, 2] false] ++
        Event.inflate [1, 2] Z_STREAM_ERROR [7] ::
          [Event.fwrite [7] 1 false, Event.fread [3] false,
            Event.inflate [3] Z_STREAM_END [8], Event.fwrite [8] 1 false,
            Event.inflateEnd, Event.fcloseSource] ∧
    ((∃ n err rest,
        [Event.fwrite [7] 1 false, Event.fread [3] false,
          Event.inflate [3] Z_STREAM_END [8], Event.fwrite [8] 1 false,
          Event.inflateEnd, Event.fcloseSource] = Event.fwrite [7] n err :: rest) ∧
    ((decompressWith Variant.zlib_decompress
        { scripted [(Z_STREAM_ERROR, [7]), (Z_STREAM_END, [8])] with ndebug := true }
        2 [1, 2, 3] 4).outcome = Outcome.returned Z_OK →
      (stepStatuses
        [Event.fwrite [7] 1 false, Event.fread [3] false,
          Event.inflate [3] Z_STREAM_END [8], Event.fwrite [8] 1 false,
          Event.inflateEnd, Event.fcloseSource]).getLast? = some Z_STREAM_END) ∧
    (∀ x, (decompressWith Variant.zlib_decompress
        { scripted [(Z_STREAM_ERROR, [7]), (Z_STREAM_END, [8])] with ndebug := true }
        2 [1, 2, 3] 4).outcome = Outcome.returned x →
      stepStatuses
        [Event.fwrite [7] 1 false, Event.fread [3] false,
          Event.inflate [3] Z_STREAM_END [8], Event.fwrite [8] 1 false,
          Event.inflateEnd, Event.fcloseSource] = [] →
      ErrorFree (decompressWith Variant.zlib_decompress
        { scripted [(Z_STREAM_ERROR, [7]), (Z_STREAM_END, [8])] with ndebug := true }
        2 [1, 2, 3] 4).trace → x = Z_DATA_ERROR)) :=
  ⟨by decide, by decide,
    stream_error_step_continues Variant.zlib_decompress
      { scripted [(Z_STREAM_ERROR, [7]), (Z_STREAM_END, [8])] with ndebug := true }
      2 [1, 2, 3] 4
      [Event.inflateInit Z_OK, Event.fmemopen [1, 2, 3], Event.fread [1, 2] false]
      [1, 2] [7]
      [Event.fwrite [7] 1 false, Event.fread [3] false,
        Event.inflate [3] Z_STREAM_END [8], Event.fwrite [8] 1 false,
        Event.inflateEnd, Event.fcloseSource]
      (by decide) (by decide)⟩

/-! ## The two files against each other -/

theorem closingDest_append (a b : List Event) :
    closingDest (a ++ b) = closingDest a ++ closingDest b := by
  induction a with
  | nil => rfl
  | cons e a ih => cases e <;> simp [closingDest, ih]

/-- The loops of common_zlib.h make the calls of the loops of zlib_decompress.h,
with `fclose(dest)` after `fclose(source)`, and end in the same way. -/
theorem CommonZlib.loops_closing_dest {σ τ : Type} (w : World σ τ) (chunk fuel : Nat) :
    (∀ v, CommonZlib.fill w chunk fuel v =
      (ZlibDecompress.fill w chunk fuel v).closingDest) ∧
    (∀ v ni, CommonZlib.drain w chunk fuel v ni =
      (ZlibDecompress.drain w chunk fuel v ni).closingDest) := by
  induction fuel with
  | zero => exact ⟨fun v => rfl, fun v ni => rfl⟩
  | succ n ih =>
    obtain ⟨ihf, ihd⟩ := ih
    constructor
    · intro v
      simp only [CommonZlib.fill, ZlibDecompress.fill, ihd]
      split_ifs <;>
        simp [Run.closingDest, Run.after, Zpipe.closingDest, CommonZlib.cleanup,
          ZlibDecompress.cleanup]
    · intro v ni
      simp only [CommonZlib.drain, ZlibDecompress.drain, ihd, ihf]
      split_ifs <;>
        simp [Run.closingDest, Run.after, Zpipe.closingDest, CommonZlib.cleanup,
          ZlibDecompress.cleanup]

theorem sinkBytes_closingDest (t : List Event) : sinkBytes (closingDest t) = sinkBytes t := by
  induction t with
  | nil => rfl
  | cons e t ih => cases e <;> simp [closingDest, sinkBytes, ih]

theorem filter_shared_closingDest (t : List Event) :
    (closingDest t).filter Event.shared = t.filter Event.shared := by
  induction t with
  | nil => rfl
  | cons e t ih => cases e <;> simp [closingDest, Event.shared, ih]

/-- C15. On the same input, with the same engine results (those of
initialisation included) and the same destination, and with `errno` zero at
the two checks of common_zlib.h, `decompress` of common_zlib.h and `decompress`
of zlib_decompress.h end in the same way (same returned value), leave the same
bytes in the destination and make the same shared calls in the same order.
Their traces differ in this only: the initialisation call is `inflateInit2`
with `16 + MAX_WBITS` in place of `inflateInit`, common_zlib.h opens the
destination with `fdopen` and reads `errno` twice, and it calls `fclose(dest)`
after each `fclose(source)`. -/
theorem variants_agree {σ τ : Type} (w : World σ τ) (chunk : Nat) (input : List Byte)
    (fuel : Nat) (hinit : w.inflateInit2 (16 + MAX_WBITS) = w.inflateInit)
    (h1 : w.errno_fmemopen = 0) (h2 : w.errno_fdopen = 0) :
    (decompressWith Variant.common_zlib w chunk input fuel).outcome =
      (decompressWith Variant.zlib_decompress w chunk input fuel).outcome ∧
    sinkBytes (decompressWith Variant.common_zlib w chunk input fuel).trace =
      sinkBytes (decompressWith Variant.zlib_decompress w chunk input fuel).trace ∧
    (decompressWith Variant.common_zlib w chunk input fuel).trace.filter Event.shared =
      (decompressWith Variant.zlib_decompress w chunk input fuel).trace.filter Event.shared ∧
    (if w.inflateInit.1 = Z_OK then
      ∃ t, (decompressWith Variant.zlib_decompress w chunk input fuel).trace =
          [Event.inflateInit Z_OK, Event.fmemopen input] ++ t ∧
        (decompressWith Variant.common_zlib w chunk input fuel).trace =
          [Event.inflateInit2 (16 + MAX_WBITS) Z_OK, Event.fmemopen input, Event.errno 0,
            Event.fdopen, Event.errno 0] ++ closingDest t
    else
      (decompressWith Variant.zlib_decompress w chunk input fuel).trace =
          [Event.inflateInit w.inflateInit.1] ∧
        (decompressWith Variant.common_zlib w chunk input fuel).trace =
          [Event.inflateInit2 (16 + MAX_WBITS) w.inflateInit.1]) := by
  by_cases h0 : w.inflateInit.1 = Z_OK
  · have hc : decompressWith Variant.common_zlib w chunk input fuel =
        ⟨(ZlibDecompress.fill w chunk fuel ⟨Z_OK, w.inflateInit.2, input, 0, w.dest⟩).outcome,
          [Event.inflateInit2 (16 + MAX_WBITS) Z_OK, Event.fmemopen input, Event.errno 0,
            Event.fdopen, Event.errno 0] ++
          closingDest
            (ZlibDecompress.fill w chunk fuel ⟨Z_OK, w.inflateInit.2, input, 0, w.dest⟩).trace⟩ := by
      simp only [decompressWith, CommonZlib.decompressWith, hinit, h0, h1, h2,
        (CommonZlib.loops_closing_dest w chunk fuel).1]
      simp [Run.after, Run.closingDest]
    have hz : decompressWith Variant.zlib_decompress w chunk input fuel =
        ⟨(ZlibDecompress.fill w chunk fuel ⟨Z_OK, w.inflateInit.2, input, 0, w.dest⟩).outcome,
          [Event.inflateInit Z_OK, Event.fmemopen input] ++
            (ZlibDecompress.fill w chunk fuel
              ⟨Z_OK, w.inflateInit.2, input, 0, w.dest⟩).trace⟩ := by
      simp only [decompressWith, ZlibDecompress.decompressWith, h0]
      simp [Run.after]
    rw [if_pos h0, hc, hz]
    refine ⟨rfl, ?_, ?_, _, rfl, rfl⟩
    · simp [sinkBytes, sinkBytes_append, sinkBytes_closingDest]
    · simp [Event.shared, List.filter_append, filter_shared_closingDest]
  · have h0' : ¬ w.inflateInit.1 = 0 := by simpa using h0
    have hc : decompressWith Variant.common_zlib w chunk input fuel =
        ⟨Outcome.returned w.inflateInit.1,
          [Event.inflateInit2 (16 + MAX_WBITS) w.inflateInit.1]⟩ := by
      simp only [decompressWith, CommonZlib.decompressWith, hinit]
      simp [Run.after, h0']
    have hz : decompressWith Variant.zlib_decompress w chunk input fuel =
        ⟨Outcome.returned w.inflateInit.1, [Event.inflateInit w.inflateInit.1]⟩ := by
      simp only [decompressWith, ZlibDecompress.decompressWith]
      simp [Run.after, h0']
    rw [if_neg h0, hc, hz]
    simp [sinkBytes, Event.shared]

theorem variants_agree_witness :
    (scripted [(Z_OK, [7, 8]), (Z_STREAM_END, [9])]).inflateInit2 (16 + MAX_WBITS) =
      (scripted [(Z_OK, [7, 8]), (Z_STREAM_END, [9])]).inflateInit ∧
    (scripted [(Z_OK, [7, 8]), (Z_STREAM_END, [9])]).errno_fmemopen = 0 ∧
    (scripted [(Z_OK, [7, 8]), (Z_STREAM_END, [9])]).errno_fdopen = 0 ∧
    (decompressWith Variant.common_zlib (scripted [(Z_OK, [7, 8]), (Z_STREAM_END, [9])]) 2
        [1, 2, 3] 5).outcome = Outcome.returned Z_OK ∧
    (decompressWith Variant.common_zlib (scripted [(Z_OK, [7, 8]), (Z_STREAM_END, [9])]) 2
        [1, 2, 3] 5).outcome =
      (decompressWith Variant.zlib_decompress (scripted [(Z_OK, [7, 8]), (Z_STREAM_END, [9])])
        2 [1, 2, 3] 5).outcome ∧
    sinkBytes (decompressWith Variant.common_zlib
        (scripted [(Z_OK, [7, 8]), (Z_STREAM_END, [9])]) 2 [1, 2, 3] 5).trace =
      sinkBytes (decompressWith Variant.zlib_decompress
        (scripted [(Z_OK, [7, 8]), (Z_STREAM_END, [9])]) 2 [1, 2, 3] 5).trace :=
  ⟨by decide, by decide, by decide, by decide,
    (variants_agree (scripted [(Z_OK, [7, 8]), (Z_STREAM_END, [9])]) 2 [1, 2, 3] 5
      (by decide) (by decide) (by decide)).1,
    (variants_agree (scripted [(Z_OK, [7, 8]), (Z_STREAM_END, [9])]) 2 [1, 2, 3] 5
      (by decide) (by decide) (by decide)).2.1⟩

/-- In a whole run, what follows the successful write of a step that reports
`Z_STREAM_END` and leaves room in the output buffer is the calls of `cleanup`,
and the run returns `Z_OK`. -/
theorem stream_end_stops {σ τ : Type} (var : Variant) (w : World σ τ)
    (chunk : Nat) (input : List Byte) (fuel : Nat) (pre : List Event) (ni out : List Byte)
    (n : Nat) (err : Bool) (post : List Event)
    (hroom : out.length < chunk) (hn : n = out.length) (herr : err = false)
    (h : (decompressWith var w chunk input fuel).trace =
      pre ++ Event.inflate ni Z_STREAM_END out :: Event.fwrite out n err :: post) :
    (decompressWith var w chunk input fuel).outcome = Outcome.returned Z_OK ∧
    post = var.cleanup := by
  have hq := var.cleanup_quiet
  obtain ⟨t, pre1, hl, ht, hp, hsplit⟩ :=
    decompress_split var w chunk input fuel (e := Event.inflate ni Z_STREAM_END out) rfl h
  rcases (hl.from_inflate hq _ _ _ _ _ hsplit).step_cases with
    ⟨-, ⟨-, h1, -, -⟩ | ⟨h1, -, -⟩ | ⟨h1, -, -⟩ | ⟨-, n1, err1, rest, h1, h2⟩⟩
  · simp at h1
  · simp at h1
  · simp at h1
  · simp only [List.cons.injEq, Event.fwrite.injEq, true_and] at h1
    obtain ⟨⟨rfl, rfl⟩, rfl⟩ := h1
    rcases h2 with ⟨h3, -, -⟩ | ⟨-, -, h3, -⟩ | ⟨-, -, -, h3, -⟩ | ⟨-, -, -, -, h3, h4⟩
    · rcases h3 with h3 | h3
      · exact (h3 hn).elim
      · rw [herr] at h3; cases h3
    · omega
    · exact (h3 rfl).elim
    · exact ⟨h3, h4⟩

/-- C16. Trailing input is ignored. When a step reports `Z_STREAM_END`
and leaves room in the output buffer, and the write of its output succeeds,
the calls after that write are those of `cleanup` and nothing else (no read,
no step) and `decompress` returns `Z_OK`, whatever the input still holds. -/
theorem trailing_input_ignored {σ τ : Type} (var : Variant) (w : World σ τ)
    (chunk : Nat) (input : List Byte) (fuel : Nat) (pre : List Event) (ni out : List Byte)
    (n : Nat) (err : Bool) (post : List Event)
    (hroom : out.length < chunk) (hn : n = out.length) (herr : err = false)
    (h : (decompressWith var w chunk input fuel).trace =
      pre ++ Event.inflate ni Z_STREAM_END out :: Event.fwrite out n err :: post) :
    (decompressWith var w chunk input fuel).outcome = Outcome.returned Z_OK ∧
    post = var.cleanup :=
  stream_end_stops var w chunk input fuel pre ni out n err post hroom hn herr h

theorem trailing_input_ignored_witness :
    [7].length < 2 ∧ 1 = [7].length ∧ false = false ∧
    (decompressWith Variant.common_zlib (scripted [(Z_STREAM_END, [7])]) 2
        [1, 2, 3, 4, 5] 5).trace =
      [Event.inflateInit2 31 Z_OK, Event.fmemopen [1, 2, 3, 4, 5], Event.errno 0,
        Event.fdopen, Event.errno 0, Event.fread [1, 2] false] ++
        Event.inflate [1, 2] Z_STREAM_END [7] :: Event.fwrite [7] 1 false ::
          [Event.inflateEnd, Event.fcloseSource, Event.fcloseDest] ∧
    ((decompressWith Variant.common_zlib (scripted [(Z_STREAM_END, [7])]) 2
        [1, 2, 3, 4, 5] 5).outcome = Outcome.returned Z_OK ∧
    [Event.inflateEnd, Event.fcloseSource, Event.fcloseDest] = Variant.common_zlib.cleanup) :=
  ⟨by decide, by decide, by decide, by decide,
    trailing_input_ignored Variant.common_zlib (scripted [(Z_STREAM_END, [7])]) 2
      [1, 2, 3, 4, 5] 5
      [Event.inflateInit2 31 Z_OK, Event.fmemopen [1, 2, 3, 4, 5], Event.errno 0,
        Event.fdopen, Event.errno 0, Event.fread [1, 2] false]
      [1, 2] [7] 1 false [Event.inflateEnd, Event.fcloseSource, Event.fcloseDest]
      (by decide) (by decide) (by decide) (by decide)⟩

/-- With a first step that reports `Z_STREAM_END` on a full output buffer and a
second one that reports `Z_BUF_ERROR` and stores nothing, on a one-byte input,
either file returns `Z_DATA_ERROR`, for every buffer size that is not zero. -/
theorem stream_end_then_buf_error (var : Variant) (c : Nat) :
    (decompressWith var
        (scripted [(Z_STREAM_END, List.replicate (c + 1) 7), (Z_BUF_ERROR, [])]) (c + 1)
        [1] 4).outcome = Outcome.returned Z_DATA_ERROR ∧
    stepStatuses (decompressWith var
        (scripted [(Z_STREAM_END, List.replicate (c + 1) 7), (Z_BUF_ERROR, [])]) (c + 1)
        [1] 4).trace = [Z_STREAM_END, Z_BUF_ERROR] := by
  cases var
  · simp [decompressWith, CommonZlib.decompressWith, CommonZlib.fill, CommonZlib.drain,
      scripted, Run.after, finalStatus, CommonZlib.cleanup, stepStatuses]
  · simp [decompressWith, ZlibDecompress.decompressWith, ZlibDecompress.fill,
      ZlibDecompress.drain, scripted, Run.after, finalStatus, ZlibDecompress.cleanup,
      stepStatuses]

/-- C17. The end of the stream on a full output buffer does not end the run.
When a step reports `Z_STREAM_END`, fills the output buffer, and its output is
written, the next call is another `inflate` (unless the bound on loop bodies
ends the run there), and what the run returns goes by the status of the last
step after it: `Z_OK` only when that status is `Z_STREAM_END`, and
`Z_DATA_ERROR` when no call fails and that status is another one. And for
either file there is a run of `decompress` in which a step reports
`Z_STREAM_END` and which returns `Z_DATA_ERROR`: the step fills the buffer,
the next one reports `Z_BUF_ERROR` with an empty output, and the input is
exhausted. -/
theorem stream_end_on_full_buffer {σ τ : Type} (var : Variant) (w : World σ τ)
    (chunk : Nat) (input : List Byte) (fuel : Nat) (pre : List Event) (ni out : List Byte)
    (post : List Event) (hfull : out.length = chunk)
    (h : (decompressWith var w chunk input fuel).trace =
      pre ++ Event.inflate ni Z_STREAM_END out ::
        Event.fwrite out out.length false :: post) :
    ((post = [] ∧ (decompressWith var w chunk input fuel).outcome = Outcome.unfinished) ∨
      ∃ ni1 ret1 out1 rest, post = Event.inflate ni1 ret1 out1 :: rest) ∧
    (∀ x, (decompressWith var w chunk input fuel).outcome = Outcome.returned x →
      (x = Z_OK → (stepStatuses post).getLast? = some Z_STREAM_END) ∧
      (ErrorFree (decompressWith var w chunk input fuel).trace →
        (stepStatuses post).getLast? ≠ some Z_STREAM_END → x = Z_DATA_ERROR)) ∧
    (∃ (w1 : World Nat Nat) (input1 : List Byte) (fuel1 : Nat),
      stepStatuses (decompress var w1 input1 fuel1).trace = [Z_STREAM_END, Z_BUF_ERROR] ∧
      (decompress var w1 input1 fuel1).outcome = Outcome.returned Z_DATA_ERROR) := by
  have hq := var.cleanup_quiet
  obtain ⟨t, pre1, hl, ht, hp, hsplit⟩ :=
    decompress_split var w chunk input fuel (e := Event.inflate ni Z_STREAM_END out) rfl h
  have hnext : (post = [] ∧
        (decompressWith var w chunk input fuel).outcome = Outcome.unfinished) ∨
      ∃ ni1 ret1 out1 rest, post = Event.inflate ni1 ret1 out1 :: rest := by
    rcases (hl.from_inflate hq _ _ _ _ _ hsplit).step_cases with
      ⟨-, ⟨-, h1, -, -⟩ | ⟨h1, -, -⟩ | ⟨h1, -, -⟩ | ⟨-, n1, err1, rest, h1, h2⟩⟩
    · simp at h1
    · simp at h1
    · simp at h1
    · simp only [List.cons.injEq, Event.fwrite.injEq, true_and] at h1
      obtain ⟨⟨rfl, rfl⟩, rfl⟩ := h1
      rcases h2 with ⟨h3, -, -⟩ | ⟨-, -, -, h3⟩ | ⟨-, -, h3, -⟩ | ⟨-, -, h3, -⟩
      · rcases h3 with h3 | h3
        · exact (h3 rfl).elim
        · cases h3
      · exact h3.drain_head
      · omega
      · omega
  refine ⟨hnext, ?_, ?_⟩
  · intro x hx
    have hpost : stepStatuses post ≠ [] := by
      rcases hnext with ⟨-, h1⟩ | ⟨ni1, ret1, out1, rest, h1⟩
      · rw [h1] at hx; cases hx
      · rw [h1]; simp [stepStatuses]
    have hst : (stepStatuses t).getLast? = (stepStatuses post).getLast? := by
      rw [hsplit, stepStatuses_append]
      simp only [stepStatuses]
      rw [List.getLast?_append_cons]
      rcases hs : stepStatuses post with _ | ⟨a, l⟩
      · exact (hpost hs).elim
      · simp
    obtain ⟨h1, h2⟩ := hl.last_status hq Z_OK x (by simp) hx
    constructor
    · intro hok
      rw [← hst]
      exact (getLastD_ok _).mp (h1 hok)
    · intro he hne
      apply h2 (by rw [ht] at he; exact he.of_append_right)
      intro h3
      exact hne (hst ▸ (getLastD_ok _).mp h3)
  · refine ⟨scripted [(Z_STREAM_END, List.replicate CHUNK 7), (Z_BUF_ERROR, [])], [1], 4, ?_⟩
    rw [decompress_eq]
    exact ⟨(stream_end_then_buf_error var 4095).2, (stream_end_then_buf_error var 4095).1⟩

theorem stream_end_on_full_buffer_witness :
    [7, 8].length = 2 ∧
    (decompressWith Variant.zlib_decompress
        (scripted [(Z_STREAM_END, [7, 8]), (Z_BUF_ERROR, [])]) 2 [1] 4).trace =
      [Event.inflateInit Z_OK, Event.fmemopen [1], Event.fread [1] false] ++
        Event.inflate [1] Z_STREAM_END [7, 8] :: Event.fwrite [7, 8] [7, 8].length false ::
          [Event.inflate [] Z_BUF_ERROR [], Event.fwrite [] 0 false, Event.fread [] false,
            Event.inflateEnd, Event.fcloseSource] ∧
    (decompressWith Variant.zlib_decompress
        (scripted [(Z_STREAM_END, [7, 8]), (Z_BUF_ERROR, [])]) 2 [1] 4).outcome =
      Outcome.returned Z_DATA_ERROR ∧
    (([Event.inflate [] Z_BUF_ERROR [], Event.fwrite [] 0 false, Event.fread [] false,
          Event.inflateEnd, Event.fcloseSource] = [] ∧
        (decompressWith Variant.zlib_decompress
          (scripted [(Z_STREAM_END, [7, 8]), (Z_BUF_ERROR, [])]) 2 [1] 4).outcome =
            Outcome.unfinished) ∨
      ∃ ni1 ret1 out1 rest,
        [Event.inflate [] Z_BUF_ERROR [], Event.fwrite [] 0 false, Event.fread [] false,
          Event.inflateEnd, Event.fcloseSource] = Event.inflate ni1 ret1 out1 :: rest) :=
  ⟨by decide, by decide, by decide,
    (stream_end_on_full_buffer Variant.zlib_decompress
      (scripted [(Z_STREAM_END, [7, 8]), (Z_BUF_ERROR, [])]) 2 [1] 4
      [Event.inflateInit Z_OK, Event.fmemopen [1], Event.fread [1] false]
      [1] [7, 8]
      [Event.inflate [] Z_BUF_ERROR [], Event.fwrite [] 0 false, Event.fread [] false,
        Event.inflateEnd, Event.fcloseSource]
      (by decide) (by decide)).1⟩

/-! ## Whole runs through the loops of zlib_decompress.h -/

/-- A whole run of either file that enters the loops is the run of the loops
of zlib_decompress.h from `ret = Z_OK` on the whole input, behind the calls
made before the loops and with `fclose(dest)` added for common_zlib.h. -/
theorem decompress_through_loops {σ τ : Type} (var : Variant) (w : World σ τ) (chunk : Nat)
    (input : List Byte) (fuel : Nat) (h0 : (var.init w).1 = Z_OK)
    (he : var = Variant.common_zlib → w.errno_fmemopen = 0 ∧ w.errno_fdopen = 0) :
    decompressWith var w chunk input fuel =
      ⟨(ZlibDecompress.fill w chunk fuel
          ⟨Z_OK, (var.init w).2, input, 0, w.dest⟩).outcome,
        var.prelude w input ++ var.closing
          (ZlibDecompress.fill w chunk fuel
            ⟨Z_OK, (var.init w).2, input, 0, w.dest⟩).trace⟩ := by
  cases var with
  | common_zlib =>
    obtain ⟨h1, h2⟩ := he rfl
    have h0' : (w.inflateInit2 31).1 = 0 := by simpa [Variant.init] using h0
    simp only [decompressWith, CommonZlib.decompressWith,
      (CommonZlib.loops_closing_dest w chunk fuel).1]
    simp [Run.after, Run.closingDest, Variant.prelude, Variant.initCall, Variant.closing,
      Variant.init, h0', h1, h2]
  | zlib_decompress =>
    have h0' : w.inflateInit.1 = 0 := by simpa [Variant.init] using h0
    simp only [decompressWith, ZlibDecompress.decompressWith]
    simp [Run.after, Variant.prelude, Variant.initCall, Variant.closing, Variant.init, h0']

theorem fedChunks_inflate (ni : List Byte) (ret : Int) (out : List Byte) (t : List Event) :
    fedChunks (Event.inflate ni ret out :: t) = fedChunks t := by
  simp [fedChunks]

theorem fedChunks_fread_inflate (d : List Byte) (e : Bool) (ni : List Byte) (ret : Int)
    (out : List Byte) (t : List Event) :
    fedChunks (Event.fread d e :: Event.inflate ni ret out :: t) =
      ni :: fedChunks (Event.inflate ni ret out :: t) := by
  simp [fedChunks]

theorem fedChunks_closingDest (t : List Event) : fedChunks (closingDest t) = fedChunks t := by
  induction t with
  | nil => rfl
  | cons e t ih =>
    cases e with
    | fread d err =>
      cases t with
      | nil => rfl
      | cons e2 t2 =>
        cases e2 <;> simp_all [closingDest, fedChunks]
    | fcloseSource => simpa [closingDest, fedChunks] using ih
    | _ => simpa [closingDest, fedChunks] using ih

theorem stepStatuses_closingDest (t : List Event) :
    stepStatuses (closingDest t) = stepStatuses t := by
  induction t with
  | nil => rfl
  | cons e t ih => cases e <;> simp [closingDest, stepStatuses, ih]

theorem readChunks_closingDest (t : List Event) :
    readChunks (closingDest t) = readChunks t := by
  induction t with
  | nil => rfl
  | cons e t ih => cases e <;> simp [closingDest, readChunks, ih]

theorem errorFree_closingDest (t : List Event) :
    ErrorFree (closingDest t) ↔ ErrorFree t := by
  induction t with
  | nil => exact Iff.rfl
  | cons e t ih =>
    cases e <;> simp_all [closingDest, ErrorFree, Event.failed]

theorem Variant.fedChunks_whole {σ τ : Type} (var : Variant) (w : World σ τ)
    (input : List Byte) (t : List Event) :
    fedChunks (var.prelude w input ++ var.closing t) = fedChunks t := by
  cases var <;>
    simp [Variant.prelude, Variant.initCall, Variant.closing, fedChunks, fedChunks_closingDest]

theorem Variant.stepStatuses_whole {σ τ : Type} (var : Variant) (w : World σ τ)
    (input : List Byte) (t : List Event) :
    stepStatuses (var.prelude w input ++ var.closing t) = stepStatuses t := by
  cases var <;>
    simp [Variant.prelude, Variant.initCall, Variant.closing, stepStatuses,
      stepStatuses_closingDest]

theorem Variant.readChunks_whole {σ τ : Type} (var : Variant) (w : World σ τ)
    (input : List Byte) (t : List Event) :
    readChunks (var.prelude w input ++ var.closing t) = readChunks t := by
  cases var <;>
    simp [Variant.prelude, Variant.initCall, Variant.closing, readChunks,
      readChunks_closingDest]

theorem Variant.sinkBytes_whole {σ τ : Type} (var : Variant) (w : World σ τ)
    (input : List Byte) (t : List Event) :
    sinkBytes (var.prelude w input ++ var.closing t) = sinkBytes t := by
  cases var <;>
    simp [Variant.prelude, Variant.initCall, Variant.closing, sinkBytes,
      sinkBytes_closingDest]

theorem Variant.errorFree_whole {σ τ : Type} (var : Variant) (w : World σ τ)
    (input : List Byte) (t : List Event)
    (h : ErrorFree (var.prelude w input ++ var.closing t)) : ErrorFree t := by
  have h1 := h.of_append_right
  cases var
  · exact (errorFree_closingDest t).mp h1
  · exact h1

/-- A run of the inner loop of zlib_decompress.h starts with a step on the
pending input, unless the bound on loop bodies leaves it no call. -/
theorem ZlibDecompress.drain_trace_head {σ τ : Type} (w : World σ τ) (chunk fuel : Nat)
    (v : Vars σ τ) (ni : List Byte) :
    ((ZlibDecompress.drain w chunk fuel v ni).trace = [] ∧
      (ZlibDecompress.drain w chunk fuel v ni).outcome = Outcome.unfinished) ∨
      ∃ ret out rest,
        (ZlibDecompress.drain w chunk fuel v ni).trace = Event.inflate ni ret out :: rest := by
  cases fuel with
  | zero => exact Or.inl ⟨rfl, rfl⟩
  | succ n => exact Or.inr ⟨_, _, _, rfl⟩

theorem slice_zero (chunk : Nat) (src : List Byte) : slice chunk src 0 = src.take chunk := by
  simp [slice]

theorem slice_drop (chunk : Nat) (src : List Byte) (k : Nat) :
    slice chunk (src.drop chunk) k = slice chunk src (k + 1) := by
  simp only [slice, List.drop_drop]
  congr 2
  ring

theorem slice_full (chunk : Nat) (src : List Byte) (k : Nat)
    (h : slice chunk src (k + 1) ≠ []) : (slice chunk src k).length = chunk := by
  have h1 : 0 < (slice chunk src (k + 1)).length := List.length_pos.mpr h
  simp only [slice, List.length_take, List.length_drop, Nat.mul_succ] at h1 ⊢
  omega

/-- The chunks fed in a run of the loops of zlib_decompress.h are the slices of
the unread input, in order, and none is empty. -/
theorem ZlibDecompress.fed_slices {σ τ : Type} (w : World σ τ) (chunk fuel : Nat) :
    (∀ v k c, (fedChunks (ZlibDecompress.fill w chunk fuel v).trace)[k]? = some c →
      c = slice chunk v.source k ∧ c ≠ []) ∧
    (∀ v ni k c, (fedChunks (ZlibDecompress.drain w chunk fuel v ni).trace)[k]? = some c →
      c = slice chunk v.source k ∧ c ≠ []) := by
  induction fuel with
  | zero =>
    constructor
    · intro v k c h; simp [ZlibDecompress.fill, fedChunks] at h
    · intro v ni k c h; simp [ZlibDecompress.drain, fedChunks] at h
  | succ n ih =>
    obtain ⟨ihf, ihd⟩ := ih
    constructor
    · intro v k c h
      simp only [ZlibDecompress.fill, Run.after, List.singleton_append] at h
      split_ifs at h with h1 h2
      · simp [fedChunks, ZlibDecompress.cleanup] at h
      · simp [fedChunks, ZlibDecompress.cleanup] at h
      · rcases ZlibDecompress.drain_trace_head w chunk n
          ⟨v.ret, v.stream, v.source.drop chunk, v.reads + 1, v.dest⟩ (v.source.take chunk)
          with ⟨h3, -⟩ | ⟨ret, out, rest, h3⟩
        · rw [h3] at h; simp [fedChunks] at h
        · have ih1 := ihd ⟨v.ret, v.stream, v.source.drop chunk, v.reads + 1, v.dest⟩
            (v.source.take chunk)
          rw [h3] at h ih1
          rw [fedChunks_fread_inflate] at h
          cases k with
          | zero =>
            simp only [List.getElem?_cons_zero, Option.some.injEq] at h
            subst h
            exact ⟨(slice_zero _ _).symm, fun h4 => h2 (by rw [h4]; rfl)⟩
          | succ k =>
            simp only [List.getElem?_cons_succ] at h
            obtain ⟨h4, h5⟩ := ih1 k c h
            exact ⟨by rw [h4]; exact slice_drop _ _ _, h5⟩
    · intro v ni k c h
      simp only [ZlibDecompress.drain, Run.after, List.singleton_append] at h
      split_ifs at h
      · simp [fedChunks] at h
      · simp [fedChunks, ZlibDecompress.cleanup] at h
      · simp [fedChunks, ZlibDecompress.cleanup] at h
      · simp [fedChunks, ZlibDecompress.cleanup] at h
      · simp only [fedChunks] at h
        have h6 := ihd _ _ k c h
        exact h6
      · simp only [fedChunks] at h
        have h6 := ihf _ k c h
        exact h6
      · simp [fedChunks, ZlibDecompress.cleanup] at h

/-- In a run of the loops of zlib_decompress.h that returns with no failed call
and no `Z_STREAM_END`, the chunks fed make up the unread input. -/
theorem ZlibDecompress.fed_all {σ τ : Type} (w : World σ τ) (chunk fuel : Nat)
    (hc : 0 < chunk) :
    (∀ v x, (ZlibDecompress.fill w chunk fuel v).outcome = Outcome.returned x →
      ErrorFree (ZlibDecompress.fill w chunk fuel v).trace →
      Z_STREAM_END ∉ stepStatuses (ZlibDecompress.fill w chunk fuel v).trace →
      (fedChunks (ZlibDecompress.fill w chunk fuel v).trace).flatten = v.source) ∧
    (∀ v ni x, (ZlibDecompress.drain w chunk fuel v ni).outcome = Outcome.returned x →
      ErrorFree (ZlibDecompress.drain w chunk fuel v ni).trace →
      Z_STREAM_END ∉ stepStatuses (ZlibDecompress.drain w chunk fuel v ni).trace →
      (fedChunks (ZlibDecompress.drain w chunk fuel v ni).trace).flatten = v.source) := by
  induction fuel with
  | zero =>
    constructor
    · intro v x h; simp [ZlibDecompress.fill] at h
    · intro v ni x h; simp [ZlibDecompress.drain] at h
  | succ n ih =>
    obtain ⟨ihf, ihd⟩ := ih
    constructor
    · intro v x
      simp only [ZlibDecompress.fill, Run.after, List.singleton_append]
      split_ifs with h1 h2
      · intro _ he _
        have := he.first
        simp [Event.failed, h1] at this
      · intro _ _ _
        have h3 : v.source = [] := by
          have h4 : (List.take chunk v.source) = [] := List.length_eq_zero.mp h2
          rcases List.take_eq_nil_iff.mp h4 with h5 | h5
          · omega
          · exact h5
        simp [fedChunks, ZlibDecompress.cleanup, h3]
      · intro ho he hs
        rcases ZlibDecompress.drain_trace_head w chunk n
          ⟨v.ret, v.stream, v.source.drop chunk, v.reads + 1, v.dest⟩ (v.source.take chunk)
          with ⟨-, h3⟩ | ⟨ret, out, rest, h3⟩
        · rw [h3] at ho; cases ho
        · have ih1 := ihd ⟨v.ret, v.stream, v.source.drop chunk, v.reads + 1, v.dest⟩
            (v.source.take chunk) x ho he.rest (by simpa [stepStatuses] using hs)
          rw [h3] at ih1 ⊢
          rw [fedChunks_fread_inflate, List.flatten_cons, ih1]
          exact List.take_append_drop _ _
    · intro v ni x
      simp only [ZlibDecompress.drain, have_eq, List.take_length, Run.after,
        List.singleton_append]
      split_ifs with h1 h2 h3 h4 h5 h6
      · intro ho; cases ho
      · intro _ he _
        have := he.first
        simp [Event.failed, h2] at this
      · intro _ he _
        have := he.first
        rcases h3 with h | h <;> simp [Event.failed, h] at this
      · intro _ he _
        have := he.rest.first
        simp only [Event.failed, Bool.or_eq_false_iff, decide_eq_false_iff_not, ne_eq,
          not_not] at this
        rcases h4 with h | h
        · exact (h this.1).elim
        · rw [this.2] at h; cases h
      · intro ho he hs
        have h7 := ihd _ _ x ho he.rest.rest (fun hm => hs (List.mem_cons_of_mem _ hm))
        rw [fedChunks_inflate]
        simpa [fedChunks] using h7
      · intro ho he hs
        have h7 := ihf _ x ho he.rest.rest (fun hm => hs (List.mem_cons_of_mem _ hm))
        simpa [fedChunks] using h7
      · intro _ _ hs
        simp only [ne_eq, not_not] at h6
        exact (hs (h6 ▸ List.mem_cons_self _ _)).elim

/-- C13. Input chunking, for every buffer size `chunk` (4096 in the source).
The `k`-th chunk handed to the engine is the slice
`input[chunk * k .. min (chunk * (k + 1)) length)`; it is not empty, and it has
exactly `chunk` bytes when another chunk follows it. When the buffer size is
not zero and the run returns without a failed call and without a step that
reports `Z_STREAM_END`, the chunks fed make up the whole input. -/
theorem input_chunking {σ τ : Type} (var : Variant) (w : World σ τ) (chunk : Nat)
    (input : List Byte) (fuel : Nat) :
    (∀ k c, (fedChunks (decompressWith var w chunk input fuel).trace)[k]? = some c →
      c = slice chunk input k ∧ c ≠ [] ∧
      ((fedChunks (decompressWith var w chunk input fuel).trace)[k + 1]? ≠ none →
        c.length = chunk)) ∧
    (0 < chunk → ∀ x, (decompressWith var w chunk input fuel).outcome = Outcome.returned x →
      ErrorFree (decompressWith var w chunk input fuel).trace →
      Z_STREAM_END ∉ stepStatuses (decompressWith var w chunk input fuel).trace →
      (fedChunks (decompressWith var w chunk input fuel).trace).flatten = input) := by
  rcases decompress_shape var w chunk input fuel with
    ⟨h0, hr⟩ | ⟨hv, h0, h1, hr⟩ | ⟨hv, h0, h1, h2, hr⟩ | ⟨h0, he, -⟩
  · rw [hr]
    have hf : fedChunks [var.initCall w] = [] := by
      cases var <;> simp [Variant.initCall, fedChunks]
    refine ⟨fun k c h => by simp [hf] at h, fun _ x _ he _ => ?_⟩
    have := he.first
    cases var <;> simp [Variant.initCall, Event.failed, Variant.init] at this h0 <;>
      exact (h0 this).elim
  · rw [hr]
    have hf : fedChunks [var.initCall w, Event.fmemopen input,
        Event.errno w.errno_fmemopen] = [] := by
      cases var <;> simp [Variant.initCall, fedChunks]
    refine ⟨fun k c h => by simp [hf] at h, fun _ x _ he _ => ?_⟩
    have := he.rest.rest.first
    simp [Event.failed] at this
    exact (h1 this).elim
  · rw [hr]
    subst hv
    have hf : fedChunks (Variant.common_zlib.prelude w input) = [] := by
      simp [Variant.prelude, Variant.initCall, fedChunks]
    refine ⟨fun k c h => by simp [hf] at h, fun _ x _ he _ => ?_⟩
    have := he.rest.rest.rest.rest.first
    simp [Event.failed] at this
    exact (h2 this).elim
  · rw [decompress_through_loops var w chunk input fuel h0 he]
    simp only [var.fedChunks_whole, var.stepStatuses_whole]
    constructor
    · intro k c h
      obtain ⟨h1, h2⟩ := (ZlibDecompress.fed_slices w chunk fuel).1 _ k c h
      refine ⟨h1, h2, fun h3 => ?_⟩
      obtain ⟨c1, h4⟩ := Option.ne_none_iff_exists'.mp h3
      obtain ⟨h5, h6⟩ := (ZlibDecompress.fed_slices w chunk fuel).1 _ (k + 1) c1 h4
      rw [h1]
      exact slice_full chunk input k (h5 ▸ h6)
    · intro hc x ho hef hs
      exact (ZlibDecompress.fed_all w chunk fuel hc).1 _ x ho (var.errorFree_whole w input _ hef)
        hs

theorem input_chunking_witness :
    0 < 2 ∧
    (decompressWith Variant.common_zlib (scripted [(Z_OK, [7]), (Z_BUF_ERROR, [])]) 2
      [1, 2, 3] 6).outcome = Outcome.returned Z_DATA_ERROR ∧
    fedChunks (decompressWith Variant.common_zlib
      (scripted [(Z_OK, [7]), (Z_BUF_ERROR, [])]) 2 [1, 2, 3] 6).trace = [[1, 2], [3]] ∧
    (fedChunks (decompressWith Variant.common_zlib
      (scripted [(Z_OK, [7]), (Z_BUF_ERROR, [])]) 2 [1, 2, 3] 6).trace).flatten = [1, 2, 3] :=
  ⟨by decide, by decide, by decide,
    (input_chunking Variant.common_zlib (scripted [(Z_OK, [7]), (Z_BUF_ERROR, [])]) 2
      [1, 2, 3] 6).2 (by decide) Z_DATA_ERROR (by decide) (by decide) (by decide)⟩

/-! ## Termination -/

/-- One more loop body changes nothing in a run of the loops of
zlib_decompress.h that has ended. -/
theorem ZlibDecompress.fuel_succ {σ τ : Type} (w : World σ τ) (chunk fuel : Nat) :
    (∀ v, (ZlibDecompress.fill w chunk fuel v).outcome ≠ Outcome.unfinished →
      ZlibDecompress.fill w chunk (fuel + 1) v = ZlibDecompress.fill w chunk fuel v) ∧
    (∀ v ni, (ZlibDecompress.drain w chunk fuel v ni).outcome ≠ Outcome.unfinished →
      ZlibDecompress.drain w chunk (fuel + 1) v ni = ZlibDecompress.drain w chunk fuel v ni) := by
  induction fuel with
  | zero =>
    constructor
    · intro v h; simp [ZlibDecompress.fill] at h
    · intro v ni h; simp [ZlibDecompress.drain] at h
  | succ n ih =>
    obtain ⟨ihf, ihd⟩ := ih
    constructor
    · intro v
      rw [ZlibDecompress.fill, ZlibDecompress.fill]
      simp only [Run.after]
      split_ifs with h1 h2
      · intro _; rfl
      · intro _; rfl
      · intro h
        rw [ihd _ _ h]
    · intro v ni
      rw [ZlibDecompress.drain, ZlibDecompress.drain]
      simp only [Run.after]
      split_ifs with h1 h2 h3 h4 h5 h6
      · intro _; rfl
      · intro _; rfl
      · intro _; rfl
      · intro _; rfl
      · intro h
        rw [ihd _ _ h]
      · intro h
        rw [ihf _ h]
      · intro _; rfl

/-- A run of the inner loop of zlib_decompress.h ends when the outer loop ends
from every state with the same unread input and the inner loop ends after its
first step whenever that step fills the buffer and is written. -/
theorem ZlibDecompress.drain_step_ends {σ τ : Type} (w : World σ τ) (chunk : Nat)
    (v : Vars σ τ) (ni : List Byte)
    (hfill : ∀ v1 : Vars σ τ, v1.source = v.source →
      ∃ f, (ZlibDecompress.fill w chunk f v1).outcome ≠ Outcome.unfinished)
    (hmore : Continues w.ndebug (w.inflate v.stream ni chunk).ret →
      ((w.inflate v.stream ni chunk).out.take chunk).length = chunk →
      ∀ v1 : Vars σ τ, v1.stream = (w.inflate v.stream ni chunk).state →
        v1.source = v.source →
        ∃ f, (ZlibDecompress.drain w chunk f v1 (w.inflate v.stream ni chunk).next_in).outcome
          ≠ Outcome.unfinished) :
    ∃ f, (ZlibDecompress.drain w chunk f v ni).outcome ≠ Outcome.unfinished := by
  by_cases h1 : w.ndebug = false ∧ (w.inflate v.stream ni chunk).ret = Z_STREAM_ERROR
  · exact ⟨1, by simp [ZlibDecompress.drain, Run.after, h1]⟩
  by_cases h2 : (w.inflate v.stream ni chunk).ret = Z_NEED_DICT
  · exact ⟨1, by simp only [ZlibDecompress.drain, Run.after, if_neg h1, if_pos h2]; simp⟩
  by_cases h3 : (w.inflate v.stream ni chunk).ret = Z_DATA_ERROR ∨
      (w.inflate v.stream ni chunk).ret = Z_MEM_ERROR
  · exact ⟨1, by simp only [ZlibDecompress.drain, Run.after, if_neg h1, if_neg h2, if_pos h3]; simp⟩
  have hc : Continues w.ndebug (w.inflate v.stream ni chunk).ret := by
    simp only [not_or] at h3; exact ⟨h1, h2, h3.1, h3.2⟩
  by_cases h4 : (w.fwrite v.dest ((w.inflate v.stream ni chunk).out.take chunk)).1 ≠
      ((w.inflate v.stream ni chunk).out.take chunk).length ∨
      w.ferror_dest (w.fwrite v.dest ((w.inflate v.stream ni chunk).out.take chunk)).2 = true
  · exact ⟨1, by
      simp only [ZlibDecompress.drain, have_eq, List.take_length, Run.after, if_neg h1,
        if_neg h2, if_neg h3, if_pos h4]
      simp⟩
  by_cases h5 : chunk - ((w.inflate v.stream ni chunk).out.take chunk).length = 0
  · have hlen : ((w.inflate v.stream ni chunk).out.take chunk).length = chunk := by
      have : ((w.inflate v.stream ni chunk).out.take chunk).length ≤ chunk := by simp
      omega
    obtain ⟨f, hf⟩ := hmore hc hlen
      ⟨(w.inflate v.stream ni chunk).ret, (w.inflate v.stream ni chunk).state, v.source,
        v.reads, (w.fwrite v.dest ((w.inflate v.stream ni chunk).out.take chunk)).2⟩ rfl rfl
    refine ⟨f + 1, ?_⟩
    simp only [ZlibDecompress.drain, have_eq, List.take_length, Run.after, if_neg h1,
      if_neg h2, if_neg h3, if_neg h4, if_pos h5]
    exact hf
  by_cases h6 : (w.inflate v.stream ni chunk).ret ≠ Z_STREAM_END
  · obtain ⟨f, hf⟩ := hfill
      ⟨(w.inflate v.stream ni chunk).ret, (w.inflate v.stream ni chunk).state, v.source,
        v.reads, (w.fwrite v.dest ((w.inflate v.stream ni chunk).out.take chunk)).2⟩ rfl
    refine ⟨f + 1, ?_⟩
    simp only [ZlibDecompress.drain, have_eq, List.take_length, Run.after, if_neg h1,
      if_neg h2, if_neg h3, if_neg h4, if_neg h5, if_pos h6]
    exact hf
  · exact ⟨1, by
      simp only [ZlibDecompress.drain, have_eq, List.take_length, Run.after, if_neg h1,
        if_neg h2, if_neg h3, if_neg h4, if_neg h5, if_neg h6]
      simp⟩

/-- A run of the inner loop of zlib_decompress.h ends when some call in a row
ends the inner loop and the outer loop ends from every state with the same
unread input. -/
theorem ZlibDecompress.drain_ends {σ τ : Type} (w : World σ τ) (chunk : Nat) (n : Nat) :
    ∀ (v : Vars σ τ) (ni : List Byte),
      (((w.stepAfter chunk n v.stream ni).ret = Z_NEED_DICT ∨
          (w.stepAfter chunk n v.stream ni).ret = Z_DATA_ERROR ∨
          (w.stepAfter chunk n v.stream ni).ret = Z_MEM_ERROR) ∨
        ((w.stepAfter chunk n v.stream ni).out.take chunk).length < chunk) →
      (∀ v1 : Vars σ τ, v1.source = v.source →
        ∃ f, (ZlibDecompress.fill w chunk f v1).outcome ≠ Outcome.unfinished) →
      ∃ f, (ZlibDecompress.drain w chunk f v ni).outcome ≠ Outcome.unfinished := by
  induction n with
  | zero =>
    intro v ni hterm hfill
    refine ZlibDecompress.drain_step_ends w chunk v ni hfill ?_
    intro hc hlen
    simp only [World.stepAfter] at hterm
    rcases hterm with h | h
    · exact (continues_not_error hc h).elim
    · omega
  | succ n ih =>
    intro v ni hterm hfill
    refine ZlibDecompress.drain_step_ends w chunk v ni hfill ?_
    intro _ _ v1 hs hsrc
    refine ih v1 _ ?_ (fun v2 h2 => hfill v2 (h2.trans hsrc))
    rw [hs]
    exact hterm

/-- When every inner loop ends, so does every run of the loops of
zlib_decompress.h. -/
theorem ZlibDecompress.fill_ends {σ τ : Type} (w : World σ τ) (chunk : Nat)
    (hd : DrainEnds w chunk) (len : Nat) :
    ∀ v : Vars σ τ, v.source.length ≤ len →
      ∃ f, (ZlibDecompress.fill w chunk f v).outcome ≠ Outcome.unfinished := by
  induction len with
  | zero =>
    intro v hv
    have hsrc : v.source = [] := List.length_eq_zero.mp (Nat.le_zero.mp hv)
    refine ⟨1, ?_⟩
    simp only [ZlibDecompress.fill, Run.after, hsrc, List.take_nil, List.length_nil]
    split_ifs <;> simp
  | succ len ih =>
    intro v hv
    by_cases h1 : w.ferror_source v.reads = true
    · exact ⟨1, by simp [ZlibDecompress.fill, Run.after, h1]⟩
    by_cases h2 : (v.source.take chunk).length = 0
    · exact ⟨1, by simp only [ZlibDecompress.fill, Run.after, if_neg h1, if_pos h2]; simp⟩
    have hshort : (v.source.drop chunk).length ≤ len := by
      simp only [List.length_take] at h2
      simp only [List.length_drop]
      omega
    obtain ⟨n, hn⟩ := hd v.stream (v.source.take chunk)
    obtain ⟨f, hf⟩ := ZlibDecompress.drain_ends w chunk n
      ⟨v.ret, v.stream, v.source.drop chunk, v.reads + 1, v.dest⟩ (v.source.take chunk) hn
      (fun v1 h => ih v1 (by rw [h]; exact hshort))
    refine ⟨f + 1, ?_⟩
    simp only [ZlibDecompress.fill, Run.after, if_neg h1, if_neg h2]
    exact hf

theorem ZlibDecompress.fuel_add {σ τ : Type} (w : World σ τ) (chunk fuel : Nat)
    (v : Vars σ τ) (h : (ZlibDecompress.fill w chunk fuel v).outcome ≠ Outcome.unfinished)
    (k : Nat) :
    ZlibDecompress.fill w chunk (fuel + k) v = ZlibDecompress.fill w chunk fuel v := by
  induction k with
  | zero => rfl
  | succ k ih =>
    rw [← Nat.add_assoc, (ZlibDecompress.fuel_succ w chunk (fuel + k)).1 v (by rw [ih]; exact h),
      ih]

theorem reads_arith (chunk len : Nat) (hc : 0 < chunk) (hl : 0 < len) :
    (len - chunk + chunk - 1) / chunk + 1 ≤ (len + chunk - 1) / chunk := by
  by_cases h : len ≤ chunk
  · have h1 : len - chunk + chunk - 1 < chunk := by omega
    rw [Nat.div_eq_of_lt h1]
    exact Nat.div_pos (by omega) hc
  · have h1 : len + chunk - 1 = (len - chunk + chunk - 1) + chunk := by omega
    rw [h1, Nat.add_div_right _ hc]

/-- A run of the loops of zlib_decompress.h reads the source at most once more
than the number of buffers that the unread input fills. -/
theorem ZlibDecompress.reads_bound {σ τ : Type} (w : World σ τ) (chunk fuel : Nat) :
    (∀ v, (readChunks (ZlibDecompress.fill w chunk fuel v).trace).length ≤
      (v.source.length + chunk - 1) / chunk + 1) ∧
    (∀ v ni, (readChunks (ZlibDecompress.drain w chunk fuel v ni).trace).length ≤
      (v.source.length + chunk - 1) / chunk + 1) := by
  induction fuel with
  | zero =>
    constructor
    · intro v; simp [ZlibDecompress.fill, readChunks]
    · intro v ni; simp [ZlibDecompress.drain, readChunks]
  | succ n ih =>
    obtain ⟨ihf, ihd⟩ := ih
    constructor
    · intro v
      simp only [ZlibDecompress.fill, Run.after, List.singleton_append]
      split_ifs with h1 h2
      · simp [readChunks, ZlibDecompress.cleanup]
      · simp [readChunks, ZlibDecompress.cleanup]
      · have h3 := ihd ⟨v.ret, v.stream, v.source.drop chunk, v.reads + 1, v.dest⟩
          (v.source.take chunk)
        simp only [List.length_drop] at h3
        simp only [List.length_take] at h2
        have h4 := reads_arith chunk v.source.length (by omega) (by omega)
        simp only [readChunks, List.length_cons]
        omega
    · intro v ni
      simp only [ZlibDecompress.drain, Run.after, List.singleton_append]
      split_ifs
      · simp [readChunks]
      · simp [readChunks, ZlibDecompress.cleanup]
      · simp [readChunks, ZlibDecompress.cleanup]
      · simp [readChunks, ZlibDecompress.cleanup]
      · have h3 := ihd ⟨(w.inflate v.stream ni chunk).ret, (w.inflate v.stream ni chunk).state,
          v.source, v.reads, (w.fwrite v.dest (List.take
            (chunk - (chunk - (List.take chunk (w.inflate v.stream ni chunk).out).length))
            (List.take chunk (w.inflate v.stream ni chunk).out))).2⟩
          (w.inflate v.stream ni chunk).next_in
        simpa [readChunks] using h3
      · have h3 := ihf ⟨(w.inflate v.stream ni chunk).ret, (w.inflate v.stream ni chunk).state,
          v.source, v.reads, (w.fwrite v.dest (List.take
            (chunk - (chunk - (List.take chunk (w.inflate v.stream ni chunk).out).length))
            (List.take chunk (w.inflate v.stream ni chunk).out))).2⟩
        simpa [readChunks] using h3
      · simp [readChunks, ZlibDecompress.cleanup]

/-- What a run from the top of the outer loop does after its read. -/
theorem LoopRun.read_cases {chunk : Nat} {cl : List Event} {nd : Bool} {o : Outcome}
    {r0 : Int} {d : List Byte} {err : Bool} {post : List Event}
    (h : LoopRun chunk cl nd (some r0) o (Event.fread d err :: post)) :
    (err = true ∧ o = Outcome.returned Z_ERRNO ∧ post = cl) ∨
    (err = false ∧ d = [] ∧ o = Outcome.returned (finalStatus r0) ∧ post = cl) ∨
    (err = false ∧ d ≠ [] ∧ d.length ≤ chunk ∧ LoopRun chunk cl nd none o post) := by
  cases h with
  | read_error => exact Or.inl ⟨rfl, rfl, rfl⟩
  | eof => exact Or.inr (Or.inl ⟨rfl, rfl, rfl, rfl⟩)
  | feed _ _ _ _ hne hle h => exact Or.inr (Or.inr ⟨rfl, hne, hle, h⟩)

/-- What follows a read in a run of the loops is a run from the top of the
outer loop. -/
theorem LoopRun.from_fread {chunk : Nat} {cl : List Event} {nd : Bool} (hq : Quiet cl)
    {at_ : Option Int} {o : Outcome} {t : List Event} (h : LoopRun chunk cl nd at_ o t) :
    ∀ (pre : List Event) (d : List Byte) (err : Bool) (post : List Event),
      t = pre ++ Event.fread d err :: post →
      ∃ r0, LoopRun chunk cl nd (some r0) o (Event.fread d err :: post) := by
  induction h with
  | fuel at_ => intro pre d err post heq; simp at heq
  | read_error ret0 data =>
    intro pre d err post heq
    rcases pre with _ | ⟨p, pre⟩
    · simp only [List.nil_append, List.cons.injEq] at heq
      rw [← heq.1, ← heq.2]
      exact ⟨ret0, LoopRun.read_error _ _⟩
    · simp only [List.cons_append, List.cons.injEq] at heq
      exact (hq.no_fread heq.2).elim
  | eof ret0 =>
    intro pre d err post heq
    rcases pre with _ | ⟨p, pre⟩
    · simp only [List.nil_append, List.cons.injEq] at heq
      rw [← heq.1, ← heq.2]
      exact ⟨ret0, LoopRun.eof _⟩
    · simp only [List.cons_append, List.cons.injEq] at heq
      exact (hq.no_fread heq.2).elim
  | feed ret0 data o t hne hle h ih =>
    intro pre d err post heq
    rcases pre with _ | ⟨p, pre⟩
    · simp only [List.nil_append, List.cons.injEq] at heq
      rw [← heq.1, ← heq.2]
      exact ⟨ret0, LoopRun.feed _ _ _ _ hne hle h⟩
    · simp only [List.cons_append, List.cons.injEq] at heq
      exact ih _ _ _ _ heq.2
  | abort ni0 out0 hnd hle =>
    intro pre d err post heq
    rcases pre with _ | ⟨p, pre⟩ <;> simp at heq
  | need_dict ni0 out0 hle =>
    intro pre d err post heq
    rcases pre with _ | ⟨p, pre⟩
    · simp at heq
    · simp only [List.cons_append, List.cons.injEq] at heq
      exact (hq.no_fread heq.2).elim
  | step_error ni0 ret0 out0 hret hle =>
    intro pre d err post heq
    rcases pre with _ | ⟨p, pre⟩
    · simp at heq
    · simp only [List.cons_append, List.cons.injEq] at heq
      exact (hq.no_fread heq.2).elim
  | write_error ni0 ret0 out0 n0 err0 hc hle hw =>
    intro pre d err post heq
    rcases pre with _ | ⟨p, _ | ⟨q, pre⟩⟩
    · simp at heq
    · simp at heq
    · simp only [List.cons_append, List.cons.injEq] at heq
      exact (hq.no_fread heq.2.2).elim
  | more ni0 ret0 out0 o t hc hlen h ih =>
    intro pre d err post heq
    rcases pre with _ | ⟨p, _ | ⟨q, pre⟩⟩
    · simp at heq
    · simp at heq
    · simp only [List.cons_append, List.cons.injEq] at heq
      exact ih _ _ _ _ heq.2.2
  | next ni0 ret0 out0 o t hc hlen hne h ih =>
    intro pre d err post heq
    rcases pre with _ | ⟨p, _ | ⟨q, pre⟩⟩
    · simp at heq
    · simp at heq
    · simp only [List.cons_append, List.cons.injEq] at heq
      exact ih _ _ _ _ heq.2.2
  | stream_end ni0 out0 hc hlen =>
    intro pre d err post heq
    rcases pre with _ | ⟨p, _ | ⟨q, pre⟩⟩
    · simp at heq
    · simp at heq
    · simp only [List.cons_append, List.cons.injEq] at heq
      exact (hq.no_fread heq.2.2).elim

theorem scripted_state (steps : List (Int × List Byte)) (chunk s : Nat) (ni : List Byte) :
    ((scripted steps).inflate s ni chunk).state = s + 1 := by
  simp only [scripted]
  cases steps[s]? <;> rfl

theorem scripted_past_end (steps : List (Int × List Byte)) (chunk : Nat) (n : Nat) :
    ∀ (s : Nat) (ni : List Byte), steps.length ≤ s + n →
      ((scripted steps).stepAfter chunk n s ni).out = [] := by
  induction n with
  | zero =>
    intro s ni h
    have h1 : steps[s]? = none := List.getElem?_eq_none (by omega)
    simp [World.stepAfter, scripted, h1]
  | succ n ih =>
    intro s ni h
    simp only [World.stepAfter]
    rw [scripted_state]
    exact ih _ _ (by omega)

/-- With a scripted engine and a buffer size that is not zero, every inner loop
ends: past the end of the script a step stores nothing. -/
theorem scripted_drain_ends (steps : List (Int × List Byte)) (chunk : Nat) (hc : 0 < chunk) :
    DrainEnds (scripted steps) chunk := by
  intro s ni
  refine ⟨steps.length, Or.inr ?_⟩
  rw [scripted_past_end steps chunk steps.length s ni (by omega)]
  simpa using hc

/-- In a whole run, a read that yields no byte is followed by the calls of
`cleanup` and nothing else, and the run returns. -/
theorem empty_read_stops {σ τ : Type} (var : Variant) (w : World σ τ) (chunk : Nat)
    (input : List Byte) (fuel : Nat) (pre : List Event) (err : Bool) (post : List Event)
    (h : (decompressWith var w chunk input fuel).trace =
      pre ++ Event.fread [] err :: post) :
    post = var.cleanup ∧
    ∃ x, (decompressWith var w chunk input fuel).outcome = Outcome.returned x := by
  have hq := var.cleanup_quiet
  obtain ⟨t, pre1, hl, ht, hp, hsplit⟩ :=
    decompress_split var w chunk input fuel (e := Event.fread [] err) rfl h
  obtain ⟨r0, hr⟩ := hl.from_fread hq _ _ _ _ hsplit
  rcases hr.read_cases with ⟨-, h1, h2⟩ | ⟨-, -, h1, h2⟩ | ⟨-, h1, -⟩
  · exact ⟨h2, _, h1⟩
  · exact ⟨h2, _, h1⟩
  · exact (h1 rfl).elim

/-- A whole run that does not enter the loops does not depend on the bound on
loop bodies. -/
theorem decompress_early {σ τ : Type} (var : Variant) (w : World σ τ) (chunk : Nat)
    (input : List Byte) (f g : Nat)
    (hn : ¬ ((var.init w).1 = Z_OK ∧
      (var = Variant.common_zlib → w.errno_fmemopen = 0 ∧ w.errno_fdopen = 0))) :
    decompressWith var w chunk input f = decompressWith var w chunk input g := by
  cases var
  · simp only [decompressWith, CommonZlib.decompressWith, Run.after]
    split_ifs with h1 h2 h3
    · rfl
    · rfl
    · rfl
    · exfalso
      apply hn
      simp only [ne_eq, not_not] at h1 h2 h3
      exact ⟨h1, fun _ => ⟨h2, h3⟩⟩
  · simp only [decompressWith, ZlibDecompress.decompressWith, Run.after]
    split_ifs with h1
    · rfl
    · exfalso
      apply hn
      simp only [ne_eq, not_not] at h1
      exact ⟨h1, fun h => Variant.noConfusion h⟩

/-- C14. Termination, for every buffer size `chunk` (4096 in the source). When
every inner loop ends, `decompress` ends on every input: some bound on the
number of loop bodies lets the run end, and a larger bound gives the same run.
Whatever the bound, the run reads the source at most
`ceil (length / chunk) + 1` times, a read that yields no byte is followed by
the calls of `cleanup` only, and so is the successful write of a step that
reports `Z_STREAM_END` and leaves room in the output buffer. -/
theorem terminates_when_drains_end {σ τ : Type} (var : Variant) (w : World σ τ)
    (chunk : Nat) (input : List Byte) (hd : DrainEnds w chunk) :
    (∃ fuel, (decompressWith var w chunk input fuel).outcome ≠ Outcome.unfinished ∧
      ∀ k, decompressWith var w chunk input (fuel + k) =
        decompressWith var w chunk input fuel) ∧
    (∀ fuel, (readChunks (decompressWith var w chunk input fuel).trace).length ≤
      (input.length + chunk - 1) / chunk + 1) ∧
    (∀ fuel pre err post,
      (decompressWith var w chunk input fuel).trace = pre ++ Event.fread [] err :: post →
      post = var.cleanup) ∧
    (∀ fuel pre ni out post, out.length < chunk →
      (decompressWith var w chunk input fuel).trace =
        pre ++ Event.inflate ni Z_STREAM_END out ::
          Event.fwrite out out.length false :: post →
      post = var.cleanup) := by
  refine ⟨?_, ?_, ?_, ?_⟩
  · rcases decompress_shape var w chunk input 0 with
      ⟨h0, hr⟩ | ⟨hv, h0, h1, hr⟩ | ⟨hv, h0, h1, h2, hr⟩ | ⟨h0, he, -⟩
    · exact ⟨0, by rw [hr]; simp, fun k =>
        decompress_early var w chunk input _ _ (fun h => h0 h.1)⟩
    · exact ⟨0, by rw [hr]; simp, fun k =>
        decompress_early var w chunk input _ _ (fun h => h1 (h.2 hv).1)⟩
    · exact ⟨0, by rw [hr]; simp, fun k =>
        decompress_early var w chunk input _ _ (fun h => h2 (h.2 hv).2)⟩
    · obtain ⟨f, hf⟩ := ZlibDecompress.fill_ends w chunk hd input.length
        ⟨Z_OK, (var.init w).2, input, 0, w.dest⟩ (le_refl _)
      refine ⟨f, ?_, fun k => ?_⟩
      · rw [decompress_through_loops var w chunk input f h0 he]
        exact hf
      · rw [decompress_through_loops var w chunk input (f + k) h0 he,
          decompress_through_loops var w chunk input f h0 he,
          ZlibDecompress.fuel_add w chunk f _ hf k]
  · intro fuel
    rcases decompress_shape var w chunk input fuel with
      ⟨h0, hr⟩ | ⟨hv, h0, h1, hr⟩ | ⟨hv, h0, h1, h2, hr⟩ | ⟨h0, he, -⟩
    · rw [hr]; cases var <;> simp [Variant.initCall, readChunks]
    · rw [hr]; cases var <;> simp [Variant.initCall, readChunks]
    · rw [hr]; cases var <;> simp [Variant.initCall, Variant.prelude, readChunks]
    · rw [decompress_through_loops var w chunk input fuel h0 he]
      simp only [var.readChunks_whole]
      exact (ZlibDecompress.reads_bound w chunk fuel).1 _
  · intro fuel pre err post h
    exact (empty_read_stops var w chunk input fuel pre err post h).1
  · intro fuel pre ni out post hroom h
    exact (stream_end_stops var w chunk input fuel pre ni out out.length false post hroom rfl
      rfl h).2

theorem terminates_when_drains_end_witness :
    DrainEnds (scripted [(Z_OK, [7, 8]), (Z_OK, [9])]) 2 ∧
    decompressWith Variant.common_zlib (scripted [(Z_OK, [7, 8]), (Z_OK, [9])]) 2
        [1, 2, 3] 6 =
      ⟨Outcome.returned Z_DATA_ERROR,
        [Event.inflateInit2 31 Z_OK, Event.fmemopen [1, 2, 3], Event.errno 0, Event.fdopen,
          Event.errno 0, Event.fread [1, 2] false, Event.inflate [1, 2] Z_OK [7, 8],
          Event.fwrite [7, 8] 2 false, Event.inflate [] Z_OK [9], Event.fwrite [9] 1 false,
          Event.fread [3] false, Event.inflate [3] Z_BUF_ERROR [], Event.fwrite [] 0 false,
          Event.fread [] false, Event.inflateEnd, Event.fcloseSource, Event.fcloseDest]⟩ ∧
    (∃ fuel,
      (decompressWith Variant.common_zlib (scripted [(Z_OK, [7, 8]), (Z_OK, [9])]) 2
        [1, 2, 3] fuel).outcome ≠ Outcome.unfinished ∧
      ∀ k, decompressWith Variant.common_zlib (scripted [(Z_OK, [7, 8]), (Z_OK, [9])]) 2
          [1, 2, 3] (fuel + k) =
        decompressWith Variant.common_zlib (scripted [(Z_OK, [7, 8]), (Z_OK, [9])]) 2
          [1, 2, 3] fuel) ∧
    (∀ fuel,
      (readChunks (decompressWith Variant.common_zlib
        (scripted [(Z_OK, [7, 8]), (Z_OK, [9])]) 2 [1, 2, 3] fuel).trace).length ≤
        ([1, 2, 3].length + 2 - 1) / 2 + 1) :=
  ⟨scripted_drain_ends _ 2 (by decide), by decide,
    (terminates_when_drains_end Variant.common_zlib (scripted [(Z_OK, [7, 8]), (Z_OK, [9])]) 2
      [1, 2, 3] (scripted_drain_ends _ 2 (by decide))).1,
    (terminates_when_drains_end Variant.common_zlib (scripted [(Z_OK, [7, 8]), (Z_OK, [9])]) 2
      [1, 2, 3] (scripted_drain_ends _ 2 (by decide))).2.1⟩

/-! ## The loops on an engine that decodes a stream -/

/-- A run that ends as the rest of a decoding does, put behind a step that is
written in full, ends as the whole decoding does. -/
theorem Run.Yields.behind_step (r : Run) (D D1 : List Byte × Verdict)
    (ni out : List Byte) (ret : Int) (h : r.Yields D1) (hD : D = (out ++ D1.1, D1.2)) :
    Run.Yields ⟨r.outcome,
      Event.inflate ni ret out :: Event.fwrite out out.length false :: r.trace⟩ D := by
  obtain ⟨h1, h2, h3⟩ := h
  subst hD
  refine ⟨h1, ?_, ?_⟩
  · intro hc
    simp only [sinkBytes, List.take_length, h2 hc]
  · simp only [sinkBytes, List.take_length]
    exact (List.prefix_append_right_inj out).mpr h3

/-- The loops of zlib_decompress.h on an engine that decodes a stream, with no
failing stream call and a buffer of at least one byte, when they end: they end
as the decoding of the stream that is left does. -/
theorem World.Refines.loops_yield {σ τ : Type} {w : World σ τ}
    {dec : σ → List Byte → List Byte × Verdict} (hr : w.Refines dec) (hw : w.Reliable)
    (chunk : Nat) (hchunk : 0 < chunk) (fuel : Nat) :
    (∀ v : Vars σ τ, v.ret ≠ Z_STREAM_END →
      (v.source ≠ [] ∨ dec v.stream [] = ([], Verdict.truncated)) →
      (ZlibDecompress.fill w chunk fuel v).outcome ≠ Outcome.unfinished →
      (ZlibDecompress.fill w chunk fuel v).Yields (dec v.stream v.source)) ∧
    (∀ (v : Vars σ τ) (ni : List Byte),
      (ZlibDecompress.drain w chunk fuel v ni).outcome ≠ Outcome.unfinished →
      (ZlibDecompress.drain w chunk fuel v ni).Yields (dec v.stream (ni ++ v.source))) := by
  obtain ⟨hfw, hfs, -, -⟩ := hw
  have hfw1 : ∀ (d : τ) (data : List Byte), (w.fwrite d data).1 = data.length :=
    fun d data => (hfw d data).1
  have hfw2 : ∀ (d : τ) (data : List Byte), w.ferror_dest (w.fwrite d data).2 = false :=
    fun d data => (hfw d data).2
  induction fuel with
  | zero =>
    constructor
    · intro v _ _ h; simp [ZlibDecompress.fill] at h
    · intro v ni h; simp [ZlibDecompress.drain] at h
  | succ n ih =>
    obtain ⟨ihf, ihd⟩ := ih
    constructor
    · intro v hret hs
      obtain ⟨ret, s, source, reads, dest⟩ := v
      simp only at hret hs ⊢
      rw [ZlibDecompress.fill]
      simp only [Run.after, hfs]
      by_cases hsrc : source = []
      · subst hsrc
        rcases hs with hs | hs
        · exact (hs rfl).elim
        · intro _
          have hr1 : ¬ ret = 1 := hret
          simp [hr1, Run.Yields, hs, Verdict.status, finalStatus, sinkBytes,
            ZlibDecompress.cleanup]
      · have hlen : (List.take chunk source).length ≠ 0 := by
          cases source with
          | nil => exact (hsrc rfl).elim
          | cons a l => simp; omega
        simp only [if_neg hlen, Bool.false_eq_true, if_false]
        intro h
        have h1 := ihd ⟨ret, s, source.drop chunk, reads + 1, dest⟩ (source.take chunk) h
        simp only [List.take_append_drop] at h1
        simpa [Run.Yields, sinkBytes] using h1
    · intro v ni
      obtain ⟨ret, s, source, reads, dest⟩ := v
      obtain ⟨hle, hcases⟩ := hr s ni chunk hchunk
      rw [ZlibDecompress.drain]
      simp only [Run.after, have_eq, hfw1, hfw2]
      generalize w.inflate s ni chunk = r at hle hcases ⊢
      rw [List.take_of_length_le hle]
      simp only [List.take_length, ne_eq, not_true_eq_false, Bool.false_eq_true, or_self,
        if_false, List.singleton_append, List.append_nil]
      rcases hcases with ⟨a1, a2, a3⟩ | ⟨a1, a2, a3⟩ | ⟨a1, a2⟩
      · have hne : r.ret ≠ Z_STREAM_END := by
          rcases a1 with a1 | a1 <;> rw [a1] <;> decide
        have e1 : ¬ (w.ndebug = false ∧ r.ret = Z_STREAM_ERROR) := by
          rcases a1 with a1 | a1 <;> rw [a1] <;> simp
        have e2 : ¬ r.ret = Z_NEED_DICT := by
          rcases a1 with a1 | a1 <;> rw [a1] <;> decide
        have e3 : ¬ (r.ret = Z_DATA_ERROR ∨ r.ret = Z_MEM_ERROR) := by
          rcases a1 with a1 | a1 <;> rw [a1] <;> decide
        rw [if_neg e1, if_neg e2, if_neg e3]
        by_cases e0 : chunk - r.out.length = 0
        · rw [if_pos e0]
          intro h
          have h1 := ihd _ _ h
          exact Run.Yields.behind_step _ _ _ ni r.out r.ret h1 (a2 source)
        · rw [if_neg e0, if_pos hne]
          obtain ⟨b1, b2⟩ := a3 (by omega)
          intro h
          have h1 := ihf ⟨r.ret, r.state, source, reads, (w.fwrite dest r.out).2⟩ hne (Or.inr b2) h
          refine Run.Yields.behind_step _ _ _ ni r.out r.ret h1 ?_
          have := a2 source
          rw [b1] at this
          exact this
      · have e1 : ¬ (w.ndebug = false ∧ r.ret = Z_STREAM_ERROR) := by rw [a1]; simp
        have e2 : ¬ r.ret = Z_NEED_DICT := by rw [a1]; decide
        have e3 : ¬ (r.ret = Z_DATA_ERROR ∨ r.ret = Z_MEM_ERROR) := by rw [a1]; decide
        rw [if_neg e1, if_neg e2, if_neg e3]
        by_cases e0 : chunk - r.out.length = 0
        · rw [if_pos e0]
          intro h
          have h1 := ihd _ _ h
          refine Run.Yields.behind_step _ _ _ ni r.out r.ret h1 ?_
          simp only [a2 source, a3, List.append_nil]
        · rw [if_neg e0, if_neg (not_not.mpr a1)]
          intro _
          rw [a2 source, a1]
          refine ⟨rfl, fun _ => ?_, ?_⟩
          · simp [sinkBytes, ZlibDecompress.cleanup]
          · simp [sinkBytes, ZlibDecompress.cleanup]
      · have e1 : ¬ (w.ndebug = false ∧ r.ret = Z_STREAM_ERROR) := by rw [a1]; simp
        have e2 : ¬ r.ret = Z_NEED_DICT := by rw [a1]; decide
        rw [if_neg e1, if_neg e2, if_pos (Or.inl a1)]
        intro _
        refine ⟨?_, fun h => (h (a2 source).1).elim, ?_⟩
        · rw [(a2 source).1, a1]; rfl
        · simp [sinkBytes, ZlibDecompress.cleanup]

/-- On an engine that decodes a stream every inner loop ends: each step that
fills the buffer hands out `chunk` of the bytes the pending input still yields. -/
theorem World.Refines.inner_loops_end {σ τ : Type} {w : World σ τ}
    {dec : σ → List Byte → List Byte × Verdict} (hr : w.Refines dec)
    (chunk : Nat) (hchunk : 0 < chunk) : DrainEnds w chunk := by
  have key : ∀ (m : Nat) (s : σ) (ni : List Byte), (dec s ni).1.length ≤ m →
      ∃ n, ((w.stepAfter chunk n s ni).ret = Z_NEED_DICT ∨
          (w.stepAfter chunk n s ni).ret = Z_DATA_ERROR ∨
          (w.stepAfter chunk n s ni).ret = Z_MEM_ERROR) ∨
        ((w.stepAfter chunk n s ni).out.take chunk).length < chunk := by
    intro m
    induction m with
    | zero =>
      intro s ni hm
      obtain ⟨hle, hcases⟩ := hr s ni chunk hchunk
      by_cases hfull : (w.inflate s ni chunk).out.length < chunk
      · exact ⟨0, Or.inr (by simp only [World.stepAfter, List.length_take]; omega)⟩
      · exfalso
        rcases hcases with ⟨a1, a2, a3⟩ | ⟨a1, a2, a3⟩ | ⟨a1, a2⟩
        · have h := a2 []
          simp only [List.append_nil] at h
          rw [h] at hm
          simp only [List.length_append] at hm
          omega
        · have h := a2 []
          simp only [List.append_nil] at h
          rw [h] at hm
          simp only at hm
          omega
        · have h := (a2 []).2.length_le
          simp only [List.append_nil] at h
          omega
    | succ m ih =>
      intro s ni hm
      obtain ⟨hle, hcases⟩ := hr s ni chunk hchunk
      by_cases hfull : (w.inflate s ni chunk).out.length < chunk
      · exact ⟨0, Or.inr (by simp only [World.stepAfter, List.length_take]; omega)⟩
      · rcases hcases with ⟨a1, a2, a3⟩ | ⟨a1, a2, a3⟩ | ⟨a1, a2⟩
        · have h := a2 []
          simp only [List.append_nil] at h
          rw [h] at hm
          simp only [List.length_append] at hm
          obtain ⟨n, hn⟩ := ih (w.inflate s ni chunk).state (w.inflate s ni chunk).next_in
            (by omega)
          exact ⟨n + 1, hn⟩
        · obtain ⟨n, hn⟩ := ih (w.inflate s ni chunk).state (w.inflate s ni chunk).next_in
            (by rw [a3]; simp)
          exact ⟨n + 1, hn⟩
        · exact ⟨0, Or.inl (Or.inr (Or.inl a1))⟩
  intro s ni
  exact key _ s ni (le_refl _)

/-- A whole run of either file on an engine that decodes a stream, with no
failing stream call and a buffer of at least one byte: given enough loop bodies
it returns, `Z_DATA_ERROR` on an empty input and the status of the verdict of
the stream otherwise; the sink holds bytes from the front of the decoded ones,
and all of them when the input is not empty and the stream is not malformed. -/
theorem World.Refines.run_yields {σ τ : Type} {w : World σ τ}
    {dec : σ → List Byte → List Byte × Verdict} (hr : w.Refines dec) (hw : w.Reliable)
    (var : Variant) (hinit : (var.init w).1 = Z_OK) (chunk : Nat) (hchunk : 0 < chunk)
    (input : List Byte) :
    ∃ F, ∀ k,
      (decompressWith var w chunk input (F + k)).outcome =
        Outcome.returned
          (if input = [] then Z_DATA_ERROR else (dec (var.init w).2 input).2.status) ∧
      ((dec (var.init w).2 input).2 ≠ Verdict.corrupt →
        sinkBytes (decompressWith var w chunk input (F + k)).trace =
          if input = [] then [] else (dec (var.init w).2 input).1) ∧
      sinkBytes (decompressWith var w chunk input (F + k)).trace <+:
        (dec (var.init w).2 input).1 := by
  obtain ⟨f, hf⟩ := ZlibDecompress.fill_ends w chunk (hr.inner_loops_end chunk hchunk)
    input.length ⟨Z_OK, (var.init w).2, input, 0, w.dest⟩ (le_refl _)
  refine ⟨f, fun k => ?_⟩
  rw [decompress_through_loops var w chunk input (f + k) hinit (fun _ => ⟨hw.2.2.1, hw.2.2.2⟩)]
  rw [ZlibDecompress.fuel_add w chunk f _ hf k]
  simp only [Variant.sinkBytes_whole]
  by_cases hin : input = []
  · subst hin
    cases f with
    | zero => simp [ZlibDecompress.fill] at hf
    | succ f =>
      simp [ZlibDecompress.fill, Run.after, finalStatus, sinkBytes, ZlibDecompress.cleanup,
        hw.2.1]
  · rw [if_neg hin, if_neg hin]
    exact (hr.loops_yield hw chunk hchunk f).1 ⟨Z_OK, (var.init w).2, input, 0, w.dest⟩
      (show Z_OK ≠ Z_STREAM_END by decide) (Or.inl hin) hf

/-! ## The reference engine decodes a stream -/

theorem Codec.decode_corrupt {S : Type} (c : Codec S) (s : S) (i : List Byte)
    (h : c.corrupt s = true) : c.decode s i = ([], Verdict.corrupt) := by
  cases i <;> simp [Codec.decode, h]

theorem Codec.decode_finished {S : Type} (c : Codec S) (s : S) (i : List Byte)
    (h1 : c.corrupt s = false) (h : c.finished s = true) :
    c.decode s i = ([], Verdict.ended) := by
  cases i <;> simp [Codec.decode, h, h1]

theorem Codec.decode_neither {S : Type} (c : Codec S) (s : S)
    (h1 : c.corrupt s = false) (h : c.finished s = false) :
    c.decode s [] = ([], Verdict.truncated) := by
  simp [Codec.decode, h, h1]

/-- One step of the reference engine against the decoding of the stream: the
step stores no more than the room it has, and either goes on, leaving the rest
of the decoding to later steps, or stops with the verdict of the stream. -/
theorem Codec.pump_spec {S : Type} (c : Codec S) :
    ∀ (ni : List Byte) (s : S) (pend : List Byte) (room : Nat),
    (c.pump s pend ni room).out.length ≤ room ∧
    (((c.pump s pend ni room).ret = Z_OK ∧
        (∀ X, pend ++ (c.decode s (ni ++ X)).1 =
            (c.pump s pend ni room).out ++ ((c.pump s pend ni room).state.2 ++
              (c.decode (c.pump s pend ni room).state.1
                ((c.pump s pend ni room).next_in ++ X)).1) ∧
          (c.decode s (ni ++ X)).2 =
            (c.decode (c.pump s pend ni room).state.1
              ((c.pump s pend ni room).next_in ++ X)).2) ∧
        ((c.pump s pend ni room).out.length < room →
          (c.pump s pend ni room).next_in = [] ∧ (c.pump s pend ni room).state.2 = [] ∧
          c.corrupt (c.pump s pend ni room).state.1 = false ∧
          c.finished (c.pump s pend ni room).state.1 = false)) ∨
     ((c.pump s pend ni room).ret = Z_STREAM_END ∧
        (∀ X, (c.decode s (ni ++ X)).2 = Verdict.ended ∧
          (c.pump s pend ni room).out = pend ++ (c.decode s (ni ++ X)).1) ∧
        (c.pump s pend ni room).state.2 = [] ∧
        c.corrupt (c.pump s pend ni room).state.1 = false ∧
        c.finished (c.pump s pend ni room).state.1 = true) ∨
     ((c.pump s pend ni room).ret = Z_DATA_ERROR ∧
        ∀ X, (c.decode s (ni ++ X)).2 = Verdict.corrupt ∧
          (c.pump s pend ni room).out = pend ++ (c.decode s (ni ++ X)).1)) := by
  intro ni
  induction ni with
  | nil =>
    intro s pend room
    simp only [Codec.pump, List.nil_append]
    split_ifs with h1 h2 h3
    · refine ⟨by simp, Or.inl ⟨rfl, fun X => ⟨?_, rfl⟩, fun h => ?_⟩⟩
      · simp only [← List.append_assoc, List.take_append_drop]
        rfl
      · simp only [List.length_take] at h
        omega
    · refine ⟨by simp only; omega, Or.inr (Or.inr ⟨rfl, fun X => ?_⟩)⟩
      rw [c.decode_corrupt s X h2]
      simp
    · simp only [Bool.not_eq_true] at h2
      refine ⟨by simp only; omega, Or.inr (Or.inl ⟨rfl, fun X => ?_, rfl, h2, h3⟩)⟩
      rw [c.decode_finished s X h2 h3]
      simp
    · simp only [Bool.not_eq_true] at h2 h3
      exact ⟨by simp only; omega,
        Or.inl ⟨rfl, fun X => ⟨rfl, rfl⟩, fun _ => ⟨rfl, rfl, h2, h3⟩⟩⟩
  | cons b rest ih =>
    intro s pend room
    simp only [Codec.pump, List.cons_append]
    split_ifs with h1 h2 h3
    · refine ⟨by simp, Or.inl ⟨rfl, fun X => ⟨?_, rfl⟩, fun h => ?_⟩⟩
      · simp only [← List.append_assoc, List.take_append_drop, List.cons_append]
      · simp only [List.length_take] at h
        omega
    · refine ⟨by simp only; omega, Or.inr (Or.inr ⟨rfl, fun X => ?_⟩)⟩
      rw [c.decode_corrupt s _ h2]
      simp
    · simp only [Bool.not_eq_true] at h2
      refine ⟨by simp only; omega, Or.inr (Or.inl ⟨rfl, fun X => ?_, rfl, h2, h3⟩)⟩
      rw [c.decode_finished s _ h2 h3]
      simp
    · simp only [Bool.not_eq_true] at h2 h3
      obtain ⟨hle, hcases⟩ := ih (c.step s b).1 (c.step s b).2 (room - pend.length)
      have hdec : ∀ X, c.decode s (b :: (rest ++ X)) =
          ((c.step s b).2 ++ (c.decode (c.step s b).1 (rest ++ X)).1,
            (c.decode (c.step s b).1 (rest ++ X)).2) := by
        intro X
        simp [Codec.decode, h2, h3]
      simp only [hdec, List.length_append]
      refine ⟨by omega, ?_⟩
      rcases hcases with ⟨a1, a2, a3⟩ | ⟨a1, a2, a3, a4, a5⟩ | ⟨a1, a2⟩
      · refine Or.inl ⟨a1, fun X => ⟨?_, (a2 X).2⟩, fun h => a3 (by omega)⟩
        rw [(a2 X).1]
        simp only [List.append_assoc]
      · refine Or.inr (Or.inl ⟨a1, fun X => ⟨(a2 X).1, ?_⟩, a3, a4, a5⟩)
        rw [(a2 X).2]
      · refine Or.inr (Or.inr ⟨a1, fun X => ⟨(a2 X).1, ?_⟩⟩)
        rw [(a2 X).2]

/-- The reference engine is an engine that decodes a stream: its steps add up
to the decoding `Codec.rest`, whatever the room and however the input is split. -/
theorem Codec.world_refines {S : Type} (c : Codec S) : c.world.Refines c.rest := by
  intro st ni room hroom
  obtain ⟨s, pend⟩ := st
  obtain ⟨hle, hcases⟩ := c.pump_spec ni s pend room
  simp only [show c.world.inflate = c.inflate from rfl, Codec.rest]
  unfold Codec.inflate
  dsimp only
  split_ifs with h
  · obtain ⟨h1, h2, h3⟩ := h
    refine ⟨hle, ?_⟩
    rcases hcases with ⟨a1, a2, a3⟩ | ⟨a1, a2, a3, a4, a5⟩ | ⟨a1, a2⟩
    · refine Or.inl ⟨Or.inr rfl, fun X => ?_, fun h => ?_⟩
      · rw [(a2 X).1, (a2 X).2]
      · obtain ⟨b1, b2, b3, b4⟩ := a3 h
        exact ⟨b1, by rw [b2, c.decode_neither _ b3 b4]; rfl⟩
    · rw [a1] at h1; simp at h1
    · rw [a1] at h1; simp at h1
  · refine ⟨hle, ?_⟩
    rcases hcases with ⟨a1, a2, a3⟩ | ⟨a1, a2, a3, a4, a5⟩ | ⟨a1, a2⟩
    · refine Or.inl ⟨Or.inl a1, fun X => ?_, fun h => ?_⟩
      · rw [(a2 X).1, (a2 X).2]
      · obtain ⟨b1, b2, b3, b4⟩ := a3 h
        exact ⟨b1, by rw [b2, c.decode_neither _ b3 b4]; rfl⟩
    · refine Or.inr (Or.inl ⟨a1, fun X => ?_, fun I => ?_⟩)
      · rw [(a2 X).1, (a2 X).2]
      · rw [a3, c.decode_finished _ I a4 a5]; rfl
    · refine Or.inr (Or.inr ⟨a1, fun X => ⟨(a2 X).1, ?_⟩⟩)
      rw [(a2 X).2]

/-- No stream call fails in the world of the reference engine. -/
theorem Codec.world_reliable {S : Type} (c : Codec S) : c.world.Reliable :=
  ⟨fun _ _ => ⟨rfl, rfl⟩, fun _ => rfl, rfl, rfl⟩

/-- The initialisation call of either file opens a session of the reference
engine for the framing of that file: gzip for common_zlib.h, zlib for
zlib_decompress.h. -/
theorem Codec.init_world {S : Type} (c : Codec S) (var : Variant) :
    var.init c.world = (Z_OK, (c.start var.framing, [])) := by
  cases var <;> rfl

theorem tagged_literal (b : Byte) (X : List Byte) :
    tagged.decode Tagged.tag (1 :: b :: X) =
      (b :: (tagged.decode Tagged.tag X).1, (tagged.decode Tagged.tag X).2) := rfl

theorem tagged_run (b : Byte) (X : List Byte) :
    tagged.decode Tagged.tag (2 :: b :: X) =
      (b :: b :: b :: b :: (tagged.decode Tagged.tag X).1,
        (tagged.decode Tagged.tag X).2) := rfl

/-- The items of a byte sequence decode to the sequence, followed by the end of
the stream. -/
theorem tagged_items_decode (B : List Byte) :
    tagged.decode Tagged.tag (taggedItems B) = (B, Verdict.ended) := by
  induction B using taggedItems.induct with
  | case1 a b c d more h ih =>
    obtain ⟨rfl, rfl, rfl⟩ := h
    rw [taggedItems, if_pos ⟨rfl, rfl, rfl⟩, tagged_run, ih]
  | case2 a b c d more h ih =>
    rw [taggedItems, if_neg h, tagged_literal, ih]
  | case3 a rest h ih =>
    have e : taggedItems (a :: rest) = 1 :: a :: taggedItems rest := by
      rw [taggedItems]
      exact h
    rw [e, tagged_literal, ih]
  | case4 => decide

/-- The encoders `taggedEncode` are paired with the format `tagged`: in every
framing the encoding of a byte sequence decodes to the sequence, followed by the
end of the stream. -/
theorem tagged_paired (f : Framing) (B : List Byte) :
    tagged.decode (tagged.start f) (taggedEncode f B) = (B, Verdict.ended) := by
  have h := tagged_items_decode B
  cases f
  · exact h
  · show tagged.decode Tagged.zlibHead (120 :: taggedItems B) = _
    have e : tagged.decode Tagged.zlibHead (120 :: taggedItems B) =
        tagged.decode Tagged.tag (taggedItems B) := rfl
    rw [e, h]
  · show tagged.decode Tagged.gzipHead (31 :: taggedItems B) = _
    have e : tagged.decode Tagged.gzipHead (31 :: taggedItems B) =
        tagged.decode Tagged.tag (taggedItems B) := rfl
    rw [e, h]
  · show tagged.decode Tagged.autoHead (31 :: taggedItems B) = _
    have e : tagged.decode Tagged.autoHead (31 :: taggedItems B) =
        tagged.decode Tagged.tag (taggedItems B) := rfl
    rw [e, h]

theorem taggedEncode_ne_nil (f : Framing) (B : List Byte) : taggedEncode f B ≠ [] := by
  cases f
  · cases B with
    | nil => simp [taggedEncode, taggedItems]
    | cons a rest =>
      intro h
      have h1 := tagged_items_decode (a :: rest)
      have h2 : taggedItems (a :: rest) = [] := h
      have h3 : tagged.decode Tagged.tag [] = ([], Verdict.truncated) := by decide
      rw [h2, h3] at h1
      simp at h1
  · simp [taggedEncode]
  · simp [taggedEncode]
  · simp [taggedEncode]

/-- A fresh session of the reference engine for `tagged` in any framing decodes
the encoding of a byte sequence in that framing, which is not empty, to the
sequence, followed by the end of the stream. -/
theorem tagged_session_paired (f : Framing) (B : List Byte) :
    taggedEncode f B ≠ [] ∧
    tagged.rest (tagged.start f, []) (taggedEncode f B) = (B, Verdict.ended) := by
  have h := tagged_paired f B
  exact ⟨taggedEncode_ne_nil f B, Prod.ext (congrArg Prod.fst h) (congrArg Prod.snd h)⟩

/-! ## Chunk-boundary invariance and round trip -/

/-- A run of either file that has ended is the same for every larger bound on
the number of loop bodies. -/
theorem decompress_fuel_add {σ τ : Type} (var : Variant) (w : World σ τ) (chunk : Nat)
    (input : List Byte) (f : Nat)
    (h : (decompressWith var w chunk input f).outcome ≠ Outcome.unfinished) (k : Nat) :
    decompressWith var w chunk input (f + k) = decompressWith var w chunk input f := by
  by_cases hn : (var.init w).1 = Z_OK ∧
      (var = Variant.common_zlib → w.errno_fmemopen = 0 ∧ w.errno_fdopen = 0)
  · rw [decompress_through_loops var w chunk input f hn.1 hn.2] at h
    rw [decompress_through_loops var w chunk input (f + k) hn.1 hn.2,
      decompress_through_loops var w chunk input f hn.1 hn.2,
      ZlibDecompress.fuel_add w chunk f _ h k]
  · exact decompress_early var w chunk input _ _ hn

/-- C11, counterexample. The reference engine for the format `tagged` decodes
the gzip stream of five items of four bytes each, followed by a byte that is no
tag, to twenty bytes and finds it malformed.  With a buffer of 16 bytes the run
of common_zlib.h writes sixteen of them to the sink before the step that
reports `Z_DATA_ERROR`; with a buffer of 32 bytes it writes none, because the
step that decodes them is the step that reports `Z_DATA_ERROR`, and the bytes of
that step are not written.  And on an engine that stores sixteen bytes with
`Z_STREAM_END` and answers a further call with `Z_BUF_ERROR`, the same sixteen
bytes reach the sink with a buffer of 16 and of 17 bytes, but the run returns
`Z_DATA_ERROR` with the first and `Z_OK` with the second. -/
theorem chunk_size_changes_sink :
    tagged.decode (tagged.start Framing.gzip) [31, 2, 7, 2, 7, 2, 7, 2, 7, 2, 7, 9] =
      ([7, 7, 7, 7, 7, 7, 7, 7, 7, 7, 7, 7, 7, 7, 7, 7, 7, 7, 7, 7], Verdict.corrupt) ∧
    (∀ k, decompressWith Variant.common_zlib tagged.world 16
        [31, 2, 7, 2, 7, 2, 7, 2, 7, 2, 7, 9] (3 + k) =
      ⟨Outcome.returned Z_DATA_ERROR,
        [Event.inflateInit2 31 Z_OK,
          Event.fmemopen [31, 2, 7, 2, 7, 2, 7, 2, 7, 2, 7, 9],
          Event.errno 0, Event.fdopen, Event.errno 0,
          Event.fread [31, 2, 7, 2, 7, 2, 7, 2, 7, 2, 7, 9] false,
          Event.inflate [31, 2, 7, 2, 7, 2, 7, 2, 7, 2, 7, 9] Z_OK
            [7, 7, 7, 7, 7, 7, 7, 7, 7, 7, 7, 7, 7, 7, 7, 7],
          Event.fwrite [7, 7, 7, 7, 7, 7, 7, 7, 7, 7, 7, 7, 7, 7, 7, 7] 16 false,
          Event.inflate [9] Z_DATA_ERROR [7, 7, 7, 7],
          Event.inflateEnd, Event.fcloseSource, Event.fcloseDest]⟩) ∧
    (∀ k, decompressWith Variant.common_zlib tagged.world 32
        [31, 2, 7, 2, 7, 2, 7, 2, 7, 2, 7, 9] (3 + k) =
      ⟨Outcome.returned Z_DATA_ERROR,
        [Event.inflateInit2 31 Z_OK,
          Event.fmemopen [31, 2, 7, 2, 7, 2, 7, 2, 7, 2, 7, 9],
          Event.errno 0, Event.fdopen, Event.errno 0,
          Event.fread [31, 2, 7, 2, 7, 2, 7, 2, 7, 2, 7, 9] false,
          Event.inflate [31, 2, 7, 2, 7, 2, 7, 2, 7, 2, 7, 9] Z_DATA_ERROR
            [7, 7, 7, 7, 7, 7, 7, 7, 7, 7, 7, 7, 7, 7, 7, 7, 7, 7, 7, 7],
          Event.inflateEnd, Event.fcloseSource, Event.fcloseDest]⟩) ∧
    (∀ k, sinkBytes (decompressWith Variant.common_zlib tagged.world 16
        [31, 2, 7, 2, 7, 2, 7, 2, 7, 2, 7, 9] (3 + k)).trace =
      [7, 7, 7, 7, 7, 7, 7, 7, 7, 7, 7, 7, 7, 7, 7, 7]) ∧
    (∀ k, sinkBytes (decompressWith Variant.common_zlib tagged.world 32
        [31, 2, 7, 2, 7, 2, 7, 2, 7, 2, 7, 9] (3 + k)).trace = []) ∧
    (∀ k, decompressWith Variant.common_zlib
        (scripted [(Z_STREAM_END, [7, 7, 7, 7, 7, 7, 7, 7, 7, 7, 7, 7, 7, 7, 7, 7]),
          (Z_BUF_ERROR, [])]) 16 [1] (4 + k) =
      ⟨Outcome.returned Z_DATA_ERROR,
        [Event.inflateInit2 31 Z_OK, Event.fmemopen [1], Event.errno 0, Event.fdopen,
          Event.errno 0, Event.fread [1] false,
          Event.inflate [1] Z_STREAM_END [7, 7, 7, 7, 7, 7, 7, 7, 7, 7, 7, 7, 7, 7, 7, 7],
          Event.fwrite [7, 7, 7, 7, 7, 7, 7, 7, 7, 7, 7, 7, 7, 7, 7, 7] 16 false,
          Event.inflate [] Z_BUF_ERROR [], Event.fwrite [] 0 false, Event.fread [] false,
          Event.inflateEnd, Event.fcloseSource, Event.fcloseDest]⟩) ∧
    (∀ k, decompressWith Variant.common_zlib
        (scripted [(Z_STREAM_END, [7, 7, 7, 7, 7, 7, 7, 7, 7, 7, 7, 7, 7, 7, 7, 7]),
          (Z_BUF_ERROR, [])]) 17 [1] (4 + k) =
      ⟨Outcome.returned Z_OK,
        [Event.inflateInit2 31 Z_OK, Event.fmemopen [1], Event.errno 0, Event.fdopen,
          Event.errno 0, Event.fread [1] false,
          Event.inflate [1] Z_STREAM_END [7, 7, 7, 7, 7, 7, 7, 7, 7, 7, 7, 7, 7, 7, 7, 7],
          Event.fwrite [7, 7, 7, 7, 7, 7, 7, 7, 7, 7, 7, 7, 7, 7, 7, 7] 16 false,
          Event.inflateEnd, Event.fcloseSource, Event.fcloseDest]⟩) := by
  have h16 := decompress_fuel_add Variant.common_zlib tagged.world 16
    [31, 2, 7, 2, 7, 2, 7, 2, 7, 2, 7, 9] 3 (by decide)
  have h32 := decompress_fuel_add Variant.common_zlib tagged.world 32
    [31, 2, 7, 2, 7, 2, 7, 2, 7, 2, 7, 9] 3 (by decide)
  have s16 := decompress_fuel_add Variant.common_zlib
    (scripted [(Z_STREAM_END, [7, 7, 7, 7, 7, 7, 7, 7, 7, 7, 7, 7, 7, 7, 7, 7]),
      (Z_BUF_ERROR, [])]) 16 [1] 4 (by decide)
  have s17 := decompress_fuel_add Variant.common_zlib
    (scripted [(Z_STREAM_END, [7, 7, 7, 7, 7, 7, 7, 7, 7, 7, 7, 7, 7, 7, 7, 7]),
      (Z_BUF_ERROR, [])]) 17 [1] 4 (by decide)
  refine ⟨by decide, fun k => ?_, fun k => ?_, fun k => ?_, fun k => ?_, fun k => ?_,
    fun k => ?_⟩
  · rw [h16 k]; decide
  · rw [h32 k]; decide
  · rw [h16 k]; decide
  · rw [h32 k]; decide
  · rw [s16 k]; decide
  · rw [s17 k]; decide

/-- C11, amended. Chunk-boundary invariance for every engine that decodes a
stream, that is, whose steps add up to one decoding of the stream for every
buffer size and however the input is split, and that reports `Z_STREAM_END`
when the decoding has ended and again on every later step (`World.Refines`),
with no failing stream call and a successful initialisation.  For either file
and the same input, the runs with any two buffer sizes of at least one byte (so
any two from 16 to 65536) return, given enough loop bodies, the same status.
When the stream is not malformed the two sinks hold the same bytes, which are
the decoded bytes when the input is not empty; in every case each sink holds
bytes from the front of the decoded ones. -/
theorem chunk_invariance {σ τ : Type} (w : World σ τ)
    (dec : σ → List Byte → List Byte × Verdict) (hr : w.Refines dec) (hw : w.Reliable)
    (var : Variant) (hinit : (var.init w).1 = Z_OK) (input : List Byte)
    (chunk chunk1 : Nat) (h : 0 < chunk) (h1 : 0 < chunk1) :
    ∃ F, ∀ k,
      (∃ ret,
        (decompressWith var w chunk input (F + k)).outcome = Outcome.returned ret ∧
        (decompressWith var w chunk1 input (F + k)).outcome = Outcome.returned ret) ∧
      ((dec (var.init w).2 input).2 ≠ Verdict.corrupt →
        sinkBytes (decompressWith var w chunk input (F + k)).trace =
          sinkBytes (decompressWith var w chunk1 input (F + k)).trace ∧
        (input ≠ [] →
          sinkBytes (decompressWith var w chunk input (F + k)).trace =
            (dec (var.init w).2 input).1)) ∧
      sinkBytes (decompressWith var w chunk input (F + k)).trace <+:
        (dec (var.init w).2 input).1 ∧
      sinkBytes (decompressWith var w chunk1 input (F + k)).trace <+:
        (dec (var.init w).2 input).1 := by
  obtain ⟨F, hF⟩ := hr.run_yields hw var hinit chunk h input
  obtain ⟨G, hG⟩ := hr.run_yields hw var hinit chunk1 h1 input
  refine ⟨F + G, fun k => ?_⟩
  have a := hF (G + k)
  have b := hG (F + k)
  rw [← Nat.add_assoc] at a
  rw [← Nat.add_assoc, Nat.add_comm G F] at b
  refine ⟨⟨_, a.1, b.1⟩, fun hv => ⟨?_, fun hne => ?_⟩, a.2.2, b.2.2⟩
  · rw [a.2.1 hv, b.2.1 hv]
  · rw [a.2.1 hv, if_neg hne]

theorem chunk_invariance_witness :
    tagged.world.Refines tagged.rest ∧ tagged.world.Reliable ∧
    (Variant.common_zlib.init tagged.world).1 = Z_OK ∧ 0 < 16 ∧ 0 < 17 ∧
    tagged.rest (Variant.common_zlib.init tagged.world).2 [31, 2, 7, 2, 7, 2, 7, 2, 7, 0] =
      ([7, 7, 7, 7, 7, 7, 7, 7, 7, 7, 7, 7, 7, 7, 7, 7], Verdict.ended) ∧
    decompressWith Variant.common_zlib tagged.world 16 [31, 2, 7, 2, 7, 2, 7, 2, 7, 0] 3 =
      ⟨Outcome.returned Z_OK,
        [Event.inflateInit2 31 Z_OK, Event.fmemopen [31, 2, 7, 2, 7, 2, 7, 2, 7, 0],
          Event.errno 0, Event.fdopen, Event.errno 0,
          Event.fread [31, 2, 7, 2, 7, 2, 7, 2, 7, 0] false,
          Event.inflate [31, 2, 7, 2, 7, 2, 7, 2, 7, 0] Z_STREAM_END
            [7, 7, 7, 7, 7, 7, 7, 7, 7, 7, 7, 7, 7, 7, 7, 7],
          Event.fwrite [7, 7, 7, 7, 7, 7, 7, 7, 7, 7, 7, 7, 7, 7, 7, 7] 16 false,
          Event.inflate [] Z_STREAM_END [], Event.fwrite [] 0 false,
          Event.inflateEnd, Event.fcloseSource, Event.fcloseDest]⟩ ∧
    decompressWith Variant.common_zlib tagged.world 17 [31, 2, 7, 2, 7, 2, 7, 2, 7, 0] 3 =
      ⟨Outcome.returned Z_OK,
        [Event.inflateInit2 31 Z_OK, Event.fmemopen [31, 2, 7, 2, 7, 2, 7, 2, 7, 0],
          Event.errno 0, Event.fdopen, Event.errno 0,
          Event.fread [31, 2, 7, 2, 7, 2, 7, 2, 7, 0] false,
          Event.inflate [31, 2, 7, 2, 7, 2, 7, 2, 7, 0] Z_STREAM_END
            [7, 7, 7, 7, 7, 7, 7, 7, 7, 7, 7, 7, 7, 7, 7, 7],
          Event.fwrite [7, 7, 7, 7, 7, 7, 7, 7, 7, 7, 7, 7, 7, 7, 7, 7] 16 false,
          Event.inflateEnd, Event.fcloseSource, Event.fcloseDest]⟩ ∧
    ∃ F, ∀ k,
      (∃ ret,
        (decompressWith Variant.common_zlib tagged.world 16 [31, 2, 7, 2, 7, 2, 7, 2, 7, 0]
          (F + k)).outcome = Outcome.returned ret ∧
        (decompressWith Variant.common_zlib tagged.world 17 [31, 2, 7, 2, 7, 2, 7, 2, 7, 0]
          (F + k)).outcome = Outcome.returned ret) ∧
      ((tagged.rest (Variant.common_zlib.init tagged.world).2
          [31, 2, 7, 2, 7, 2, 7, 2, 7, 0]).2 ≠ Verdict.corrupt →
        sinkBytes (decompressWith Variant.common_zlib tagged.world 16
          [31, 2, 7, 2, 7, 2, 7, 2, 7, 0] (F + k)).trace =
          sinkBytes (decompressWith Variant.common_zlib tagged.world 17
            [31, 2, 7, 2, 7, 2, 7, 2, 7, 0] (F + k)).trace ∧
        ([31, 2, 7, 2, 7, 2, 7, 2, 7, 0] ≠ ([] : List Byte) →
          sinkBytes (decompressWith Variant.common_zlib tagged.world 16
            [31, 2, 7, 2, 7, 2, 7, 2, 7, 0] (F + k)).trace =
            (tagged.rest (Variant.common_zlib.init tagged.world).2
              [31, 2, 7, 2, 7, 2, 7, 2, 7, 0]).1)) ∧
      sinkBytes (decompressWith Variant.common_zlib tagged.world 16
        [31, 2, 7, 2, 7, 2, 7, 2, 7, 0] (F + k)).trace <+:
        (tagged.rest (Variant.common_zlib.init tagged.world).2
          [31, 2, 7, 2, 7, 2, 7, 2, 7, 0]).1 ∧
      sinkBytes (decompressWith Variant.common_zlib tagged.world 17
        [31, 2, 7, 2, 7, 2, 7, 2, 7, 0] (F + k)).trace <+:
        (tagged.rest (Variant.common_zlib.init tagged.world).2
          [31, 2, 7, 2, 7, 2, 7, 2, 7, 0]).1 :=
  ⟨tagged.world_refines, tagged.world_reliable, rfl, by decide, by decide, by decide,
    by decide, by decide,
    chunk_invariance tagged.world tagged.rest tagged.world_refines tagged.world_reliable
      Variant.common_zlib rfl [31, 2, 7, 2, 7, 2, 7, 2, 7, 0] 16 17 (by decide) (by decide)⟩

/-- C12. Round trip, for every engine that decodes a stream (`World.Refines`),
with no failing stream call.  The gzip encoder is paired with the session that
`inflateInit2(&stream, 16 + MAX_WBITS)` of common_zlib.h opens, the zlib encoder
with the session that `inflateInit(&stream)` of zlib_decompress.h opens: the
call succeeds, and the session decodes the encoding of every byte sequence,
which is not empty, to the sequence followed by the end-of-stream marker.  Then
for every byte sequence `B` and every buffer size of at least one byte, so for
`CHUNK`, `decompress` of either file on the encoding of `B` by its encoder
returns `Z_OK`, given enough loop bodies, and the sink holds exactly `B`. -/
theorem round_trip {σ τ : Type} (w : World σ τ)
    (dec : σ → List Byte → List Byte × Verdict) (hr : w.Refines dec) (hw : w.Reliable)
    (gzipEncode zlibEncode : List Byte → List Byte)
    (hg0 : (w.inflateInit2 (16 + MAX_WBITS)).1 = Z_OK)
    (hg : ∀ B, gzipEncode B ≠ [] ∧
      dec (w.inflateInit2 (16 + MAX_WBITS)).2 (gzipEncode B) = (B, Verdict.ended))
    (hz0 : w.inflateInit.1 = Z_OK)
    (hz : ∀ B, zlibEncode B ≠ [] ∧ dec w.inflateInit.2 (zlibEncode B) = (B, Verdict.ended))
    (chunk : Nat) (hchunk : 0 < chunk) (B : List Byte) :
    (∃ F, ∀ k,
      (decompressWith Variant.common_zlib w chunk (gzipEncode B) (F + k)).outcome =
        Outcome.returned Z_OK ∧
      sinkBytes (decompressWith Variant.common_zlib w chunk (gzipEncode B) (F + k)).trace =
        B) ∧
    (∃ F, ∀ k,
      (decompressWith Variant.zlib_decompress w chunk (zlibEncode B) (F + k)).outcome =
        Outcome.returned Z_OK ∧
      sinkBytes (decompressWith Variant.zlib_decompress w chunk (zlibEncode B)
        (F + k)).trace = B) ∧
    (∃ F, ∀ k,
      (decompress Variant.common_zlib w (gzipEncode B) (F + k)).outcome =
        Outcome.returned Z_OK ∧
      sinkBytes (decompress Variant.common_zlib w (gzipEncode B) (F + k)).trace = B) ∧
    (∃ F, ∀ k,
      (decompress Variant.zlib_decompress w (zlibEncode B) (F + k)).outcome =
        Outcome.returned Z_OK ∧
      sinkBytes (decompress Variant.zlib_decompress w (zlibEncode B) (F + k)).trace = B) := by
  have key : ∀ (var : Variant) (encode : List Byte → List Byte),
      (var.init w).1 = Z_OK →
      (∀ B, encode B ≠ [] ∧ dec (var.init w).2 (encode B) = (B, Verdict.ended)) →
      ∀ c, 0 < c → ∃ F, ∀ k,
        (decompressWith var w c (encode B) (F + k)).outcome = Outcome.returned Z_OK ∧
        sinkBytes (decompressWith var w c (encode B) (F + k)).trace = B := by
    intro var encode h0 hp c hc
    obtain ⟨F, hF⟩ := hr.run_yields hw var h0 c hc (encode B)
    refine ⟨F, fun k => ?_⟩
    obtain ⟨a1, a2, -⟩ := hF k
    rw [(hp B).2, if_neg (hp B).1] at a1
    rw [(hp B).2, if_neg (hp B).1] at a2
    exact ⟨a1, a2 (fun h => Verdict.noConfusion h)⟩
  refine ⟨key Variant.common_zlib gzipEncode hg0 hg chunk hchunk,
    key Variant.zlib_decompress zlibEncode hz0 hz chunk hchunk, ?_, ?_⟩
  · obtain ⟨F, hF⟩ := key Variant.common_zlib gzipEncode hg0 hg CHUNK (by decide)
    exact ⟨F, fun k => by rw [decompress_eq]; exact hF k⟩
  · obtain ⟨F, hF⟩ := key Variant.zlib_decompress zlibEncode hz0 hz CHUNK (by decide)
    exact ⟨F, fun k => by rw [decompress_eq]; exact hF k⟩

theorem round_trip_witness :
    tagged.world.Refines tagged.rest ∧ tagged.world.Reliable ∧
    (tagged.world.inflateInit2 (16 + MAX_WBITS)).1 = Z_OK ∧
    (∀ B, taggedEncode Framing.gzip B ≠ [] ∧
      tagged.rest (tagged.world.inflateInit2 (16 + MAX_WBITS)).2
        (taggedEncode Framing.gzip B) = (B, Verdict.ended)) ∧
    tagged.world.inflateInit.1 = Z_OK ∧
    (∀ B, taggedEncode Framing.zlib B ≠ [] ∧
      tagged.rest tagged.world.inflateInit.2 (taggedEncode Framing.zlib B) =
        (B, Verdict.ended)) ∧
    0 < 4 ∧
    taggedEncode Framing.gzip [7, 7, 7, 7] = [31, 2, 7, 0] ∧
    taggedEncode Framing.zlib [7, 7, 7, 7] = [120, 2, 7, 0] ∧
    decompressWith Variant.common_zlib tagged.world 4 [31, 2, 7, 0] 3 =
      ⟨Outcome.returned Z_OK,
        [Event.inflateInit2 31 Z_OK, Event.fmemopen [31, 2, 7, 0], Event.errno 0,
          Event.fdopen, Event.errno 0, Event.fread [31, 2, 7, 0] false,
          Event.inflate [31, 2, 7, 0] Z_STREAM_END [7, 7, 7, 7],
          Event.fwrite [7, 7, 7, 7] 4 false,
          Event.inflate [] Z_STREAM_END [], Event.fwrite [] 0 false,
          Event.inflateEnd, Event.fcloseSource, Event.fcloseDest]⟩ ∧
    decompressWith Variant.zlib_decompress tagged.world 4 [120, 2, 7, 0] 3 =
      ⟨Outcome.returned Z_OK,
        [Event.inflateInit Z_OK, Event.fmemopen [120, 2, 7, 0],
          Event.fread [120, 2, 7, 0] false,
          Event.inflate [120, 2, 7, 0] Z_STREAM_END [7, 7, 7, 7],
          Event.fwrite [7, 7, 7, 7] 4 false,
          Event.inflate [] Z_STREAM_END [], Event.fwrite [] 0 false,
          Event.inflateEnd, Event.fcloseSource]⟩ ∧
    (decompressWith Variant.zlib_decompress tagged.world 4 [31, 2, 7, 0] 3).outcome =
      Outcome.returned Z_DATA_ERROR ∧
    (decompressWith Variant.common_zlib tagged.world 4 [120, 2, 7, 0] 3).outcome =
      Outcome.returned Z_DATA_ERROR ∧
    (∃ F, ∀ k,
      (decompressWith Variant.common_zlib tagged.world 4
        (taggedEncode Framing.gzip [7, 7, 7, 7]) (F + k)).outcome = Outcome.returned Z_OK ∧
      sinkBytes (decompressWith Variant.common_zlib tagged.world 4
        (taggedEncode Framing.gzip [7, 7, 7, 7]) (F + k)).trace = [7, 7, 7, 7]) ∧
    (∃ F, ∀ k,
      (decompress Variant.zlib_decompress tagged.world
        (taggedEncode Framing.zlib [7, 7, 7, 7]) (F + k)).outcome = Outcome.returned Z_OK ∧
      sinkBytes (decompress Variant.zlib_decompress tagged.world
        (taggedEncode Framing.zlib [7, 7, 7, 7]) (F + k)).trace = [7, 7, 7, 7]) :=
  ⟨tagged.world_refines, tagged.world_reliable, rfl,
    tagged_session_paired Framing.gzip, rfl, tagged_session_paired Framing.zlib,
    by decide, by decide, by decide, by decide, by decide, by decide, by decide,
    (round_trip tagged.world tagged.rest tagged.world_refines tagged.world_reliable
      (taggedEncode Framing.gzip) (taggedEncode Framing.zlib) rfl
      (tagged_session_paired Framing.gzip) rfl (tagged_session_paired Framing.zlib)
      4 (by decide) [7, 7, 7, 7]).1,
    (round_trip tagged.world tagged.rest tagged.world_refines tagged.world_reliable
      (taggedEncode Framing.gzip) (taggedEncode Framing.zlib) rfl
      (tagged_session_paired Framing.gzip) rfl (tagged_session_paired Framing.zlib)
      4 (by decide) [7, 7, 7, 7]).2.2.2⟩

end Zpipe
